import Mathlib

/-!
Shallow embedding of `src/layout.hpp` (non-layered tidy tree layout,
after A.J. van der Ploeg's algorithm).

The C++ code mutates a pointer-linked tree of nodes.  We model the heap as a
total function `Store : Nat → NodeData`, where a `Nat` is a node id (a
pointer); null pointers are `Option Nat`.  `double` is modelled as `ℚ`.
Recursion is fuel-bounded; every child access `t->children[i]` goes through
`childAt`, which reports an `oob` error when `i` is out of bounds, so that
in-bounds behaviour of the algorithm is a provable statement.  Fuel
exhaustion is the distinct error `fuelOut`.

Two ghost instrumentations that do not influence control flow or any value
read by the algorithm:
* `xWrites`/`yWrites` count the writes to `x` resp. `y` (the C++ assigns
  these fields directly; the counters are bumped at exactly those points);
* `sepLoop` returns the list of `move_subtree` invocations it performed,
  each with the moved child's `mod`/`msel`/`mser` before and after.
-/

namespace TidyTree

/-- One tree node: the fields required by the `TreeNode` concept, plus the
ghost write counters. -/
structure NodeData where
  children : List Nat
  parent : Option Nat
  w : ℚ
  h : ℚ
  x : ℚ
  y : ℚ
  prelim : ℚ
  mod : ℚ
  shift : ℚ
  change : ℚ
  tl : Option Nat
  tr : Option Nat
  el : Nat
  er : Nat
  msel : ℚ
  mser : ℚ
  xWrites : Nat
  yWrites : Nat
deriving Repr, DecidableEq

/-- The heap: a total map from node ids to node data. -/
def Store : Type := Nat → NodeData

/-- Errors: fuel exhaustion (the embedding's recursion bound) or an
out-of-bounds `children[i]` access. -/
inductive LErr where
  | fuelOut
  | oob
deriving Repr, DecidableEq

/-- Result monad of the embedded operations. -/
abbrev M (α : Type) := Except LErr α

/-- Write one node of the heap. -/
def setNode (st : Store) (i : Nat) (nd : NodeData) : Store :=
  fun j => if j = i then nd else st j

/-- `t->children[i]`, reporting `oob` when out of bounds. -/
def childAt (st : Store) (t i : Nat) : M Nat :=
  match (st t).children[i]? with
  | some c => .ok c
  | none => .error .oob

/-- Assign `t->x = v` (bumping the ghost write counter). -/
def setX (st : Store) (t : Nat) (v : ℚ) : Store :=
  setNode st t { st t with x := v, xWrites := (st t).xWrites + 1 }

/-- Assign `t->y = v` (bumping the ghost write counter). -/
def setY (st : Store) (t : Nat) (v : ℚ) : Store :=
  setNode st t { st t with y := v, yWrites := (st t).yWrites + 1 }

/-- `V_SPACING` from the source. -/
def V_SPACING : ℚ := 20

/-- `H_SPACING` from the source. -/
def H_SPACING : ℚ := 20

/-- The IYL chain (`lowY`, `index`), head first. -/
abbrev IYL := List (ℚ × Nat)

/-- The eviction loop of `updateIYL`:
`while (oldHead && miny >= oldHead->lowY) oldHead = oldHead->nxt`. -/
def dropEvicted (miny : ℚ) : IYL → IYL
  | [] => []
  | (l, idx) :: rest => if miny ≥ l then dropEvicted miny rest else (l, idx) :: rest

/-- `updateIYL(miny, i, oldHead)` from the source: evict, then prepend. -/
def updateIYL (miny : ℚ) (i : Nat) (oldHead : IYL) : IYL :=
  (miny, i) :: dropEvicted miny oldHead

/-- `bottom(t) = t->y + t->h`. -/
def bottom (st : Store) (t : Nat) : ℚ := (st t).y + (st t).h

/-- `next_left_contour`: first child if any, else the left thread. -/
def next_left_contour (st : Store) (t : Nat) : Option Nat :=
  match (st t).children.head? with
  | some c => some c
  | none => (st t).tl

/-- `next_right_contour`: last child if any, else the right thread. -/
def next_right_contour (st : Store) (t : Nat) : Option Nat :=
  match (st t).children.getLast? with
  | some c => some c
  | none => (st t).tr

/-- `set_extremes(t)` from the source. -/
def set_extremes (st : Store) (t : Nat) : M Store :=
  if (st t).children.length = 0 then
    .ok (setNode st t { st t with el := t, er := t, msel := 0, mser := 0 })
  else do
    let c0 ← childAt st t 0
    let cn ← childAt st t ((st t).children.length - 1)
    .ok (setNode st t
      { st t with
        el := (st c0).el, msel := (st c0).msel,
        er := (st cn).er, mser := (st cn).mser })

/-- `set_left_thread(t, i, cl, modsumcl)` from the source. -/
def set_left_thread (st : Store) (t i : Nat) (cl : Nat) (modsumcl : ℚ) : M Store := do
  let c0 ← childAt st t 0
  let li := (st c0).el
  let st1 := setNode st li { st li with tl := some cl }
  let diff := (modsumcl - (st1 cl).mod) - (st1 c0).msel
  let st2 := setNode st1 li
    { st1 li with
      mod := (st1 li).mod + diff, prelim := (st1 li).prelim - diff }
  let ci ← childAt st2 t i
  .ok (setNode st2 c0 { st2 c0 with el := (st2 ci).el, msel := (st2 ci).msel })

/-- `set_right_thread(t, i, sr, modsumsr)` from the source. -/
def set_right_thread (st : Store) (t i : Nat) (sr : Nat) (modsumsr : ℚ) : M Store := do
  let ci ← childAt st t i
  let ri := (st ci).er
  let st1 := setNode st ri { st ri with tr := some sr }
  let diff := (modsumsr - (st1 sr).mod) - (st1 ci).mser
  let st2 := setNode st1 ri
    { st1 ri with
      mod := (st1 ri).mod + diff, prelim := (st1 ri).prelim - diff }
  let cp ← childAt st2 t (i - 1)
  .ok (setNode st2 ci { st2 ci with er := (st2 cp).er, mser := (st2 cp).mser })

/-- `position_root(t)` from the source. -/
def position_root (st : Store) (t : Nat) : M Store := do
  let c0 ← childAt st t 0
  let cn ← childAt st t ((st t).children.length - 1)
  .ok (setNode st t
    { st t with
      prelim :=
        ((st c0).prelim + (st c0).mod + (st cn).mod + (st cn).prelim
          + (st cn).w) / 2 - (st t).w / 2 })

/-- `distribute_extra(t, i, si, dist)` from the source.  `nr = i - si` is
computed as in the C++ (`int` subtraction, then converted to `double`). -/
def distribute_extra (st : Store) (t i si : Nat) (dist : ℚ) : M Store :=
  if si ≠ i - 1 then do
    let nr : ℚ := (i : ℚ) - (si : ℚ)
    let cs1 ← childAt st t (si + 1)
    let st1 := setNode st cs1 { st cs1 with shift := (st cs1).shift + dist / nr }
    let ci ← childAt st1 t i
    let st2 := setNode st1 ci
      { st1 ci with
        shift := (st1 ci).shift - dist / nr,
        change := (st1 ci).change - (dist - dist / nr) }
    .ok st2
  else .ok st

/-- `move_subtree(t, i, si, dist)` from the source. -/
def move_subtree (st : Store) (t i si : Nat) (dist : ℚ) : M Store := do
  let ci ← childAt st t i
  let st1 := setNode st ci
    { st ci with
      mod := (st ci).mod + dist, msel := (st ci).msel + dist,
      mser := (st ci).mser + dist }
  distribute_extra st1 t i si dist

/-- The cursor advance inside `separate`'s loop:
`while (cursor && bottom(sr) > cursor->lowY) cursor = cursor->nxt.get()`. -/
def advanceCursor (st : Store) (sr : Nat) : IYL → IYL
  | [] => []
  | (l, idx) :: rest =>
    if bottom st sr > l then advanceCursor st sr rest else (l, idx) :: rest

/-- Ghost record of one `move_subtree` invocation performed by `separate`:
the argument `dist`, the `si` used, and child `i`'s `mod`/`msel`/`mser`
before and after the call. -/
structure MoveCall where
  si : Nat
  dist : ℚ
  modBefore : ℚ
  modAfter : ℚ
  mselBefore : ℚ
  mselAfter : ℚ
  mserBefore : ℚ
  mserAfter : ℚ
deriving Repr, DecidableEq

/-- State carried by `separate`'s contour-walk loop, plus the ghost call
log. -/
structure SepState where
  st : Store
  sr : Option Nat
  cl : Option Nat
  mssr : ℚ
  mscl : ℚ
  cursor : IYL
  calls : List MoveCall

/-- The contour advancement at the end of each loop iteration of
`separate`: advance `sr` when `sy <= cy`, advance `cl` when `sy >= cy`,
accumulating the newly reached node's `mod`. -/
def stepAdvance (st : Store) (srv clv : Nat) (mssr mscl : ℚ) :
    (Option Nat × ℚ) × (Option Nat × ℚ) :=
  let sy := bottom st srv
  let cy := bottom st clv
  let srn := if sy ≤ cy then
      match next_right_contour st srv with
      | some n => (some n, mssr + (st n).mod)
      | none => (none, mssr)
    else (some srv, mssr)
  let cln := if sy ≥ cy then
      match next_left_contour st clv with
      | some n => (some n, mscl + (st n).mod)
      | none => (none, mscl)
    else (some clv, mscl)
  (srn, cln)

/-- The `while (sr && cl)` loop of `separate`. -/
def sepLoop (fuel : Nat) (st : Store) (t i : Nat) (sr cl : Option Nat)
    (mssr mscl : ℚ) (cursor : IYL) (calls : List MoveCall) : M SepState :=
  match fuel with
  | 0 => .error .fuelOut
  | fuel + 1 =>
    match sr, cl with
    | some srv, some clv =>
      let cursor := advanceCursor st srv cursor
      let dist := (mssr + (st srv).prelim + (st srv).w + H_SPACING)
        - (mscl + (st clv).prelim)
      if 0 < dist then do
        let mscl := mscl + dist
        let si := match cursor with
          | (_, idx) :: _ => idx
          | [] => i - 1
        let ci ← childAt st t i
        let stBefore := st
        let st ← move_subtree st t i si dist
        let call : MoveCall :=
          { si := si, dist := dist,
            modBefore := (stBefore ci).mod, modAfter := (st ci).mod,
            mselBefore := (stBefore ci).msel, mselAfter := (st ci).msel,
            mserBefore := (stBefore ci).mser, mserAfter := (st ci).mser }
        let ((sr', mssr'), (cl', mscl')) := stepAdvance st srv clv mssr mscl
        sepLoop fuel st t i sr' cl' mssr' mscl' cursor (calls ++ [call])
      else
        let ((sr', mssr'), (cl', mscl')) := stepAdvance st srv clv mssr mscl
        sepLoop fuel st t i sr' cl' mssr' mscl' cursor calls
    | _, _ => .ok ⟨st, sr, cl, mssr, mscl, cursor, calls⟩

/-- `separate(t, i, ih)` from the source.  The returned list of `MoveCall`s
is ghost output recording the `move_subtree` invocations. -/
def separate (fuel : Nat) (st : Store) (t i : Nat) (ih : IYL) :
    M (Store × List MoveCall) := do
  let sr0 ← childAt st t (i - 1)
  let cl0 ← childAt st t i
  let s ← sepLoop fuel st t i (some sr0) (some cl0)
    ((st sr0).mod) ((st cl0).mod) ih []
  match s.sr, s.cl with
  | none, some clv => do
    let st' ← set_left_thread s.st t i clv s.mscl
    .ok (st', s.calls)
  | some srv, none => do
    let st' ← set_right_thread s.st t i srv s.mssr
    .ok (st', s.calls)
  | _, _ => .ok (s.st, s.calls)

/-- The `for (i = 1; i < size; ++i)` loop of `firstwalk`, modelled by
recursion over the (never mutated) tail of the parent's children list,
carrying the index `i`.  `fw` and `sep` are the fuel-instantiated recursive
calls `firstwalk fuel` and `separate fuel` supplied by `firstwalk`. -/
def fwChildren (fw : Store → Nat → M Store)
    (sep : Store → Nat → Nat → IYL → M (Store × List MoveCall))
    (st : Store) (t : Nat) (i : Nat) (cs : List Nat) (ih : IYL) : M Store :=
  match cs with
  | [] => .ok st
  | c :: rest => do
    let st ← fw st c
    let minY := bottom st c
    let (st, _) ← sep st t i ih
    fwChildren fw sep st t (i + 1) rest (updateIYL minY i ih)

/-- `firstwalk(t)` from the source (fuel-bounded; structural recursion on
the fuel so that runs reduce definitionally). -/
def firstwalk : Nat → Store → Nat → M Store
  | 0, _, _ => .error .fuelOut
  | fuel + 1, st, t =>
    let st := match (st t).parent with
      | some p => setY st t ((st p).y + (st p).h + V_SPACING)
      | none => setY st t 0
    if (st t).children.isEmpty then set_extremes st t
    else do
      let c0 ← childAt st t 0
      let st ← firstwalk fuel st c0
      let ih := updateIYL (bottom st c0) 0 []
      let st ← fwChildren (firstwalk fuel) (separate fuel) st t 1
        ((st t).children.drop 1) ih
      let st ← position_root st t
      set_extremes st t

/-- The loop body of `add_child_spacing`, over the children list, carrying
the accumulators `d` and `modsumdelta`. -/
def acsLoop (st : Store) (cs : List Nat) (d modsumdelta : ℚ) : Store :=
  match cs with
  | [] => st
  | c :: rest =>
    let d := d + (st c).shift
    let modsumdelta := modsumdelta + d + (st c).change
    let st := setNode st c { st c with mod := (st c).mod + modsumdelta }
    acsLoop st rest d modsumdelta

/-- `add_child_spacing(t)` from the source. -/
def add_child_spacing (st : Store) (t : Nat) : Store :=
  acsLoop st (st t).children 0 0

/-- The children loop of `secondwalk`; `sw` is the fuel-instantiated
recursive call `secondwalk fuel`. -/
def swChildren (sw : Store → Nat → ℚ → M Store)
    (st : Store) (cs : List Nat) (modsum : ℚ) : M Store :=
  match cs with
  | [] => .ok st
  | c :: rest => do
    let st ← sw st c modsum
    swChildren sw st rest modsum

/-- `secondwalk(t, modsum)` from the source (fuel-bounded). -/
def secondwalk : Nat → Store → Nat → ℚ → M Store
  | 0, _, _, _ => .error .fuelOut
  | fuel + 1, st, t, modsum =>
    let modsum := modsum + (st t).mod
    let st := setX st t ((st t).prelim + modsum)
    let st := add_child_spacing st t
    swChildren (secondwalk fuel) st ((st t).children) modsum

/-- `layout(t)`: `firstwalk(t)` then `secondwalk(t, 0)`. -/
def layout (fuel : Nat) (st : Store) (t : Nat) : M Store := do
  let st ← firstwalk fuel st t
  secondwalk fuel st t 0

/-! ### Concrete stores used as inputs of counterexamples and witnesses -/

/-- A node with all fields at zero / none. -/
def blank : NodeData :=
  { children := [], parent := none, w := 0, h := 0, x := 0, y := 0,
    prelim := 0, mod := 0, shift := 0, change := 0, tl := none, tr := none,
    el := 0, er := 0, msel := 0, mser := 0, xWrites := 0, yWrites := 0 }

/-- Five-node input: root 0 (w=5, h=5) with children 1 (leaf, 5×200),
2 (5×5, one child 3 of size 200×5) and 4 (leaf, 5×50); all working fields
at their neutral initial state. -/
def exStore : Store := fun j =>
  if j = 0 then { blank with children := [1, 2, 4], w := 5, h := 5, el := 0, er := 0 }
  else if j = 1 then { blank with parent := some 0, w := 5, h := 200, el := 1, er := 1 }
  else if j = 2 then { blank with parent := some 0, children := [3], w := 5, h := 5, el := 2, er := 2 }
  else if j = 3 then { blank with parent := some 2, w := 200, h := 5, el := 3, er := 3 }
  else if j = 4 then { blank with parent := some 0, w := 5, h := 50, el := 4, er := 4 }
  else { blank with el := j, er := j }

/-- Three-node input: root 0 (10×10) with two leaf children 1 and 2, each
10×10; all working fields neutral. -/
def twoStore : Store := fun j =>
  if j = 0 then { blank with children := [1, 2], w := 10, h := 10, el := 0, er := 0 }
  else if j = 1 then { blank with parent := some 0, w := 10, h := 10, el := 1, er := 1 }
  else if j = 2 then { blank with parent := some 0, w := 10, h := 10, el := 2, er := 2 }
  else { blank with el := j, er := j }

/-- Read a `ℚ` field of node `j` out of a layout result (`none` on error);
lets closed facts about a run be stated decidably. -/
def qField (r : M Store) (j : Nat) (f : NodeData → ℚ) : Option ℚ :=
  match r with
  | .ok st => some (f (st j))
  | .error _ => none

/-- The final store of `layout` on `exStore` (junk fallback on error; the
run does succeed, see the theorems below). -/
def exFinal : Store := (layout 20 exStore 0).toOption.getD exStore

/-- The intermediate store of `firstwalk` on `exStore`. -/
def exMid : Store := (firstwalk 20 exStore 0).toOption.getD exStore

/-- The final store of `layout` on `twoStore`. -/
def twoFinal : Store := (layout 20 twoStore 0).toOption.getD twoStore

/-! ### Predicates about the IYL chain, and the spec's claimed insert -/

/-- `lowY` values strictly decrease along the list (executable). -/
def lowYStrictDecrB : IYL → Bool
  | a :: b :: rest => (decide (b.1 < a.1)) && lowYStrictDecrB (b :: rest)
  | _ => true

/-- `lowY` values strictly increase along the list (executable). -/
def lowYStrictIncrB : IYL → Bool
  | a :: b :: rest => (decide (a.1 < b.1)) && lowYStrictIncrB (b :: rest)
  | _ => true

/-- The `lowY` values strictly decrease in traversal order. -/
abbrev lowYStrictDecr (l : IYL) : Prop := lowYStrictDecrB l = true

/-- The `lowY` values strictly increase in traversal order. -/
abbrev lowYStrictIncr (l : IYL) : Prop := lowYStrictIncrB l = true

/-- The insert operation as the spec describes it, for comparison with the
source's `updateIYL`: "drop every head entry whose `lowY ≥` the new value,
then prepend a new entry". -/
def updateIYL_specClaim (miny : ℚ) (i : Nat) (l : IYL) : IYL :=
  (miny, i) :: l.dropWhile (fun e => decide (e.1 ≥ miny))

/-! ### The spec's description of one step of `separate`'s walk -/

/-- The spec's formula for the required separation at a step of the walk:
`(mssr + sr.prelim + sr.w + horizontal_spacing) − (mscl + cl.prelim)`. -/
def requiredSeparation (st : Store) (srv clv : Nat) (mssr mscl : ℚ) : ℚ :=
  (mssr + (st srv).prelim + (st srv).w + H_SPACING) - (mscl + (st clv).prelim)

/-- One step of the lock-step contour walk, written after the spec's words:
advance the skip-list cursor, compute the required separation, apply
`move_subtree` with exactly that amount when it is positive (recording the
invocation), then advance whichever contour(s) are not yet below the
other's current bottom (by `≤`/`≥` comparisons on `bottom`), accumulating
each newly reached contour node's `mod` into the corresponding running
sum. -/
def sepStepSpec (st : Store) (t i : Nat) (srv clv : Nat) (mssr mscl : ℚ)
    (cursor : IYL) (calls : List MoveCall) : M SepState := do
  let cursor := advanceCursor st srv cursor
  let dist := requiredSeparation st srv clv mssr mscl
  let (st, mscl, calls) ←
    if 0 < dist then do
      let si := match cursor with
        | (_, idx) :: _ => idx
        | [] => i - 1
      let ci ← childAt st t i
      let stBefore := st
      let st' ← move_subtree st t i si dist
      let call : MoveCall :=
        { si := si, dist := dist,
          modBefore := (stBefore ci).mod, modAfter := (st' ci).mod,
          mselBefore := (stBefore ci).msel, mselAfter := (st' ci).msel,
          mserBefore := (stBefore ci).mser, mserAfter := (st' ci).mser }
      pure (st', mscl + dist, calls ++ [call])
    else
      pure (st, mscl, calls)
  let ((sr', mssr'), (cl', mscl')) := stepAdvance st srv clv mssr mscl
  pure ⟨st, sr', cl', mssr', mscl', cursor, calls⟩

/-! ### Concrete runs used by witnesses -/

/-- Result of a concrete `separate` run on `twoStore` (one conflict of 30
between the two leaves). -/
def sepTwoRes : Store × List MoveCall :=
  (separate 20 twoStore 0 1 [(20, 0)]).toOption.getD (twoStore, [])

/-- A default `MoveCall` (used only to extract the head of a concrete call
log). -/
def defaultCall : MoveCall :=
  { si := 0, dist := 0, modBefore := 0, modAfter := 0, mselBefore := 0,
    mselAfter := 0, mserBefore := 0, mserAfter := 0 }

/-- A logged `move_subtree` invocation with strictly positive `dist` that
strictly increased the moved child's `mod`, `msel` and `mser` by `dist`. -/
def GoodCall (c : MoveCall) : Prop :=
  0 < c.dist ∧
  c.modAfter = c.modBefore + c.dist ∧
  c.mselAfter = c.mselBefore + c.dist ∧
  c.mserAfter = c.mserBefore + c.dist ∧
  c.modBefore < c.modAfter ∧
  c.mselBefore < c.mselAfter ∧
  c.mserBefore < c.mserAfter

/-- A one-node store (a single root with no children). -/
def oneStore : Store := fun j => { blank with el := j, er := j }

/-- Result of `secondwalk` on the one-node store. -/
def swOneRes : Store := (secondwalk 1 oneStore 0 0).toOption.getD oneStore

/-- `st'` agrees with `st` on every node's `children`, `parent`, `w` and
`h` — the four fields the algorithm never writes. -/
def ShapeEq (st st' : Store) : Prop :=
  ∀ j, (st' j).children = (st j).children ∧ (st' j).parent = (st j).parent ∧
    (st' j).w = (st j).w ∧ (st' j).h = (st j).h

/-! ### Fuel-bounded well-formedness of the tree reachable from a root

The recursion depth of these predicates decreases exactly in step with the
fuel of `firstwalk`/`secondwalk`, so inductions over runs line up with
them. -/

/-- Concatenate `f c` over a list of child ids. -/
def idsList (f : Nat → List Nat) : List Nat → List Nat
  | [] => []
  | c :: cs => f c ++ idsList f cs

/-- The ids of the subtree reachable from `t` (preorder), down to the given
depth bound. -/
def idsF : Nat → Store → Nat → List Nat
  | 0, _, _ => []
  | fuel + 1, st, t => t :: idsList (idsF fuel st) (st t).children

/-- The structure reachable from `t` is a tree of depth under `fuel` whose
`parent` back-references are consistent with the `children` lists. -/
def repB : Nat → Store → Nat → Bool
  | 0, _, _ => false
  | fuel + 1, st, t =>
    (st t).children.all (fun c => ((st c).parent == some t) && repB fuel st c)

/-- `st'` agrees with `st` on every node's `y`, `yWrites`, `x` and
`xWrites`: the operation wrote no coordinate. -/
def WalkInert (st st' : Store) : Prop :=
  ∀ j, (st' j).y = (st j).y ∧ (st' j).yWrites = (st j).yWrites ∧
    (st' j).x = (st j).x ∧ (st' j).xWrites = (st j).xWrites

/-- `st'` agrees with `st` on every node's `y` and `yWrites`. -/
def YInert (st st' : Store) : Prop :=
  ∀ j, (st' j).y = (st j).y ∧ (st' j).yWrites = (st j).yWrites

/-- `st'` agrees with `st` on every node's `x` and `xWrites`. -/
def XInert (st st' : Store) : Prop :=
  ∀ j, (st' j).x = (st j).x ∧ (st' j).xWrites = (st j).xWrites

/-- Equality of all fields except the coordinate outputs `x`, `y` and the
ghost write counters: the node-wise relation between the heaps of two runs
of the walks on the same tree. -/
def EqW (a b : NodeData) : Prop :=
  a.children = b.children ∧ a.parent = b.parent ∧ a.w = b.w ∧ a.h = b.h ∧
  a.prelim = b.prelim ∧ a.mod = b.mod ∧ a.shift = b.shift ∧
  a.change = b.change ∧ a.tl = b.tl ∧ a.tr = b.tr ∧ a.el = b.el ∧
  a.er = b.er ∧ a.msel = b.msel ∧ a.mser = b.mser

/-- Node-wise `EqW` between two whole heaps. -/
def EqWS (st st₂ : Store) : Prop := ∀ j, EqW (st j) (st₂ j)

/-- `P` is closed under every pointer the walks follow out of a node:
children, extreme descendants and threads of members stay inside `P`. -/
def ClosedL (P : List Nat) (st : Store) : Prop :=
  ∀ j ∈ P, (∀ c ∈ (st j).children, c ∈ P) ∧ (st j).el ∈ P ∧
    (st j).er ∈ P ∧ (∀ u, (st j).tl = some u → u ∈ P) ∧
    (∀ u, (st j).tr = some u → u ∈ P)

/-- The operation wrote only inside `P`: outside, the heaps agree on the
whole record. -/
def WIn (P : List Nat) (st st' : Store) : Prop := ∀ j, j ∉ P → st' j = st j

/-- `st'` agrees with `st` on every node's contour links
(`el`, `er`, `tl`, `tr`). -/
def CInert (st st' : Store) : Prop :=
  ∀ j, (st' j).el = (st j).el ∧ (st' j).er = (st j).er ∧
    (st' j).tl = (st j).tl ∧ (st' j).tr = (st j).tr

/-- All working fields of every node at their neutral initial values (the
precondition of `layout`). -/
def NeutralW (st : Store) : Prop :=
  ∀ j, (st j).prelim = 0 ∧ (st j).mod = 0 ∧ (st j).shift = 0 ∧
    (st j).change = 0 ∧ (st j).tl = none ∧ (st j).tr = none ∧
    (st j).el = j ∧ (st j).er = j ∧ (st j).msel = 0 ∧ (st j).mser = 0

/-- Reset every node's working fields (and the ghost counters) to their
neutral values, keeping structure, sizes and the computed coordinates:
the "reset" between the two runs of the idempotence claim. -/
def resetW (st : Store) : Store :=
  fun j =>
    { st j with
      prelim := 0, mod := 0, shift := 0, change := 0,
      tl := none, tr := none, el := j, er := j, msel := 0, mser := 0,
      xWrites := 0, yWrites := 0 }

/-- Result of a concrete `move_subtree` call on `exStore` (moves child 2 of
the root, i.e. node 4, by 30, distributing between indices 0 and 2). -/
def mvRes : Store := (move_subtree exStore 0 2 0 30).toOption.getD exStore

/-! ## Theorems

`Rat`'s arithmetic is `@[irreducible]` in Batteries; closed facts about
concrete runs are settled by `decide`, which needs those operations to
reduce, so we restore the default reducibility here. -/

set_option allowUnsafeReducibility true
attribute [local semireducible] Rat.add Rat.mul Rat.inv Rat.sub

theorem bindOk {α β : Type} {e : M α} {f : α → M β} {r : β}
    (h : (e >>= f) = .ok r) : ∃ a, e = .ok a ∧ f a = .ok r := by
  cases e with
  | error s => exact absurd h (fun hh => Except.noConfusion hh)
  | ok a => exact ⟨a, rfl, h⟩

@[simp] theorem ok_bind {α β : Type} (a : α) (f : α → M β) :
    ((Except.ok a : M α) >>= f) = f a := rfl

@[simp] theorem error_bind {α β : Type} (e : LErr) (f : α → M β) :
    ((Except.error e : M α) >>= f) = Except.error e := rfl

theorem childAt_of_get {st : Store} {t i c : Nat}
    (h : (st t).children[i]? = some c) : childAt st t i = .ok c := by
  simp [childAt, h]

theorem childAt_of_none {st : Store} {t i : Nat}
    (h : (st t).children[i]? = none) : childAt st t i = .error .oob := by
  simp [childAt, h]

theorem setNode_self (st : Store) (i : Nat) (nd : NodeData) :
    setNode st i nd i = nd := by
  simp [setNode]

theorem setNode_other (st : Store) (i j : Nat) (nd : NodeData) (h : j ≠ i) :
    setNode st i nd j = st j := by
  simp [setNode, h]

/-! ### C3: the skip-list insert -/

theorem dropEvicted_eq_dropWhile (miny : ℚ) (l : IYL) :
    dropEvicted miny l = l.dropWhile (fun e => decide (e.1 ≤ miny)) := by
  induction l with
  | nil => rfl
  | cons a rest ih =>
    obtain ⟨lq, idx⟩ := a
    by_cases h : miny ≥ lq
    · simpa [dropEvicted, List.dropWhile, ge_iff_le.mp h] using ih
    · simp [dropEvicted, List.dropWhile, h, fun hc => h (ge_iff_le.mpr hc)]

theorem lowYStrictIncr_tail (a : ℚ × Nat) (l : IYL)
    (h : lowYStrictIncr (a :: l)) : lowYStrictIncr l := by
  cases l with
  | nil => simp [lowYStrictIncr, lowYStrictIncrB]
  | cons b rest =>
    unfold lowYStrictIncr lowYStrictIncrB at h
    exact (Bool.and_eq_true_iff.mp h).2

theorem lowYStrictIncr_updateIYL (miny : ℚ) (i : Nat) (l : IYL)
    (h : lowYStrictIncr l) : lowYStrictIncr (updateIYL miny i l) := by
  induction l with
  | nil => simp [updateIYL, dropEvicted, lowYStrictIncr, lowYStrictIncrB]
  | cons a rest ih =>
    obtain ⟨lq, idx⟩ := a
    have htail : lowYStrictIncr rest := lowYStrictIncr_tail _ _ h
    by_cases hge : miny ≥ lq
    · have heq : updateIYL miny i ((lq, idx) :: rest) = updateIYL miny i rest := by
        simp [updateIYL, dropEvicted, hge]
      rw [heq]
      exact ih htail
    · have hlt : miny < lq := lt_of_not_ge hge
      unfold updateIYL lowYStrictIncr
      simp only [dropEvicted, if_neg hge]
      unfold lowYStrictIncrB
      exact Bool.and_eq_true_iff.mpr ⟨decide_eq_true hlt, h⟩

/-- C3, counterexample.  Inserting `lowY = 3` into the list `[(5, 0)]`:
the code keeps the entry `(5, 0)` (it drops entries with `lowY ≤ 3`, not
`lowY ≥ 3` as the claim states), and the resulting list `[(3,1), (5,0)]`
has strictly increasing — not decreasing — `lowY` values. -/
theorem C3_counterexample :
    updateIYL 3 1 [(5, 0)] ≠ updateIYL_specClaim 3 1 [(5, 0)] ∧
    ¬ lowYStrictDecr (updateIYL 3 1 [(5, 0)]) := by
  constructor
  · decide
  · decide

/-- C3, amended: the insert drops every head entry whose `lowY` is *less
than or equal to* the new value and then prepends the new entry, so that
after every insert on a list whose `lowY` values strictly *increase* in
traversal order (as all lists built by this operation are), the values
still strictly increase. -/
theorem C3_amended (miny : ℚ) (i : Nat) (l : IYL) (h : lowYStrictIncr l) :
    updateIYL miny i l = (miny, i) :: l.dropWhile (fun e => decide (e.1 ≤ miny)) ∧
    lowYStrictIncr (updateIYL miny i l) := by
  exact ⟨by rw [updateIYL, dropEvicted_eq_dropWhile],
    lowYStrictIncr_updateIYL miny i l h⟩

/-- Witness for `C3_amended` at `miny = 3`, `i = 1`, `l = [(5, 0)]`. -/
theorem C3_amended_witness :
    lowYStrictIncr [((5 : ℚ), 0)] ∧
    (updateIYL 3 1 [(5, 0)] =
      (3, 1) :: ([((5 : ℚ), 0)].dropWhile (fun e => decide (e.1 ≤ 3))) ∧
    lowYStrictIncr (updateIYL 3 1 [(5, 0)])) :=
  ⟨by decide, C3_amended 3 1 [(5, 0)] (by decide)⟩

/-! ### C4: `shift`/`change` are folded into `mod` but never reset -/

theorem acsLoop_shift_change (cs : List Nat) (st : Store) (d m : ℚ) (j : Nat) :
    ((acsLoop st cs d m) j).shift = (st j).shift ∧
    ((acsLoop st cs d m) j).change = (st j).change := by
  induction cs generalizing st d m with
  | nil => exact ⟨rfl, rfl⟩
  | cons c rest ih =>
    simp only [acsLoop]
    refine ⟨(ih _ _ _).1.trans ?_, (ih _ _ _).2.trans ?_⟩ <;>
      by_cases h : j = c <;> simp [setNode, h]

theorem setX_shift_change (st : Store) (t : Nat) (v : ℚ) (j : Nat) :
    ((setX st t v) j).shift = (st j).shift ∧
    ((setX st t v) j).change = (st j).change := by
  by_cases h : j = t <;> simp [setX, setNode, h]

theorem swChildren_shift_change (sw : Store → Nat → ℚ → M Store)
    (hsw : ∀ st t m st', sw st t m = .ok st' →
      ∀ j, (st' j).shift = (st j).shift ∧ (st' j).change = (st j).change)
    (cs : List Nat) (st : Store) (m : ℚ) (st' : Store)
    (h : swChildren sw st cs m = .ok st') (j : Nat) :
    (st' j).shift = (st j).shift ∧ (st' j).change = (st j).change := by
  induction cs generalizing st with
  | nil =>
    simp only [swChildren] at h
    cases h
    exact ⟨rfl, rfl⟩
  | cons c rest ih =>
    simp only [swChildren] at h
    obtain ⟨st1, hc, h⟩ := bindOk h
    have h1 := hsw st c m st1 hc j
    have h2 := ih st1 h
    exact ⟨h2.1.trans h1.1, h2.2.trans h1.2⟩

theorem secondwalk_shift_change (fuel : Nat) :
    ∀ st t m st', secondwalk fuel st t m = .ok st' →
      ∀ j, (st' j).shift = (st j).shift ∧ (st' j).change = (st j).change := by
  induction fuel with
  | zero => intro st t m st' h; exact absurd h (by simp [secondwalk])
  | succ fuel ih =>
    intro st t m st' h j
    simp only [secondwalk] at h
    have h2 := swChildren_shift_change (secondwalk fuel) ih _ _ _ _ h j
    have h3 := acsLoop_shift_change ((setX st t ((st t).prelim + (m + (st t).mod))) t).children
      (setX st t ((st t).prelim + (m + (st t).mod))) 0 0 j
    have h4 := setX_shift_change st t ((st t).prelim + (m + (st t).mod)) j
    exact ⟨h2.1.trans ((h3.1).trans h4.1), h2.2.trans ((h3.2).trans h4.2)⟩

/-- C4, counterexample.  On the five-node input `exStore`, `firstwalk`
leaves node 2 with `shift = 195/4` (a `distribute_extra` wrote it), and
after the complete `layout` run node 2 still has `shift = 195/4 ≠ 0`: the
top-down pass folded the value into the children's `mod`s but never reset
it, so it was not 0 when `secondwalk` recursed into node 2
(`C4_amended` proves `secondwalk` never writes `shift`/`change`). -/
theorem C4_counterexample :
    qField (firstwalk 20 exStore 0) 2 NodeData.shift = some (195 / 4) ∧
    qField (layout 20 exStore 0) 2 NodeData.shift = some (195 / 4) ∧
    (195 / 4 : ℚ) ≠ 0 :=
  ⟨by decide, by decide, by decide⟩

/-- C4, amended: the `shift` and `change` accumulators are consumed —
contributed into sibling `mod` values by `add_child_spacing` — before the
top-down pass visits the siblings, but they are *not* reset: the whole
top-down pass (`secondwalk`, which runs `add_child_spacing` at every
node) leaves every node's `shift` and `change` exactly as `firstwalk`
left them. -/
theorem C4_amended (fuel : Nat) (st : Store) (t : Nat) (m : ℚ) (st' : Store)
    (h : secondwalk fuel st t m = .ok st') :
    ∀ j, (st' j).shift = (st j).shift ∧ (st' j).change = (st j).change :=
  secondwalk_shift_change fuel st t m st' h

/-- Witness for `C4_amended`: a concrete one-node `secondwalk` run. -/
theorem C4_amended_witness :
    secondwalk 1 oneStore 0 0 = .ok swOneRes ∧
    (swOneRes 0).shift = (oneStore 0).shift ∧
    (swOneRes 0).change = (oneStore 0).change :=
  ⟨rfl, (C4_amended 1 oneStore 0 0 swOneRes rfl 0).1,
    (C4_amended 1 oneStore 0 0 swOneRes rfl 0).2⟩

/-! ### C6: `move_subtree` and `distribute_extra` -/

theorem distribute_extra_keeps_mod (st : Store) (t i si : Nat) (dist : ℚ)
    (st' : Store) (h : distribute_extra st t i si dist = .ok st') :
    ∀ j, (st' j).mod = (st j).mod ∧ (st' j).msel = (st j).msel ∧
      (st' j).mser = (st j).mser := by
  intro j
  unfold distribute_extra at h
  split at h
  · cases hcs : (st t).children[si + 1]? with
    | none =>
      rw [childAt_of_none hcs] at h
      simp at h
    | some csi =>
      rw [childAt_of_get hcs] at h
      simp only [ok_bind] at h
      obtain ⟨ci, hcim, h⟩ := bindOk h
      injection h with h
      subst h
      by_cases h1 : j = ci
      · subst h1
        by_cases h2 : j = csi
        · subst h2
          simp [setNode]
        · simp [setNode, h2]
      · by_cases h2 : j = csi
        · subst h2
          simp [setNode, h1]
        · simp [setNode, h1, h2]
  · cases h
    exact ⟨rfl, rfl, rfl⟩

theorem distribute_extra_effect (st : Store) (t i si : Nat) (dist : ℚ)
    (st' : Store) (h : distribute_extra st t i si dist = .ok st')
    (hne : si ≠ i - 1) (csi ci : Nat)
    (hcsi : (st t).children[si + 1]? = some csi)
    (hci : (st t).children[i]? = some ci) (hd : csi ≠ ci) :
    (st' csi).shift = (st csi).shift + dist / ((i : ℚ) - (si : ℚ)) ∧
    (st' ci).shift = (st ci).shift - dist / ((i : ℚ) - (si : ℚ)) ∧
    (st' ci).change = (st ci).change - (dist - dist / ((i : ℚ) - (si : ℚ))) ∧
    ∀ j, j ≠ csi → j ≠ ci → st' j = st j := by
  unfold distribute_extra at h
  rw [if_pos hne, childAt_of_get hcsi] at h
  simp only [ok_bind] at h
  obtain ⟨ci', hci', h⟩ := bindOk h
  have hchildren : ((setNode st csi
      { st csi with shift := (st csi).shift + dist / ((i : ℚ) - (si : ℚ)) }) t).children
      = (st t).children := by
    by_cases hts : t = csi <;> simp [setNode, hts]
  have hci'' : ci' = ci := by
    rw [childAt_of_get (by rw [hchildren]; exact hci)] at hci'
    injection hci' with hci'
    exact hci'.symm
  subst hci''
  injection h with h
  subst h
  refine ⟨?_, ?_, ?_, ?_⟩
  · simp [setNode, hd, Ne.symm hd]
  · simp [setNode, hd, Ne.symm hd]
  · simp [setNode, hd, Ne.symm hd]
  · intro j hj1 hj2
    simp [setNode, hj1, hj2]

/-- C6: `move_subtree(t, i, si, dist)` adds `dist` to child `i`'s `mod`,
`msel` and `mser` and then calls `distribute_extra`; `distribute_extra`
does nothing when `si = i − 1`, and otherwise, with `count = i − si`,
increases child `si+1`'s `shift` by `dist/count`, decreases child `i`'s
`shift` by `dist/count`, and decreases child `i`'s `change` by
`dist − dist/count`.  (The hypothesis `csi ≠ ci` — distinct sibling nodes —
reflects that the children of a tree node are distinct objects.) -/
theorem C6_move_distribute (st : Store) (t i si : Nat) (dist : ℚ) (ci : Nat)
    (_hsi : si < i) (hci : (st t).children[i]? = some ci) :
    (move_subtree st t i si dist =
      distribute_extra
        (setNode st ci
          { st ci with
            mod := (st ci).mod + dist, msel := (st ci).msel + dist,
            mser := (st ci).mser + dist }) t i si dist) ∧
    (∀ st', move_subtree st t i si dist = .ok st' →
      (st' ci).mod = (st ci).mod + dist ∧ (st' ci).msel = (st ci).msel + dist ∧
      (st' ci).mser = (st ci).mser + dist) ∧
    (si = i - 1 → ∀ st0 : Store, distribute_extra st0 t i si dist = .ok st0) ∧
    (si ≠ i - 1 → ∀ csi, (st t).children[si + 1]? = some csi → csi ≠ ci →
      ∃ st', distribute_extra st t i si dist = .ok st' ∧
        (st' csi).shift = (st csi).shift + dist / ((i : ℚ) - (si : ℚ)) ∧
        (st' ci).shift = (st ci).shift - dist / ((i : ℚ) - (si : ℚ)) ∧
        (st' ci).change = (st ci).change - (dist - dist / ((i : ℚ) - (si : ℚ))) ∧
        ∀ j, j ≠ csi → j ≠ ci → st' j = st j) := by
  have hA : move_subtree st t i si dist =
      distribute_extra
        (setNode st ci
          { st ci with
            mod := (st ci).mod + dist, msel := (st ci).msel + dist,
            mser := (st ci).mser + dist }) t i si dist := by
    simp [move_subtree, childAt, hci]
  refine ⟨hA, ?_, ?_, ?_⟩
  · intro st' h
    rw [hA] at h
    have hk := distribute_extra_keeps_mod _ _ _ _ _ _ h ci
    rw [hk.1, hk.2.1, hk.2.2]
    simp [setNode]
  · intro heq st0
    simp [distribute_extra, heq]
  · intro hne csi hcsi hdist
    have hchildren : ((setNode st csi
        { st csi with shift := (st csi).shift + dist / ((i : ℚ) - (si : ℚ)) }) t).children
        = (st t).children := by
      by_cases hts : t = csi <;> simp [setNode, hts]
    obtain ⟨stf, hstf⟩ : ∃ stf, distribute_extra st t i si dist = .ok stf := by
      unfold distribute_extra
      rw [if_pos hne, childAt_of_get hcsi]
      simp only [ok_bind]
      rw [childAt_of_get (by rw [hchildren]; exact hci)]
      exact ⟨_, rfl⟩
    obtain ⟨e1, e2, e3, e4⟩ :=
      distribute_extra_effect st t i si dist stf hstf hne csi ci hcsi hci hdist
    exact ⟨stf, hstf, e1, e2, e3, e4⟩

/-- Witness for `C6_move_distribute` on `exStore` with `t = 0`, `i = 2`,
`si = 0`, `dist = 30` (children `[1, 2, 4]`, so `ci = 4`, `csi = 2`). -/
theorem C6_witness :
    0 < 2 ∧ (exStore 0).children[2]? = some 4 ∧
    (mvRes 4).mod = (exStore 4).mod + 30 ∧
    (mvRes 4).msel = (exStore 4).msel + 30 ∧
    (mvRes 4).mser = (exStore 4).mser + 30 := by
  have hh := ((C6_move_distribute exStore 0 2 0 30 4 (by decide) (by decide)).2.1)
    mvRes rfl
  exact ⟨by decide, by decide, hh.1, hh.2.1, hh.2.2⟩

/-! ### C5: one step of `separate`'s lock-step contour walk -/

theorem pure_eq_ok {α : Type} (a : α) : (pure a : M α) = .ok a := rfl

/-- C5: each iteration of `separate`'s loop (both contour ends present) is
exactly the step the spec describes — `sepStepSpec`, built from the spec's
words: required separation `(mssr + sr.prelim + sr.w + H_SPACING) −
(mscl + cl.prelim)`; `move_subtree` applied with exactly that amount when
positive; then both contours advanced by `≤`/`≥` comparisons on `bottom`
(simultaneously when tied), each newly reached node's `mod` accumulated
into the corresponding running sum. -/
theorem C5_sepLoop_step (fuel : Nat) (st : Store) (t i srv clv : Nat)
    (mssr mscl : ℚ) (cursor : IYL) (calls : List MoveCall) :
    sepLoop (fuel + 1) st t i (some srv) (some clv) mssr mscl cursor calls =
      (sepStepSpec st t i srv clv mssr mscl cursor calls) >>= fun s =>
        sepLoop fuel s.st t i s.sr s.cl s.mssr s.mscl s.cursor s.calls := by
  simp only [sepLoop, sepStepSpec, requiredSeparation]
  by_cases hd : (0 : ℚ) <
      (mssr + (st srv).prelim + (st srv).w + H_SPACING) - (mscl + (st clv).prelim)
  · rw [if_pos hd, if_pos hd]
    cases hci : childAt st t i with
    | error e => simp [hci]
    | ok ci =>
      simp only [hci, ok_bind]
      cases hmv : move_subtree st t i
          (match advanceCursor st srv cursor with
            | (_, idx) :: _ => idx
            | [] => i - 1)
          ((mssr + (st srv).prelim + (st srv).w + H_SPACING)
            - (mscl + (st clv).prelim)) with
      | error e => simp [hmv]
      | ok st2 => simp [hmv, pure_eq_ok]
  · rw [if_neg hd, if_neg hd]
    simp [pure_eq_ok]

/-! ### C9: `separate` only ever moves the placed child rightward -/

theorem get_of_childAt {st : Store} {t i c : Nat} (h : childAt st t i = .ok c) :
    (st t).children[i]? = some c := by
  unfold childAt at h
  cases hg : (st t).children[i]? with
  | none => rw [hg] at h; exact absurd h (fun hh => Except.noConfusion hh)
  | some c' => rw [hg] at h; injection h with h; rw [h]

theorem move_subtree_adds (st : Store) (t i si : Nat) (dist : ℚ) (st' : Store)
    (h : move_subtree st t i si dist = .ok st') (ci : Nat)
    (hci : (st t).children[i]? = some ci) :
    (st' ci).mod = (st ci).mod + dist ∧ (st' ci).msel = (st ci).msel + dist ∧
    (st' ci).mser = (st ci).mser + dist := by
  unfold move_subtree at h
  rw [childAt_of_get hci] at h
  simp only [ok_bind] at h
  have hk := distribute_extra_keeps_mod _ _ _ _ _ _ h ci
  rw [hk.1, hk.2.1, hk.2.2]
  simp [setNode]

theorem sepLoop_calls_good (fuel : Nat) :
    ∀ st t i sr cl mssr mscl cursor calls s',
    sepLoop fuel st t i sr cl mssr mscl cursor calls = .ok s' →
    (∀ c ∈ calls, GoodCall c) → ∀ c ∈ s'.calls, GoodCall c := by
  induction fuel with
  | zero =>
    intro st t i sr cl mssr mscl cursor calls s' h
    exact absurd h (by simp [sepLoop])
  | succ fuel ih =>
    intro st t i sr cl mssr mscl cursor calls s' h hgood
    simp only [sepLoop] at h
    match sr, cl with
    | none, _ =>
      cases h
      exact hgood
    | some srv, none =>
      cases h
      exact hgood
    | some srv, some clv =>
      simp only at h
      by_cases hd : (0 : ℚ) <
          (mssr + (st srv).prelim + (st srv).w + H_SPACING)
            - (mscl + (st clv).prelim)
      · rw [if_pos hd] at h
        obtain ⟨ci, hci, h⟩ := bindOk h
        obtain ⟨st2, hmv, h⟩ := bindOk h
        rcases hsa : stepAdvance st2 srv clv mssr
            (mscl + ((mssr + (st srv).prelim + (st srv).w + H_SPACING)
              - (mscl + (st clv).prelim))) with ⟨⟨sr', mssr'⟩, cl', mscl'⟩
        rw [hsa] at h
        refine ih _ _ _ _ _ _ _ _ _ _ h ?_
        intro c hc
        rcases List.mem_append.mp hc with hold | hnew
        · exact hgood c hold
        · obtain rfl := List.mem_singleton.mp hnew
          have hadd := move_subtree_adds st t i _ _ st2 hmv ci (get_of_childAt hci)
          refine ⟨hd, hadd.1, hadd.2.1, hadd.2.2, ?_, ?_, ?_⟩
          · show (st ci).mod < (st2 ci).mod
            rw [hadd.1]; linarith
          · show (st ci).msel < (st2 ci).msel
            rw [hadd.2.1]; linarith
          · show (st ci).mser < (st2 ci).mser
            rw [hadd.2.2]; linarith
      · rw [if_neg hd] at h
        rcases hsa : stepAdvance st srv clv mssr mscl with ⟨⟨sr', mssr'⟩, cl', mscl'⟩
        rw [hsa] at h
        exact ih _ _ _ _ _ _ _ _ _ _ h hgood

/-- C9: every `move_subtree` invocation that `separate` performs (the ghost
call log) passes a strictly positive `dist`, and each such call strictly
increased the placed child's `mod`, `msel` and `mser` (by exactly that
`dist`): conflict resolution displaces the subtree being placed only
rightward. -/
theorem C9_moves_positive (fuel : Nat) (st : Store) (t i : Nat) (ih : IYL)
    (st' : Store) (calls : List MoveCall)
    (h : separate fuel st t i ih = .ok (st', calls)) :
    ∀ c ∈ calls,
      0 < c.dist ∧
      c.modAfter = c.modBefore + c.dist ∧
      c.mselAfter = c.mselBefore + c.dist ∧
      c.mserAfter = c.mserBefore + c.dist ∧
      c.modBefore < c.modAfter ∧
      c.mselBefore < c.mselAfter ∧
      c.mserBefore < c.mserAfter := by
  unfold separate at h
  obtain ⟨sr0, hsr0, h⟩ := bindOk h
  obtain ⟨cl0, hcl0, h⟩ := bindOk h
  obtain ⟨s, hs, h⟩ := bindOk h
  have hgood : ∀ c ∈ s.calls, GoodCall c :=
    sepLoop_calls_good fuel st t i (some sr0) (some cl0) _ _ ih [] s hs
      (by intro c hc; exact absurd hc (List.not_mem_nil c))
  have hcalls : calls = s.calls := by
    rcases hsr : s.sr with _ | srv <;> rcases hcl : s.cl with _ | clv <;>
        rw [hsr, hcl] at h
    · cases h; rfl
    · obtain ⟨st2, _, h⟩ := bindOk h
      cases h; rfl
    · obtain ⟨st2, _, h⟩ := bindOk h
      cases h; rfl
    · cases h; rfl
  subst hcalls
  exact fun c hc => hgood c hc

/-- Witness for `C9_moves_positive`: the concrete `separate` run on
`twoStore` (its log has one call, with `dist = 30`). -/
theorem C9_witness :
    0 < (sepTwoRes.2.headD defaultCall).dist ∧
    (sepTwoRes.2.headD defaultCall).modBefore
      < (sepTwoRes.2.headD defaultCall).modAfter := by
  have hh := C9_moves_positive 20 twoStore 0 1 [(20, 0)] sepTwoRes.1 sepTwoRes.2
    rfl (sepTwoRes.2.headD defaultCall) (by decide)
  exact ⟨hh.1, hh.2.2.2.2.1⟩

/-! ### Shape stability: no operation writes `children`, `parent`, `w`, `h` -/

theorem shapeEq_rfl (st : Store) : ShapeEq st st :=
  fun _ => ⟨rfl, rfl, rfl, rfl⟩

theorem shapeEq_trans {st1 st2 st3 : Store} (h1 : ShapeEq st1 st2)
    (h2 : ShapeEq st2 st3) : ShapeEq st1 st3 := by
  intro j
  obtain ⟨a1, b1, c1, d1⟩ := h1 j
  obtain ⟨a2, b2, c2, d2⟩ := h2 j
  exact ⟨a2.trans a1, b2.trans b1, c2.trans c1, d2.trans d1⟩

theorem shapeEq_setNode (st : Store) (i : Nat) (nd : NodeData)
    (hc : nd.children = (st i).children) (hp : nd.parent = (st i).parent)
    (hw : nd.w = (st i).w) (hh : nd.h = (st i).h) :
    ShapeEq st (setNode st i nd) := by
  intro j
  by_cases hj : j = i
  · subst hj; simp [setNode, hc, hp, hw, hh]
  · simp [setNode, hj]

theorem shapeEq_setNode' {st st' : Store} (h : ShapeEq st st') (i : Nat)
    (nd : NodeData) (hc : nd.children = (st' i).children)
    (hp : nd.parent = (st' i).parent) (hw : nd.w = (st' i).w)
    (hh : nd.h = (st' i).h) : ShapeEq st (setNode st' i nd) :=
  shapeEq_trans h (shapeEq_setNode st' i nd hc hp hw hh)

theorem setX_shape (st : Store) (t : Nat) (v : ℚ) : ShapeEq st (setX st t v) :=
  shapeEq_setNode' (shapeEq_rfl st) _ _ rfl rfl rfl rfl

theorem setY_shape (st : Store) (t : Nat) (v : ℚ) : ShapeEq st (setY st t v) :=
  shapeEq_setNode' (shapeEq_rfl st) _ _ rfl rfl rfl rfl

theorem set_extremes_shape (st : Store) (t : Nat) (st' : Store)
    (h : set_extremes st t = .ok st') : ShapeEq st st' := by
  unfold set_extremes at h
  split at h
  · cases h
    exact shapeEq_setNode' (shapeEq_rfl st) _ _ rfl rfl rfl rfl
  · obtain ⟨c0, hc0, h⟩ := bindOk h
    obtain ⟨cn, hcn, h⟩ := bindOk h
    cases h
    exact shapeEq_setNode' (shapeEq_rfl st) _ _ rfl rfl rfl rfl

theorem position_root_shape (st : Store) (t : Nat) (st' : Store)
    (h : position_root st t = .ok st') : ShapeEq st st' := by
  unfold position_root at h
  obtain ⟨c0, hc0, h⟩ := bindOk h
  obtain ⟨cn, hcn, h⟩ := bindOk h
  cases h
  exact shapeEq_setNode' (shapeEq_rfl st) _ _ rfl rfl rfl rfl

theorem set_left_thread_shape (st : Store) (t i cl : Nat) (m : ℚ) (st' : Store)
    (h : set_left_thread st t i cl m = .ok st') : ShapeEq st st' := by
  unfold set_left_thread at h
  obtain ⟨c0, hc0, h⟩ := bindOk h
  obtain ⟨ci, hci, h⟩ := bindOk h
  cases h
  refine shapeEq_setNode' ?_ _ _ rfl rfl rfl rfl
  refine shapeEq_setNode' ?_ _ _ rfl rfl rfl rfl
  exact shapeEq_setNode' (shapeEq_rfl st) _ _ rfl rfl rfl rfl

theorem set_right_thread_shape (st : Store) (t i sr : Nat) (m : ℚ) (st' : Store)
    (h : set_right_thread st t i sr m = .ok st') : ShapeEq st st' := by
  unfold set_right_thread at h
  obtain ⟨ci, hci, h⟩ := bindOk h
  obtain ⟨cp, hcp, h⟩ := bindOk h
  cases h
  refine shapeEq_setNode' ?_ _ _ rfl rfl rfl rfl
  refine shapeEq_setNode' ?_ _ _ rfl rfl rfl rfl
  exact shapeEq_setNode' (shapeEq_rfl st) _ _ rfl rfl rfl rfl

theorem distribute_extra_shape (st : Store) (t i si : Nat) (dist : ℚ)
    (st' : Store) (h : distribute_extra st t i si dist = .ok st') :
    ShapeEq st st' := by
  unfold distribute_extra at h
  split at h
  · obtain ⟨cs1, hcs1, h⟩ := bindOk h
    obtain ⟨ci, hci, h⟩ := bindOk h
    cases h
    refine shapeEq_setNode' ?_ _ _ rfl rfl rfl rfl
    exact shapeEq_setNode' (shapeEq_rfl st) _ _ rfl rfl rfl rfl
  · cases h
    exact shapeEq_rfl st

theorem move_subtree_shape (st : Store) (t i si : Nat) (dist : ℚ)
    (st' : Store) (h : move_subtree st t i si dist = .ok st') :
    ShapeEq st st' := by
  unfold move_subtree at h
  obtain ⟨ci, hci, h⟩ := bindOk h
  refine shapeEq_trans ?_ (distribute_extra_shape _ _ _ _ _ _ h)
  exact shapeEq_setNode' (shapeEq_rfl st) _ _ rfl rfl rfl rfl

theorem sepLoop_shape (fuel : Nat) :
    ∀ st t i sr cl mssr mscl cursor calls s',
    sepLoop fuel st t i sr cl mssr mscl cursor calls = .ok s' →
    ShapeEq st s'.st := by
  induction fuel with
  | zero =>
    intro st t i sr cl mssr mscl cursor calls s' h
    exact absurd h (by simp [sepLoop])
  | succ fuel ih =>
    intro st t i sr cl mssr mscl cursor calls s' h
    simp only [sepLoop] at h
    match sr, cl with
    | none, _ => cases h; exact shapeEq_rfl st
    | some srv, none => cases h; exact shapeEq_rfl st
    | some srv, some clv =>
      simp only at h
      by_cases hd : (0 : ℚ) <
          (mssr + (st srv).prelim + (st srv).w + H_SPACING)
            - (mscl + (st clv).prelim)
      · rw [if_pos hd] at h
        obtain ⟨ci, hci, h⟩ := bindOk h
        obtain ⟨st2, hmv, h⟩ := bindOk h
        rcases hsa : stepAdvance st2 srv clv mssr
            (mscl + ((mssr + (st srv).prelim + (st srv).w + H_SPACING)
              - (mscl + (st clv).prelim))) with ⟨⟨sr', mssr'⟩, cl', mscl'⟩
        rw [hsa] at h
        exact shapeEq_trans (move_subtree_shape _ _ _ _ _ _ hmv)
          (ih _ _ _ _ _ _ _ _ _ _ h)
      · rw [if_neg hd] at h
        rcases hsa : stepAdvance st srv clv mssr mscl with ⟨⟨sr', mssr'⟩, cl', mscl'⟩
        rw [hsa] at h
        exact ih _ _ _ _ _ _ _ _ _ _ h

theorem separate_shape (fuel : Nat) (st : Store) (t i : Nat) (ihl : IYL)
    (r : Store × List MoveCall) (h : separate fuel st t i ihl = .ok r) :
    ShapeEq st r.1 := by
  unfold separate at h
  obtain ⟨sr0, hsr0, h⟩ := bindOk h
  obtain ⟨cl0, hcl0, h⟩ := bindOk h
  obtain ⟨s, hs, h⟩ := bindOk h
  have h1 := sepLoop_shape fuel st t i (some sr0) (some cl0) _ _ ihl [] s hs
  rcases hsr : s.sr with _ | srv <;> rcases hcl : s.cl with _ | clv <;>
      rw [hsr, hcl] at h
  · cases h; exact h1
  · obtain ⟨st2, hth, h⟩ := bindOk h
    cases h
    exact shapeEq_trans h1 (set_left_thread_shape _ _ _ _ _ _ hth)
  · obtain ⟨st2, hth, h⟩ := bindOk h
    cases h
    exact shapeEq_trans h1 (set_right_thread_shape _ _ _ _ _ _ hth)
  · cases h; exact h1

theorem fwChildren_shape (fw : Store → Nat → M Store)
    (sep : Store → Nat → Nat → IYL → M (Store × List MoveCall))
    (hfw : ∀ st c st', fw st c = .ok st' → ShapeEq st st')
    (hsep : ∀ st t i ihl r, sep st t i ihl = .ok r → ShapeEq st r.1) :
    ∀ cs st t i ihl st', fwChildren fw sep st t i cs ihl = .ok st' →
      ShapeEq st st' := by
  intro cs
  induction cs with
  | nil =>
    intro st t i ihl st' h
    cases h
    exact shapeEq_rfl st
  | cons c rest ih =>
    intro st t i ihl st' h
    simp only [fwChildren] at h
    obtain ⟨st1, h1, h⟩ := bindOk h
    obtain ⟨⟨st2, calls2⟩, h2, h⟩ := bindOk h
    exact shapeEq_trans (hfw _ _ _ h1)
      (shapeEq_trans (hsep _ _ _ _ _ h2) (ih _ _ _ _ _ h))

theorem firstwalk_shape (fuel : Nat) :
    ∀ st t st', firstwalk fuel st t = .ok st' → ShapeEq st st' := by
  induction fuel with
  | zero =>
    intro st t st' h
    exact absurd h (by simp [firstwalk])
  | succ fuel ih =>
    intro st t st' h
    simp only [firstwalk] at h
    have hsetY : ∀ v, ShapeEq st (setY st t v) := fun v => setY_shape st t v
    rcases hp : (st t).parent with _ | p <;> rw [hp] at h
    all_goals (
      split at h
      · exact shapeEq_trans (setY_shape st t _) (set_extremes_shape _ _ _ h)
      · obtain ⟨c0, hc0, h⟩ := bindOk h
        obtain ⟨st1, h1, h⟩ := bindOk h
        obtain ⟨st2, h2, h⟩ := bindOk h
        obtain ⟨st3, h3, h⟩ := bindOk h
        exact shapeEq_trans (setY_shape st t _)
          (shapeEq_trans (ih _ _ _ h1)
            (shapeEq_trans
              (fwChildren_shape (firstwalk fuel) (separate fuel)
                (fun st c st' hh => ih st c st' hh)
                (fun st t i ihl r hh => separate_shape fuel st t i ihl r hh)
                _ _ _ _ _ _ h2)
              (shapeEq_trans (position_root_shape _ _ _ h3)
                (set_extremes_shape _ _ _ h)))))

theorem acsLoop_shape (cs : List Nat) (st : Store) (d m : ℚ) :
    ShapeEq st (acsLoop st cs d m) := by
  induction cs generalizing st d m with
  | nil => exact shapeEq_rfl st
  | cons c rest ih =>
    simp only [acsLoop]
    refine shapeEq_trans ?_ (ih _ _ _)
    exact shapeEq_setNode' (shapeEq_rfl st) _ _ rfl rfl rfl rfl

theorem swChildren_shape (sw : Store → Nat → ℚ → M Store)
    (hsw : ∀ st t m st', sw st t m = .ok st' → ShapeEq st st') :
    ∀ cs st m st', swChildren sw st cs m = .ok st' → ShapeEq st st' := by
  intro cs
  induction cs with
  | nil =>
    intro st m st' h
    cases h
    exact shapeEq_rfl st
  | cons c rest ih =>
    intro st m st' h
    simp only [swChildren] at h
    obtain ⟨st1, h1, h⟩ := bindOk h
    exact shapeEq_trans (hsw _ _ _ _ h1) (ih _ _ _ h)

theorem secondwalk_shape (fuel : Nat) :
    ∀ st t m st', secondwalk fuel st t m = .ok st' → ShapeEq st st' := by
  induction fuel with
  | zero =>
    intro st t m st' h
    exact absurd h (by simp [secondwalk])
  | succ fuel ih =>
    intro st t m st' h
    simp only [secondwalk] at h
    exact shapeEq_trans (setX_shape st t _)
      (shapeEq_trans (acsLoop_shape _ _ _ _)
        (swChildren_shape (secondwalk fuel) ih _ _ _ _ h))

theorem layout_shape (fuel : Nat) (st : Store) (t : Nat) (st' : Store)
    (h : layout fuel st t = .ok st') : ShapeEq st st' := by
  unfold layout at h
  obtain ⟨st1, h1, h⟩ := bindOk h
  exact shapeEq_trans (firstwalk_shape fuel _ _ _ h1)
    (secondwalk_shape fuel _ _ _ _ h)

/-! ### C10: every child access of the algorithm is in bounds -/

theorem bind_ne_oob {α β : Type} {e : M α} {f : α → M β}
    (he : e ≠ .error .oob) (hf : ∀ a, e = .ok a → f a ≠ .error .oob) :
    (e >>= f) ≠ .error .oob := by
  cases e with
  | error s =>
    intro hc
    rw [error_bind] at hc
    injection hc with hs
    exact he (by rw [hs])
  | ok a =>
    intro hc
    rw [ok_bind] at hc
    exact hf a rfl hc

theorem childAt_isOk {st : Store} {t i : Nat}
    (h : i < (st t).children.length) : ∃ c, childAt st t i = .ok c := by
  refine ⟨(st t).children[i], ?_⟩
  unfold childAt
  rw [List.getElem?_eq_getElem h]

theorem ok_ne_oob {α : Type} (a : α) : (Except.ok a : M α) ≠ .error .oob :=
  fun hc => Except.noConfusion hc

/-- `setNode` at `i` leaves `t`'s children list as an `if`. -/
theorem children_setNode (st : Store) (i : Nat) (nd : NodeData) (t : Nat) :
    ((setNode st i nd) t).children =
      if t = i then nd.children else (st t).children := by
  unfold setNode
  split <;> rfl

theorem childAt_ne_oob_of_shape {st st2 : Store} {t i : Nat}
    (hsh : ShapeEq st st2) (hi : i < (st t).children.length) :
    childAt st2 t i ≠ .error .oob := by
  obtain ⟨c, hc⟩ := @childAt_isOk st2 t i
    (by rw [(hsh t).1]; exact hi)
  rw [hc]
  exact ok_ne_oob _

theorem dropEvicted_subset (miny : ℚ) (l : IYL) :
    ∀ e ∈ dropEvicted miny l, e ∈ l := by
  induction l with
  | nil => simp [dropEvicted]
  | cons a rest ih =>
    obtain ⟨lq, idx⟩ := a
    intro e he
    unfold dropEvicted at he
    split at he
    · exact List.mem_cons_of_mem _ (ih e he)
    · exact he

theorem advanceCursor_subset (st : Store) (sr : Nat) (l : IYL) :
    ∀ e ∈ advanceCursor st sr l, e ∈ l := by
  induction l with
  | nil => simp [advanceCursor]
  | cons a rest ih =>
    obtain ⟨lq, idx⟩ := a
    intro e he
    unfold advanceCursor at he
    split at he
    · exact List.mem_cons_of_mem _ (ih e he)
    · exact he

theorem set_extremes_ne_oob (st : Store) (t : Nat) :
    set_extremes st t ≠ .error .oob := by
  unfold set_extremes
  split
  · exact ok_ne_oob _
  · rename_i hlen
    have hpos : 0 < (st t).children.length := Nat.pos_of_ne_zero hlen
    obtain ⟨c0, hc0⟩ := childAt_isOk hpos
    rw [hc0, ok_bind]
    obtain ⟨cn, hcn⟩ := childAt_isOk (Nat.sub_lt hpos Nat.one_pos)
    rw [hcn, ok_bind]
    exact ok_ne_oob _

theorem position_root_ne_oob (st : Store) (t : Nat)
    (hlen : (st t).children.length ≠ 0) :
    position_root st t ≠ .error .oob := by
  unfold position_root
  have hpos : 0 < (st t).children.length := Nat.pos_of_ne_zero hlen
  obtain ⟨c0, hc0⟩ := childAt_isOk hpos
  rw [hc0, ok_bind]
  obtain ⟨cn, hcn⟩ := childAt_isOk (Nat.sub_lt hpos Nat.one_pos)
  rw [hcn, ok_bind]
  exact ok_ne_oob _

theorem set_left_thread_ne_oob (st : Store) (t i cl : Nat) (m : ℚ)
    (hi : i < (st t).children.length) :
    set_left_thread st t i cl m ≠ .error .oob := by
  unfold set_left_thread
  obtain ⟨c0, hc0⟩ := childAt_isOk (Nat.zero_lt_of_lt hi)
  rw [hc0, ok_bind]
  refine bind_ne_oob (childAt_ne_oob_of_shape ?_ hi) (fun ci _ => ok_ne_oob _)
  refine shapeEq_setNode' ?_ _ _ rfl rfl rfl rfl
  exact shapeEq_setNode' (shapeEq_rfl st) _ _ rfl rfl rfl rfl

theorem set_right_thread_ne_oob (st : Store) (t i sr : Nat) (m : ℚ)
    (hi : i < (st t).children.length) :
    set_right_thread st t i sr m ≠ .error .oob := by
  unfold set_right_thread
  obtain ⟨ci, hci⟩ := childAt_isOk hi
  rw [hci, ok_bind]
  refine bind_ne_oob
    (childAt_ne_oob_of_shape ?_ (Nat.lt_of_le_of_lt (Nat.sub_le i 1) hi))
    (fun cp _ => ok_ne_oob _)
  refine shapeEq_setNode' ?_ _ _ rfl rfl rfl rfl
  exact shapeEq_setNode' (shapeEq_rfl st) _ _ rfl rfl rfl rfl

theorem distribute_extra_ne_oob (st : Store) (t i si : Nat) (dist : ℚ)
    (hsafe : si = i - 1 ∨ (si + 1 < (st t).children.length ∧
      i < (st t).children.length)) :
    distribute_extra st t i si dist ≠ .error .oob := by
  unfold distribute_extra
  split
  · rename_i hne
    rcases hsafe with hsi | ⟨hs1, hs2⟩
    · exact absurd hsi hne
    · obtain ⟨cs1, hcs1⟩ := childAt_isOk hs1
      rw [hcs1, ok_bind]
      refine bind_ne_oob (childAt_ne_oob_of_shape ?_ hs2) (fun ci _ => ok_ne_oob _)
      exact shapeEq_setNode' (shapeEq_rfl st) _ _ rfl rfl rfl rfl
  · exact ok_ne_oob _

theorem move_subtree_ne_oob (st : Store) (t i si : Nat) (dist : ℚ)
    (hi : i < (st t).children.length)
    (hsafe : si = i - 1 ∨ si + 1 < (st t).children.length) :
    move_subtree st t i si dist ≠ .error .oob := by
  unfold move_subtree
  obtain ⟨ci, hci⟩ := childAt_isOk hi
  rw [hci, ok_bind]
  apply distribute_extra_ne_oob
  have hsh : ShapeEq st (setNode st ci
      { st ci with
        mod := (st ci).mod + dist, msel := (st ci).msel + dist,
        mser := (st ci).mser + dist }) :=
    shapeEq_setNode' (shapeEq_rfl st) ci _ rfl rfl rfl rfl
  rcases hsafe with hsi | hs1
  · exact Or.inl hsi
  · refine Or.inr ⟨?_, ?_⟩ <;> rw [(hsh t).1]
    · exact hs1
    · exact hi

theorem sepLoop_ne_oob (fuel : Nat) :
    ∀ st t i sr cl mssr mscl cursor calls,
    i < (st t).children.length → (∀ e ∈ cursor, e.2 < i) →
    sepLoop fuel st t i sr cl mssr mscl cursor calls ≠ .error .oob := by
  induction fuel with
  | zero =>
    intro st t i sr cl mssr mscl cursor calls _ _
    simp [sepLoop]
  | succ fuel ih =>
    intro st t i sr cl mssr mscl cursor calls hi hcur
    simp only [sepLoop]
    match sr, cl with
    | none, _ => exact ok_ne_oob _
    | some srv, none => exact ok_ne_oob _
    | some srv, some clv =>
      simp only
      have hcur' : ∀ e ∈ advanceCursor st srv cursor, e.2 < i :=
        fun e he => hcur e (advanceCursor_subset st srv cursor e he)
      by_cases hd : (0 : ℚ) <
          (mssr + (st srv).prelim + (st srv).w + H_SPACING)
            - (mscl + (st clv).prelim)
      · rw [if_pos hd]
        obtain ⟨ci, hci⟩ := childAt_isOk hi
        rw [hci, ok_bind]
        have hsafe : (match advanceCursor st srv cursor with
            | (_, idx) :: _ => idx
            | [] => i - 1) = i - 1 ∨
            (match advanceCursor st srv cursor with
            | (_, idx) :: _ => idx
            | [] => i - 1) + 1 < (st t).children.length := by
          cases hac : advanceCursor st srv cursor with
          | nil => exact Or.inl rfl
          | cons e rest =>
            obtain ⟨lq, idx⟩ := e
            refine Or.inr ?_
            have hidx : idx < i :=
              hcur' (lq, idx) (by rw [hac]; exact List.mem_cons_self _ _)
            show idx + 1 < (st t).children.length
            omega
        refine bind_ne_oob (move_subtree_ne_oob st t i _ _ hi hsafe) ?_
        intro st2 hmv
        rcases hsa : stepAdvance st2 srv clv mssr
            (mscl + ((mssr + (st srv).prelim + (st srv).w + H_SPACING)
              - (mscl + (st clv).prelim))) with ⟨⟨sr2, mssr2⟩, cl2, mscl2⟩
        have hlen2 : i < (st2 t).children.length := by
          rw [((move_subtree_shape _ _ _ _ _ _ hmv) t).1]
          exact hi
        exact ih st2 t i sr2 cl2 mssr2 mscl2 _ _ hlen2 hcur'
      · rw [if_neg hd]
        rcases hsa : stepAdvance st srv clv mssr mscl with ⟨⟨sr2, mssr2⟩, cl2, mscl2⟩
        exact ih st t i sr2 cl2 mssr2 mscl2 _ _ hi hcur'

theorem separate_ne_oob (fuel : Nat) (st : Store) (t i : Nat) (ihl : IYL)
    (hi : i < (st t).children.length) (hcur : ∀ e ∈ ihl, e.2 < i) :
    separate fuel st t i ihl ≠ .error .oob := by
  unfold separate
  obtain ⟨sr0, hsr0⟩ := @childAt_isOk st t (i - 1)
    (Nat.lt_of_le_of_lt (Nat.sub_le i 1) hi)
  rw [hsr0, ok_bind]
  obtain ⟨cl0, hcl0⟩ := childAt_isOk hi
  rw [hcl0, ok_bind]
  refine bind_ne_oob (sepLoop_ne_oob fuel st t i _ _ _ _ ihl [] hi hcur) ?_
  intro s hs
  have hlen : i < (s.st t).children.length := by
    rw [((sepLoop_shape fuel _ _ _ _ _ _ _ _ _ _ hs) t).1]
    exact hi
  rcases s.sr with _ | srv <;> rcases s.cl with _ | clv
  · exact ok_ne_oob _
  · exact bind_ne_oob (set_left_thread_ne_oob _ _ _ _ _ hlen)
      (fun st2 _ => ok_ne_oob _)
  · exact bind_ne_oob (set_right_thread_ne_oob _ _ _ _ _ hlen)
      (fun st2 _ => ok_ne_oob _)
  · exact ok_ne_oob _

theorem fwChildren_ne_oob (fw : Store → Nat → M Store)
    (sep : Store → Nat → Nat → IYL → M (Store × List MoveCall))
    (hfw : ∀ st c, fw st c ≠ .error .oob)
    (hfwshape : ∀ st c st', fw st c = .ok st' → ShapeEq st st')
    (hsep : ∀ st t i ihl, i < (st t).children.length →
      (∀ e ∈ ihl, e.2 < i) → sep st t i ihl ≠ .error .oob)
    (hsepshape : ∀ st t i ihl r, sep st t i ihl = .ok r → ShapeEq st r.1) :
    ∀ cs st t i ihl, i + cs.length = (st t).children.length →
    (∀ e ∈ ihl, e.2 < i) →
    fwChildren fw sep st t i cs ihl ≠ .error .oob := by
  intro cs
  induction cs with
  | nil =>
    intro st t i ihl _ _
    simp only [fwChildren]
    exact ok_ne_oob _
  | cons c rest ih =>
    intro st t i ihl hlen hcur
    simp only [fwChildren]
    refine bind_ne_oob (hfw st c) ?_
    intro st1 h1
    have hlen1 : i + (c :: rest).length = (st1 t).children.length := by
      rw [((hfwshape _ _ _ h1) t).1]
      exact hlen
    have hi1 : i < (st1 t).children.length := by
      rw [← hlen1]
      simp
    refine bind_ne_oob (hsep st1 t i ihl hi1 hcur) ?_
    rintro ⟨st2, calls2⟩ h2
    refine ih st2 t (i + 1) _ ?_ ?_
    · rw [((hsepshape _ _ _ _ _ h2) t).1, ← hlen1]
      simp only [List.length_cons]
      omega
    · intro e he
      unfold updateIYL at he
      rcases List.mem_cons.mp he with hh | hh
      · rw [hh]; exact Nat.lt_succ_self i
      · exact Nat.lt_succ_of_lt (hcur e (dropEvicted_subset _ _ e hh))

theorem setY_children (st : Store) (t : Nat) (v : ℚ) (j : Nat) :
    ((setY st t v) j).children = (st j).children := by
  by_cases hj : j = t <;> simp [setY, setNode, hj]

theorem firstwalk_ne_oob (fuel : Nat) :
    ∀ st t, firstwalk fuel st t ≠ .error .oob := by
  induction fuel with
  | zero =>
    intro st t
    simp [firstwalk]
  | succ fuel ih =>
    intro st t
    simp only [firstwalk]
    generalize hstY : (match (st t).parent with
      | some p => setY st t ((st p).y + (st p).h + V_SPACING)
      | none => setY st t 0) = stY
    by_cases hemp : (stY t).children.isEmpty
    · rw [if_pos hemp]
      exact set_extremes_ne_oob _ _
    · rw [if_neg hemp]
      have hlen : 0 < (stY t).children.length :=
        List.length_pos.mpr (by simpa [List.isEmpty_iff] using hemp)
      obtain ⟨c0, hc0⟩ := childAt_isOk hlen
      rw [hc0, ok_bind]
      refine bind_ne_oob (ih _ _) ?_
      intro st1 h1
      have hsh1 := firstwalk_shape fuel _ _ _ h1
      refine bind_ne_oob ?_ ?_
      · refine fwChildren_ne_oob (firstwalk fuel) (separate fuel) ih
          (fun sta ca sta2 hh => firstwalk_shape fuel sta ca sta2 hh)
          (fun sta ta ia ihla hia hca => separate_ne_oob fuel sta ta ia ihla hia hca)
          (fun sta ta ia ihla ra hh => separate_shape fuel sta ta ia ihla ra hh)
          _ _ _ _ _ ?_ ?_
        · rw [List.length_drop, (hsh1 t).1]
          omega
        · intro e he
          unfold updateIYL at he
          rcases List.mem_cons.mp he with hh | hh
          · rw [hh]; exact Nat.one_pos
          · simp [dropEvicted] at hh
      · intro st2 h2
        have hsh2 := fwChildren_shape (firstwalk fuel) (separate fuel)
          (fun sta ca sta2 hh => firstwalk_shape fuel sta ca sta2 hh)
          (fun sta ta ia ihla ra hh => separate_shape fuel sta ta ia ihla ra hh)
          _ _ _ _ _ _ h2
        have hlen2 : (st2 t).children.length ≠ 0 := by
          rw [(hsh2 t).1, (hsh1 t).1]
          omega
        refine bind_ne_oob (position_root_ne_oob _ _ hlen2) ?_
        intro st3 _
        exact set_extremes_ne_oob _ _

theorem swChildren_ne_oob (sw : Store → Nat → ℚ → M Store)
    (hsw : ∀ st t m, sw st t m ≠ .error .oob) :
    ∀ cs st m, swChildren sw st cs m ≠ .error .oob := by
  intro cs
  induction cs with
  | nil =>
    intro st m
    simp only [swChildren]
    exact ok_ne_oob _
  | cons c rest ih =>
    intro st m
    simp only [swChildren]
    exact bind_ne_oob (hsw st c m) (fun st1 _ => ih st1 m)

theorem secondwalk_ne_oob (fuel : Nat) :
    ∀ st t m, secondwalk fuel st t m ≠ .error .oob := by
  induction fuel with
  | zero =>
    intro st t m
    simp [secondwalk]
  | succ fuel ih =>
    intro st t m
    simp only [secondwalk]
    exact swChildren_ne_oob (secondwalk fuel) ih _ _ _

/-- C10: for every fuel bound, every store and every root, `layout` never
reports an out-of-bounds `children[i]` access: `position_root` and
`set_extremes` read `children[0]` and `children[size−1]` only on nodes with
at least one child, and `separate` (with `move_subtree` /
`distribute_extra` / thread setters under it) indexes only positions below
the children count. -/
theorem C10_no_oob (fuel : Nat) (st : Store) (t : Nat) :
    layout fuel st t ≠ .error .oob := by
  unfold layout
  exact bind_ne_oob (firstwalk_ne_oob fuel st t)
    (fun st1 _ => secondwalk_ne_oob fuel st1 t 0)

/-! ### Stability of the well-formedness predicates under the walks -/

theorem idsList_congr {f g : Nat → List Nat} (h : ∀ c, f c = g c) :
    ∀ cs, idsList f cs = idsList g cs := by
  intro cs
  induction cs with
  | nil => rfl
  | cons c rest ih => simp only [idsList, h c, ih]

theorem idsF_shape (fuel : Nat) : ∀ st st2 t, ShapeEq st st2 →
    idsF fuel st2 t = idsF fuel st t := by
  induction fuel with
  | zero => intro st st2 t _; rfl
  | succ fuel ih =>
    intro st st2 t hsh
    simp only [idsF, (hsh t).1]
    exact congrArg _ (idsList_congr (fun c => ih st st2 c hsh) _)

theorem all_congr_fun {α : Type} (f g : α → Bool) (h : ∀ a, f a = g a) :
    ∀ l : List α, l.all f = l.all g := by
  intro l
  induction l with
  | nil => rfl
  | cons a rest ih => simp only [List.all_cons, h a, ih]

theorem repB_shape (fuel : Nat) : ∀ st st2 t, ShapeEq st st2 →
    repB fuel st2 t = repB fuel st t := by
  induction fuel with
  | zero => intro st st2 t _; rfl
  | succ fuel ih =>
    intro st st2 t hsh
    simp only [repB, (hsh t).1]
    exact all_congr_fun _ _
      (fun c => by rw [(hsh c).2.1, ih st st2 c hsh]) _

/-! ### The bottom-up walk is the only writer of `y`; the top-down walk is
the only writer of `x` -/

theorem walkInert_rfl (st : Store) : WalkInert st st :=
  fun _ => ⟨rfl, rfl, rfl, rfl⟩

theorem walkInert_trans {st1 st2 st3 : Store} (h1 : WalkInert st1 st2)
    (h2 : WalkInert st2 st3) : WalkInert st1 st3 := by
  intro j
  obtain ⟨a1, b1, c1, d1⟩ := h1 j
  obtain ⟨a2, b2, c2, d2⟩ := h2 j
  exact ⟨a2.trans a1, b2.trans b1, c2.trans c1, d2.trans d1⟩

theorem walkInert_setNode' {st st' : Store} (h : WalkInert st st') (i : Nat)
    (nd : NodeData) (hy : nd.y = (st' i).y) (hyw : nd.yWrites = (st' i).yWrites)
    (hx : nd.x = (st' i).x) (hxw : nd.xWrites = (st' i).xWrites) :
    WalkInert st (setNode st' i nd) := by
  refine walkInert_trans h ?_
  intro j
  by_cases hj : j = i
  · subst hj; simp [setNode, hy, hyw, hx, hxw]
  · simp [setNode, hj]

theorem set_extremes_inert (st : Store) (t : Nat) (st' : Store)
    (h : set_extremes st t = .ok st') : WalkInert st st' := by
  unfold set_extremes at h
  split at h
  · cases h
    exact walkInert_setNode' (walkInert_rfl st) _ _ rfl rfl rfl rfl
  · obtain ⟨c0, hc0, h⟩ := bindOk h
    obtain ⟨cn, hcn, h⟩ := bindOk h
    cases h
    exact walkInert_setNode' (walkInert_rfl st) _ _ rfl rfl rfl rfl

theorem position_root_inert (st : Store) (t : Nat) (st' : Store)
    (h : position_root st t = .ok st') : WalkInert st st' := by
  unfold position_root at h
  obtain ⟨c0, hc0, h⟩ := bindOk h
  obtain ⟨cn, hcn, h⟩ := bindOk h
  cases h
  exact walkInert_setNode' (walkInert_rfl st) _ _ rfl rfl rfl rfl

theorem set_left_thread_inert (st : Store) (t i cl : Nat) (m : ℚ) (st' : Store)
    (h : set_left_thread st t i cl m = .ok st') : WalkInert st st' := by
  unfold set_left_thread at h
  obtain ⟨c0, hc0, h⟩ := bindOk h
  obtain ⟨ci, hci, h⟩ := bindOk h
  cases h
  refine walkInert_setNode' ?_ _ _ rfl rfl rfl rfl
  refine walkInert_setNode' ?_ _ _ rfl rfl rfl rfl
  exact walkInert_setNode' (walkInert_rfl st) _ _ rfl rfl rfl rfl

theorem set_right_thread_inert (st : Store) (t i sr : Nat) (m : ℚ) (st' : Store)
    (h : set_right_thread st t i sr m = .ok st') : WalkInert st st' := by
  unfold set_right_thread at h
  obtain ⟨ci, hci, h⟩ := bindOk h
  obtain ⟨cp, hcp, h⟩ := bindOk h
  cases h
  refine walkInert_setNode' ?_ _ _ rfl rfl rfl rfl
  refine walkInert_setNode' ?_ _ _ rfl rfl rfl rfl
  exact walkInert_setNode' (walkInert_rfl st) _ _ rfl rfl rfl rfl

theorem distribute_extra_inert (st : Store) (t i si : Nat) (dist : ℚ)
    (st' : Store) (h : distribute_extra st t i si dist = .ok st') :
    WalkInert st st' := by
  unfold distribute_extra at h
  split at h
  · obtain ⟨cs1, hcs1, h⟩ := bindOk h
    obtain ⟨ci, hci, h⟩ := bindOk h
    cases h
    refine walkInert_setNode' ?_ _ _ rfl rfl rfl rfl
    exact walkInert_setNode' (walkInert_rfl st) _ _ rfl rfl rfl rfl
  · cases h
    exact walkInert_rfl st

theorem move_subtree_inert (st : Store) (t i si : Nat) (dist : ℚ)
    (st' : Store) (h : move_subtree st t i si dist = .ok st') :
    WalkInert st st' := by
  unfold move_subtree at h
  obtain ⟨ci, hci, h⟩ := bindOk h
  refine walkInert_trans ?_ (distribute_extra_inert _ _ _ _ _ _ h)
  exact walkInert_setNode' (walkInert_rfl st) _ _ rfl rfl rfl rfl

theorem sepLoop_inert (fuel : Nat) :
    ∀ st t i sr cl mssr mscl cursor calls s',
    sepLoop fuel st t i sr cl mssr mscl cursor calls = .ok s' →
    WalkInert st s'.st := by
  induction fuel with
  | zero =>
    intro st t i sr cl mssr mscl cursor calls s' h
    exact absurd h (by simp [sepLoop])
  | succ fuel ih =>
    intro st t i sr cl mssr mscl cursor calls s' h
    simp only [sepLoop] at h
    match sr, cl with
    | none, _ => cases h; exact walkInert_rfl st
    | some srv, none => cases h; exact walkInert_rfl st
    | some srv, some clv =>
      simp only at h
      by_cases hd : (0 : ℚ) <
          (mssr + (st srv).prelim + (st srv).w + H_SPACING)
            - (mscl + (st clv).prelim)
      · rw [if_pos hd] at h
        obtain ⟨ci, hci, h⟩ := bindOk h
        obtain ⟨st2, hmv, h⟩ := bindOk h
        rcases hsa : stepAdvance st2 srv clv mssr
            (mscl + ((mssr + (st srv).prelim + (st srv).w + H_SPACING)
              - (mscl + (st clv).prelim))) with ⟨⟨sr2, mssr2⟩, cl2, mscl2⟩
        rw [hsa] at h
        exact walkInert_trans (move_subtree_inert _ _ _ _ _ _ hmv)
          (ih _ _ _ _ _ _ _ _ _ _ h)
      · rw [if_neg hd] at h
        rcases hsa : stepAdvance st srv clv mssr mscl with ⟨⟨sr2, mssr2⟩, cl2, mscl2⟩
        rw [hsa] at h
        exact ih _ _ _ _ _ _ _ _ _ _ h

theorem separate_inert (fuel : Nat) (st : Store) (t i : Nat) (ihl : IYL)
    (r : Store × List MoveCall) (h : separate fuel st t i ihl = .ok r) :
    WalkInert st r.1 := by
  unfold separate at h
  obtain ⟨sr0, hsr0, h⟩ := bindOk h
  obtain ⟨cl0, hcl0, h⟩ := bindOk h
  obtain ⟨s, hs, h⟩ := bindOk h
  have h1 := sepLoop_inert fuel st t i (some sr0) (some cl0) _ _ ihl [] s hs
  rcases hsr : s.sr with _ | srv <;> rcases hcl : s.cl with _ | clv <;>
      rw [hsr, hcl] at h
  · cases h; exact h1
  · obtain ⟨st2, hth, h⟩ := bindOk h
    cases h
    exact walkInert_trans h1 (set_left_thread_inert _ _ _ _ _ _ hth)
  · obtain ⟨st2, hth, h⟩ := bindOk h
    cases h
    exact walkInert_trans h1 (set_right_thread_inert _ _ _ _ _ _ hth)
  · cases h; exact h1

theorem acsLoop_inert (cs : List Nat) (st : Store) (d m : ℚ) :
    WalkInert st (acsLoop st cs d m) := by
  induction cs generalizing st d m with
  | nil => exact walkInert_rfl st
  | cons c rest ih =>
    simp only [acsLoop]
    refine walkInert_trans ?_ (ih _ _ _)
    exact walkInert_setNode' (walkInert_rfl st) _ _ rfl rfl rfl rfl

theorem setY_keeps_x (st : Store) (t : Nat) (v : ℚ) :
    XInert st (setY st t v) := by
  intro j
  by_cases hj : j = t <;> simp [setY, setNode, hj]

theorem setX_keeps_y (st : Store) (t : Nat) (v : ℚ) :
    YInert st (setX st t v) := by
  intro j
  by_cases hj : j = t <;> simp [setX, setNode, hj]

theorem xInert_trans {st1 st2 st3 : Store} (h1 : XInert st1 st2)
    (h2 : XInert st2 st3) : XInert st1 st3 := by
  intro j
  exact ⟨(h2 j).1.trans (h1 j).1, (h2 j).2.trans (h1 j).2⟩

theorem yInert_trans {st1 st2 st3 : Store} (h1 : YInert st1 st2)
    (h2 : YInert st2 st3) : YInert st1 st3 := by
  intro j
  exact ⟨(h2 j).1.trans (h1 j).1, (h2 j).2.trans (h1 j).2⟩

theorem walkInert_x {st st' : Store} (h : WalkInert st st') : XInert st st' :=
  fun j => ⟨(h j).2.2.1, (h j).2.2.2⟩

theorem walkInert_y {st st' : Store} (h : WalkInert st st') : YInert st st' :=
  fun j => ⟨(h j).1, (h j).2.1⟩

theorem fwChildren_keeps_x (fuel : Nat)
    (hfw : ∀ st c st', firstwalk fuel st c = .ok st' → XInert st st') :
    ∀ cs st t i ihl st',
    fwChildren (firstwalk fuel) (separate fuel) st t i cs ihl = .ok st' →
    XInert st st' := by
  intro cs
  induction cs with
  | nil =>
    intro st t i ihl st' h
    cases h
    exact fun j => ⟨rfl, rfl⟩
  | cons c rest ih =>
    intro st t i ihl st' h
    simp only [fwChildren] at h
    obtain ⟨st1, h1, h⟩ := bindOk h
    obtain ⟨⟨st2, calls2⟩, h2, h⟩ := bindOk h
    exact xInert_trans (hfw _ _ _ h1)
      (xInert_trans (walkInert_x (separate_inert fuel _ _ _ _ _ h2))
        (ih _ _ _ _ _ h))

theorem firstwalk_keeps_x (fuel : Nat) :
    ∀ st t st', firstwalk fuel st t = .ok st' → XInert st st' := by
  induction fuel with
  | zero =>
    intro st t st' h
    exact absurd h (by simp [firstwalk])
  | succ fuel ih =>
    intro st t st' h
    simp only [firstwalk] at h
    generalize hstY : (match (st t).parent with
      | some p => setY st t ((st p).y + (st p).h + V_SPACING)
      | none => setY st t 0) = stY at h
    have hx0 : XInert st stY := by
      rw [← hstY]
      rcases (st t).parent with _ | p
      · exact setY_keeps_x st t _
      · exact setY_keeps_x st t _
    split at h
    · exact xInert_trans hx0 (walkInert_x (set_extremes_inert _ _ _ h))
    · obtain ⟨c0, hc0, h⟩ := bindOk h
      obtain ⟨st1, h1, h⟩ := bindOk h
      obtain ⟨st2, h2, h⟩ := bindOk h
      obtain ⟨st3, h3, h⟩ := bindOk h
      exact xInert_trans hx0
        (xInert_trans (ih _ _ _ h1)
          (xInert_trans (fwChildren_keeps_x fuel ih _ _ _ _ _ _ h2)
            (xInert_trans (walkInert_x (position_root_inert _ _ _ h3))
              (walkInert_x (set_extremes_inert _ _ _ h)))))

theorem swChildren_keeps_y (fuel : Nat)
    (hsw : ∀ st t m st', secondwalk fuel st t m = .ok st' → YInert st st') :
    ∀ cs st m st', swChildren (secondwalk fuel) st cs m = .ok st' →
    YInert st st' := by
  intro cs
  induction cs with
  | nil =>
    intro st m st' h
    cases h
    exact fun j => ⟨rfl, rfl⟩
  | cons c rest ih =>
    intro st m st' h
    simp only [swChildren] at h
    obtain ⟨st1, h1, h⟩ := bindOk h
    exact yInert_trans (hsw _ _ _ _ h1) (ih _ _ _ h)

theorem secondwalk_keeps_y (fuel : Nat) :
    ∀ st t m st', secondwalk fuel st t m = .ok st' → YInert st st' := by
  induction fuel with
  | zero =>
    intro st t m st' h
    exact absurd h (by simp [secondwalk])
  | succ fuel ih =>
    intro st t m st' h
    simp only [secondwalk] at h
    exact yInert_trans (setX_keeps_y st t _)
      (yInert_trans (walkInert_y (acsLoop_inert _ _ _ _))
        (swChildren_keeps_y fuel ih _ _ _ _ h))

/-! ### Membership facts about `idsF` and `repB` -/

theorem mem_idsList {f : Nat → List Nat} {x : Nat} :
    ∀ {cs : List Nat}, x ∈ idsList f cs ↔ ∃ c ∈ cs, x ∈ f c := by
  intro cs
  induction cs with
  | nil => simp [idsList]
  | cons c rest ih =>
    simp only [idsList, List.mem_append, ih, List.mem_cons]
    constructor
    · rintro (h | ⟨d, hd, hx⟩)
      · exact ⟨c, Or.inl rfl, h⟩
      · exact ⟨d, Or.inr hd, hx⟩
    · rintro ⟨d, (rfl | hd), hx⟩
      · exact Or.inl hx
      · exact Or.inr ⟨d, hd, hx⟩

theorem repB_succ_elim {fuel : Nat} {st : Store} {t : Nat}
    (h : repB (fuel + 1) st t = true) :
    ∀ c ∈ (st t).children, (st c).parent = some t ∧ repB fuel st c = true := by
  intro c hc
  simp only [repB, List.all_eq_true] at h
  have := h c hc
  rw [Bool.and_eq_true, beq_iff_eq] at this
  exact this

theorem parent_mem_idsF (fuel : Nat) :
    ∀ st c, repB fuel st c = true → ∀ j ∈ idsF fuel st c, j ≠ c →
    ∀ p, (st j).parent = some p → p ∈ idsF fuel st c := by
  induction fuel with
  | zero =>
    intro st c hrep
    simp [repB] at hrep
  | succ fuel ih =>
    intro st c hrep j hj hne p hp
    simp only [idsF, List.mem_cons] at hj
    rcases hj with rfl | hj
    · exact absurd rfl hne
    · obtain ⟨d, hd, hjd⟩ := mem_idsList.mp hj
      obtain ⟨hdp, hdrep⟩ := repB_succ_elim hrep d hd
      by_cases hjd' : j = d
      · subst hjd'
        rw [hp] at hdp
        injection hdp with hdp
        subst hdp
        simp [idsF]
      · have hpd := ih st d hdrep j hjd hjd' p hp
        simp only [idsF, List.mem_cons]
        exact Or.inr (mem_idsList.mpr ⟨d, hd, hpd⟩)

theorem self_mem_idsF (fuel : Nat) (st : Store) (t : Nat) :
    t ∈ idsF (fuel + 1) st t := by
  simp [idsF]

/-! ### Frame: `firstwalk` writes `y` (and bumps `yWrites`) only inside the
subtree it was called on -/

theorem fwChildren_y_frame (fuel : Nat)
    (hfw : ∀ st c st', firstwalk fuel st c = .ok st' →
      ∀ j, j ∉ idsF fuel st c →
        (st' j).y = (st j).y ∧ (st' j).yWrites = (st j).yWrites) :
    ∀ cs st t i ihl st',
    fwChildren (firstwalk fuel) (separate fuel) st t i cs ihl = .ok st' →
    ∀ j, j ∉ idsList (idsF fuel st) cs →
      (st' j).y = (st j).y ∧ (st' j).yWrites = (st j).yWrites := by
  intro cs
  induction cs with
  | nil =>
    intro st t i ihl st' h j _
    cases h
    exact ⟨rfl, rfl⟩
  | cons c rest ih =>
    intro st t i ihl st' h j hj
    simp only [fwChildren] at h
    obtain ⟨st1, h1, h⟩ := bindOk h
    obtain ⟨⟨st2, calls2⟩, h2, h⟩ := bindOk h
    have hj1 : j ∉ idsF fuel st c := by
      intro hmem
      exact hj (by simp only [idsList, List.mem_append]; exact Or.inl hmem)
    have hjrest : j ∉ idsList (idsF fuel st) rest := by
      intro hmem
      exact hj (by simp only [idsList, List.mem_append]; exact Or.inr hmem)
    have e1 := hfw st c st1 h1 j hj1
    have e2 := walkInert_y (separate_inert fuel st1 t i ihl _ h2) j
    have hshape12 : ShapeEq st st2 :=
      shapeEq_trans (firstwalk_shape fuel st c st1 h1)
        (separate_shape fuel st1 t i ihl _ h2)
    have hjrest2 : j ∉ idsList (idsF fuel st2) rest := by
      rw [idsList_congr (fun d => idsF_shape fuel st st2 d hshape12)]
      exact hjrest
    have e3 := ih st2 t (i + 1) _ st' h j hjrest2
    exact ⟨e3.1.trans (e2.1.trans e1.1), e3.2.trans (e2.2.trans e1.2)⟩

theorem firstwalk_y_frame (fuel : Nat) :
    ∀ st t st', firstwalk fuel st t = .ok st' →
    ∀ j, j ∉ idsF fuel st t →
      (st' j).y = (st j).y ∧ (st' j).yWrites = (st j).yWrites := by
  induction fuel with
  | zero =>
    intro st t st' h
    exact absurd h (by simp [firstwalk])
  | succ fuel ih =>
    intro st t st' h j hj
    have hjt : j ≠ t := by
      intro hh
      exact hj (hh ▸ self_mem_idsF fuel st t)
    have hjl : j ∉ idsList (idsF fuel st) (st t).children := by
      intro hmem
      exact hj (by simp only [idsF, List.mem_cons]; exact Or.inr hmem)
    simp only [firstwalk] at h
    generalize hstY : (match (st t).parent with
      | some p => setY st t ((st p).y + (st p).h + V_SPACING)
      | none => setY st t 0) = stY at h
    have hy0 : (stY j).y = (st j).y ∧ (stY j).yWrites = (st j).yWrites := by
      rw [← hstY]
      rcases (st t).parent with _ | p <;>
        simp [setY, setNode, hjt]
    have hshY : ShapeEq st stY := by
      rw [← hstY]
      rcases (st t).parent with _ | p
      · exact setY_shape st t _
      · exact setY_shape st t _
    split at h
    · have e := walkInert_y (set_extremes_inert _ _ _ h) j
      exact ⟨e.1.trans hy0.1, e.2.trans hy0.2⟩
    · obtain ⟨c0, hc0, h⟩ := bindOk h
      obtain ⟨st1, h1, h⟩ := bindOk h
      obtain ⟨st2, h2, h⟩ := bindOk h
      obtain ⟨st3, h3, h⟩ := bindOk h
      have hc0mem : c0 ∈ (st t).children := by
        have := get_of_childAt hc0
        rw [(hshY t).1] at this
        exact List.getElem?_mem this
      have hj0 : j ∉ idsF fuel stY c0 := by
        rw [idsF_shape fuel st stY c0 hshY]
        intro hmem
        exact hjl (mem_idsList.mpr ⟨c0, hc0mem, hmem⟩)
      have e1 := ih stY c0 st1 h1 j hj0
      have hsh1 : ShapeEq st st1 :=
        shapeEq_trans hshY (firstwalk_shape fuel stY c0 st1 h1)
      have hjd : j ∉ idsList (idsF fuel st1) ((st1 t).children.drop 1) := by
        intro hmem
        obtain ⟨d, hd, hjd2⟩ := mem_idsList.mp hmem
        have hdch : d ∈ (st t).children := by
          rw [← (hsh1 t).1]
          exact List.mem_of_mem_drop hd
        rw [idsF_shape fuel st st1 d hsh1] at hjd2
        exact hjl (mem_idsList.mpr ⟨d, hdch, hjd2⟩)
      have e2 := fwChildren_y_frame fuel (ih) _ st1 t 1 _ st2 h2 j hjd
      have e3 := walkInert_y (position_root_inert _ _ _ h3) j
      have e4 := walkInert_y (set_extremes_inert _ _ _ h) j
      exact ⟨e4.1.trans (e3.1.trans (e2.1.trans (e1.1.trans hy0.1))),
        e4.2.trans (e3.2.trans (e2.2.trans (e1.2.trans hy0.2)))⟩

/-! ### Correctness of `y` (row spacing) and the `yWrites` count -/

theorem self_mem_idsF_of_rep {fuel : Nat} {st : Store} {c : Nat}
    (h : repB fuel st c = true) : c ∈ idsF fuel st c := by
  cases fuel with
  | zero => simp [repB] at h
  | succ fuel => exact self_mem_idsF fuel st c

theorem fwChildren_y_main (fuel : Nat)
    (hfw_ok : ∀ st c st', repB fuel st c = true → (idsF fuel st c).Nodup →
      firstwalk fuel st c = .ok st' →
      ((st' c).y = (match (st c).parent with
        | some p => (st p).y + (st p).h + V_SPACING
        | none => 0)) ∧
      (∀ j ∈ idsF fuel st c, (st' j).yWrites = (st j).yWrites + 1) ∧
      (∀ j ∈ idsF fuel st c, j ≠ c → ∀ p, (st' j).parent = some p →
        (st' j).y = (st' p).y + (st' p).h + V_SPACING)) :
    ∀ cs st t i ihl st',
    (∀ c ∈ cs, (st c).parent = some t ∧ repB fuel st c = true) →
    (t :: idsList (idsF fuel st) cs).Nodup →
    fwChildren (firstwalk fuel) (separate fuel) st t i cs ihl = .ok st' →
    ((st' t).y = (st t).y ∧ (st' t).yWrites = (st t).yWrites) ∧
    (∀ j ∈ idsList (idsF fuel st) cs, (st' j).yWrites = (st j).yWrites + 1) ∧
    (∀ j ∈ idsList (idsF fuel st) cs, ∀ p, (st' j).parent = some p →
      (st' j).y = (st' p).y + (st' p).h + V_SPACING) := by
  intro cs
  induction cs with
  | nil =>
    intro st t i ihl st' _ _ h
    cases h
    exact ⟨⟨rfl, rfl⟩, by simp [idsList], by simp [idsList]⟩
  | cons c rest ih =>
    intro st t i ihl st' hcs hnd h
    simp only [fwChildren] at h
    obtain ⟨st1, h1, h⟩ := bindOk h
    obtain ⟨⟨st2, calls2⟩, h2, h⟩ := bindOk h
    obtain ⟨hcp, hcrep⟩ := hcs c (List.mem_cons_self _ _)
    -- nodup decomposition
    rw [List.nodup_cons] at hnd
    obtain ⟨htn, hnd2⟩ := hnd
    simp only [idsList] at htn hnd2
    rw [List.nodup_append] at hnd2
    obtain ⟨hndc, hndrest, hdisj⟩ := hnd2
    have htnc : t ∉ idsF fuel st c := fun hh => htn (List.mem_append.mpr (Or.inl hh))
    have htnrest : t ∉ idsList (idsF fuel st) rest :=
      fun hh => htn (List.mem_append.mpr (Or.inr hh))
    -- the subtree walk of c
    have hB := hfw_ok st c st1 hcrep hndc h1
    have hframe1 := firstwalk_y_frame fuel st c st1 h1
    have hinert2 := walkInert_y (separate_inert fuel st1 t i ihl _ h2)
    have hshA : ShapeEq st st1 := firstwalk_shape fuel st c st1 h1
    have hshB : ShapeEq st st2 :=
      shapeEq_trans hshA (separate_shape fuel st1 t i ihl _ h2)
    have hids2 : ∀ d, idsF fuel st2 d = idsF fuel st d :=
      fun d => idsF_shape fuel st st2 d hshB
    -- the recursive call on the remaining siblings
    have hrec := ih st2 t (i + 1) (updateIYL (bottom st1 c) i ihl) st'
      (by
        intro d hd
        obtain ⟨hdp, hdrep⟩ := hcs d (List.mem_cons_of_mem _ hd)
        exact ⟨(hshB d).2.1.trans hdp, (repB_shape fuel st st2 d hshB).trans hdrep⟩)
      (by
        rw [List.nodup_cons, idsList_congr hids2]
        exact ⟨htnrest, hndrest⟩)
      h
    have hrecframe := fwChildren_y_frame fuel (firstwalk_y_frame fuel)
      rest st2 t (i + 1) _ st' h
    -- y and yWrites of any member of c's subtree survive to st'
    have hkeepc : ∀ j ∈ idsF fuel st c,
        (st' j).y = (st1 j).y ∧ (st' j).yWrites = (st1 j).yWrites := by
      intro j hj
      have hj2 : j ∉ idsList (idsF fuel st2) rest := by
        rw [idsList_congr hids2]
        exact fun hh => (hdisj hj) hh
      have e3 := hrecframe j hj2
      exact ⟨e3.1.trans (hinert2 j).1, e3.2.trans (hinert2 j).2⟩
    -- t's y and yWrites survive the whole sequence
    have hkeept : (st' t).y = (st t).y ∧ (st' t).yWrites = (st t).yWrites := by
      have e1 := hframe1 t htnc
      exact ⟨(hrec.1.1.trans (hinert2 t).1).trans e1.1,
        (hrec.1.2.trans (hinert2 t).2).trans e1.2⟩
    refine ⟨hkeept, ?_, ?_⟩
    · intro j hj
      simp only [idsList, List.mem_append] at hj
      rcases hj with hj | hj
      · have e := (hkeepc j hj).2
        rw [e, hB.2.1 j hj]
      · have e1 := (hframe1 j (fun hh => hdisj hh hj)).2
        have e2 := (hinert2 j).2
        have e3 := hrec.2.1 j (by rw [idsList_congr hids2]; exact hj)
        rw [e3, e2, e1]
    · intro j hj p hp
      simp only [idsList, List.mem_append] at hj
      have hparent_stable : (st j).parent = some p := by
        have hsh' : ShapeEq st st' := shapeEq_trans hshB
          (fwChildren_shape (firstwalk fuel) (separate fuel)
            (fun sa ca sa' hh => firstwalk_shape fuel sa ca sa' hh)
            (fun sa ta ia la ra hh => separate_shape fuel sa ta ia la ra hh)
            rest st2 t (i + 1) _ st' h)
        rw [← (hsh' j).2.1]
        exact hp
      rcases hj with hj | hj
      · by_cases hjc : j = c
        · subst hjc
          have hpt : p = t := by
            rw [hcp] at hparent_stable
            injection hparent_stable with hh
            exact hh.symm
          have hyc : (st' j).y = (st1 j).y := (hkeepc j hj).1
          have hBy : (st1 j).y = (st t).y + (st t).h + V_SPACING := by
            have := hB.1
            rw [hcp] at this
            exact this
          have hsh' : ShapeEq st st' :=
            shapeEq_trans hshB
              (fwChildren_shape (firstwalk fuel) (separate fuel)
                (fun sa ca sa' hh => firstwalk_shape fuel sa ca sa' hh)
                (fun sa ta ia la ra hh => separate_shape fuel sa ta ia la ra hh)
                rest st2 t (i + 1) _ st' h)
          rw [hpt, hyc, hBy, hkeept.1, (hsh' t).2.2.2]
        · -- j strictly inside c's subtree
          have hps : (st1 j).parent = some p := by
            rw [(hshA j).2.1]
            exact hparent_stable
          have hrel := hB.2.2 j hj hjc p hps
          have hpmem : p ∈ idsF fuel st c := by
            have hrepc1 : repB fuel st1 c = true :=
              (repB_shape fuel st st1 c hshA).trans hcrep
            have hj1 : j ∈ idsF fuel st1 c := by
              rw [idsF_shape fuel st st1 c hshA]
              exact hj
            have := parent_mem_idsF fuel st1 c hrepc1 j hj1 hjc p hps
            rw [idsF_shape fuel st st1 c hshA] at this
            exact this
          have hsh1' : ShapeEq st1 st' := by
            refine shapeEq_trans (separate_shape fuel st1 t i ihl _ h2) ?_
            exact fwChildren_shape (firstwalk fuel) (separate fuel)
              (fun sa ca sa' hh => firstwalk_shape fuel sa ca sa' hh)
              (fun sa ta ia la ra hh => separate_shape fuel sa ta ia la ra hh)
              rest st2 t (i + 1) _ st' h
          rw [(hkeepc j hj).1, (hkeepc p hpmem).1, (hsh1' p).2.2.2]
          exact hrel
      · have e := hrec.2.2 j (by rw [idsList_congr hids2]; exact hj) p hp
        exact e

theorem firstwalk_y_main (fuel : Nat) :
    ∀ st t st', repB fuel st t = true → (idsF fuel st t).Nodup →
    firstwalk fuel st t = .ok st' →
    ((st' t).y = (match (st t).parent with
      | some p => (st p).y + (st p).h + V_SPACING
      | none => 0)) ∧
    (∀ j ∈ idsF fuel st t, (st' j).yWrites = (st j).yWrites + 1) ∧
    (∀ j ∈ idsF fuel st t, j ≠ t → ∀ p, (st' j).parent = some p →
      (st' j).y = (st' p).y + (st' p).h + V_SPACING) := by
  induction fuel with
  | zero =>
    intro st t st' hrep
    simp [repB] at hrep
  | succ fuel ih =>
    intro st t st' hrep hnd h
    simp only [firstwalk] at h
    generalize hstY : (match (st t).parent with
      | some p => setY st t ((st p).y + (st p).h + V_SPACING)
      | none => setY st t 0) = stY at h
    have hshY : ShapeEq st stY := by
      rw [← hstY]
      rcases (st t).parent with _ | p
      · exact setY_shape st t _
      · exact setY_shape st t _
    have hyt : (stY t).y = (match (st t).parent with
        | some p => (st p).y + (st p).h + V_SPACING
        | none => 0) := by
      rw [← hstY]
      rcases (st t).parent with _ | p <;> simp [setY, setNode]
    have hywt : (stY t).yWrites = (st t).yWrites + 1 := by
      rw [← hstY]
      rcases (st t).parent with _ | p <;> simp [setY, setNode]
    have hyother : ∀ j, j ≠ t → (stY j).y = (st j).y ∧
        (stY j).yWrites = (st j).yWrites := by
      intro j hj
      rw [← hstY]
      rcases (st t).parent with _ | p <;> simp [setY, setNode, hj]
    -- nodup decomposition of  t :: idsList f children
    have hnd' := hnd
    simp only [idsF, List.nodup_cons] at hnd'
    obtain ⟨htn, hndl⟩ := hnd'
    split at h
    · -- leaf: children empty
      rename_i hemp
      have hche : (st t).children = [] := by
        have : (stY t).children = [] := List.isEmpty_iff.mp hemp
        rw [(hshY t).1] at this
        exact this
      have hinert := walkInert_y (set_extremes_inert _ _ _ h)
      refine ⟨?_, ?_, ?_⟩
      · rw [(hinert t).1, hyt]
      · intro j hj
        simp only [idsF, hche, idsList, List.mem_cons, List.not_mem_nil,
          or_false] at hj
        subst hj
        rw [(hinert j).2, hywt]
      · intro j hj hjt
        simp only [idsF, hche, idsList, List.mem_cons, List.not_mem_nil,
          or_false] at hj
        exact absurd hj hjt
    · -- internal node
      obtain ⟨c0, hc0, h⟩ := bindOk h
      obtain ⟨st1, h1, h⟩ := bindOk h
      obtain ⟨st2, h2, h⟩ := bindOk h
      obtain ⟨st3, h3, h⟩ := bindOk h
      -- identify children = c0 :: crest
      have hc0get : (st t).children[0]? = some c0 := by
        have := get_of_childAt hc0
        rw [(hshY t).1] at this
        exact this
      rcases hch : (st t).children with _ | ⟨c0', crest⟩
      · rw [hch] at hc0get
        simp at hc0get
      · have hc00 : c0 = c0' := by
          rw [hch] at hc0get
          simp at hc0get
          exact hc0get.symm
        subst hc00
        have hrepelim := repB_succ_elim hrep
        obtain ⟨hc0p, hc0rep⟩ := hrepelim c0 (by rw [hch]; exact List.mem_cons_self _ _)
        -- nodup pieces
        rw [hch] at hndl htn
        simp only [idsList] at hndl htn
        rw [List.nodup_append] at hndl
        obtain ⟨hndc0, hndrest, hdisj⟩ := hndl
        have htc0 : t ∉ idsF fuel st c0 :=
          fun hh => htn (List.mem_append.mpr (Or.inl hh))
        have htrest : t ∉ idsList (idsF fuel st) crest :=
          fun hh => htn (List.mem_append.mpr (Or.inr hh))
        -- recursive walk of c0
        have hstYstable : ∀ d, idsF fuel stY d = idsF fuel st d :=
          fun d => idsF_shape fuel st stY d hshY
        have hB := ih stY c0 st1
          ((repB_shape fuel st stY c0 hshY).trans hc0rep)
          (by rw [hstYstable]; exact hndc0) h1
        have hframe1 := firstwalk_y_frame fuel stY c0 st1 h1
        have hsh1 : ShapeEq st st1 :=
          shapeEq_trans hshY (firstwalk_shape fuel stY c0 st1 h1)
        have hids1 : ∀ d, idsF fuel st1 d = idsF fuel st d :=
          fun d => idsF_shape fuel st st1 d hsh1
        -- the sibling loop
        have hcrest_eq : (st1 t).children.drop 1 = crest := by
          rw [(hsh1 t).1, hch]
          rfl
        have hC := fwChildren_y_main fuel ih ((st1 t).children.drop 1) st1 t 1
          (updateIYL (bottom st1 c0) 0 []) st2
          (by
            rw [hcrest_eq]
            intro d hd
            obtain ⟨hdp, hdrep⟩ := hrepelim d (by rw [hch]; exact List.mem_cons_of_mem _ hd)
            exact ⟨(hsh1 d).2.1.trans hdp, (repB_shape fuel st st1 d hsh1).trans hdrep⟩)
          (by
            rw [hcrest_eq, List.nodup_cons, idsList_congr hids1]
            exact ⟨htrest, hndrest⟩)
          h2
        have hCframe := fwChildren_y_frame fuel (firstwalk_y_frame fuel)
          ((st1 t).children.drop 1) st1 t 1 _ st2 h2
        have hinert3 := walkInert_y (position_root_inert _ _ _ h3)
        have hinert4 := walkInert_y (set_extremes_inert _ _ _ h)
        have hsh2 : ShapeEq st st2 :=
          shapeEq_trans hsh1
            (fwChildren_shape (firstwalk fuel) (separate fuel)
              (fun sa ca sa' hh => firstwalk_shape fuel sa ca sa' hh)
              (fun sa ta ia la ra hh => separate_shape fuel sa ta ia la ra hh)
              _ _ _ _ _ _ h2)
        have hsh' : ShapeEq st st' :=
          shapeEq_trans hsh2
            (shapeEq_trans (position_root_shape _ _ _ h3)
              (set_extremes_shape _ _ _ h))
        -- y/yWrites of members of c0's subtree survive to st'
        have hkeepc0 : ∀ j ∈ idsF fuel st c0,
            (st' j).y = (st1 j).y ∧ (st' j).yWrites = (st1 j).yWrites := by
          intro j hj
          have hj2 : j ∉ idsList (idsF fuel st1) ((st1 t).children.drop 1) := by
            rw [hcrest_eq, idsList_congr hids1]
            exact fun hh => hdisj hj hh
          have e2 := hCframe j hj2
          exact ⟨((hinert4 j).1.trans (hinert3 j).1).trans e2.1,
            ((hinert4 j).2.trans (hinert3 j).2).trans e2.2⟩
        -- t's y survives
        have hkeept : (st' t).y = (stY t).y ∧ (st' t).yWrites = (stY t).yWrites := by
          have e1 := hframe1 t (by rw [hstYstable]; exact htc0)
          exact ⟨((hinert4 t).1.trans (hinert3 t).1).trans (hC.1.1.trans e1.1),
            ((hinert4 t).2.trans (hinert3 t).2).trans (hC.1.2.trans e1.2)⟩
        refine ⟨?_, ?_, ?_⟩
        · rw [hkeept.1, hyt]
        · intro j hj
          simp only [idsF, hch, idsList, List.mem_cons, List.mem_append] at hj
          rcases hj with rfl | hj | hj
          · rw [hkeept.2, hywt]
          · have hjt : j ≠ t := fun hh => htc0 (hh ▸ hj)
            rw [(hkeepc0 j hj).2, hB.2.1 j (by rw [hstYstable]; exact hj),
              (hyother j hjt).2]
          · have hjt : j ≠ t := fun hh => htrest (hh ▸ hj)
            have e1 := hframe1 j (by
              rw [hstYstable]
              exact fun hh => hdisj hh hj)
            have e2 := hC.2.1 j (by rw [hcrest_eq, idsList_congr hids1]; exact hj)
            rw [((hinert4 j).2.trans (hinert3 j).2), e2, e1.2, (hyother j hjt).2]
        · intro j hj hjt p hp
          simp only [idsF, hch, idsList, List.mem_cons, List.mem_append] at hj
          rcases hj with rfl | hj | hj
          · exact absurd rfl hjt
          · -- j in c0's subtree
            by_cases hjc0 : j = c0
            · subst hjc0
              have hpt : p = t := by
                have : (st j).parent = some p := by
                  rw [← (hsh' j).2.1]; exact hp
                rw [hc0p] at this
                injection this with this
                exact this.symm
              subst hpt
              have hBy : (st1 j).y = (stY p).y + (stY p).h + V_SPACING := by
                have := hB.1
                rw [(hshY j).2.1, hc0p] at this
                exact this
              rw [(hkeepc0 j (self_mem_idsF_of_rep hc0rep)).1, hBy, ← hkeept.1,
                (hshY p).2.2.2, (hsh' p).2.2.2]
            · have hps : (st1 j).parent = some p := by
                rw [(hsh1 j).2.1, ← (hsh' j).2.1]
                exact hp
              have hrel := hB.2.2 j (by rw [hstYstable]; exact hj) hjc0 p hps
              have hpmem : p ∈ idsF fuel st c0 := by
                have hrep1 : repB fuel st1 c0 = true :=
                  (repB_shape fuel st st1 c0 hsh1).trans hc0rep
                have hj1 : j ∈ idsF fuel st1 c0 := by
                  rw [hids1]; exact hj
                have := parent_mem_idsF fuel st1 c0 hrep1 j hj1 hjc0 p hps
                rw [hids1] at this
                exact this
              rw [(hkeepc0 j hj).1, (hkeepc0 p hpmem).1]
              have hh1 : (st' p).h = (st1 p).h := by
                rw [(hsh' p).2.2.2, (hsh1 p).2.2.2]
              rw [hh1]
              exact hrel
          · -- j in a later sibling subtree
            have hps2 : (st2 j).parent = some p := by
              have hx : (st j).parent = some p := by
                rw [← (hsh' j).2.1]; exact hp
              rw [(hsh2 j).2.1]
              exact hx
            have hrel := hC.2.2 j (by rw [hcrest_eq, idsList_congr hids1]; exact hj)
              p hps2
            have hyj : (st' j).y = (st2 j).y :=
              (hinert4 j).1.trans (hinert3 j).1
            have hyp : (st' p).y = (st2 p).y :=
              (hinert4 p).1.trans (hinert3 p).1
            have hhp : (st' p).h = (st2 p).h := by
              rw [(hsh' p).2.2.2, (hsh2 p).2.2.2]
            rw [hyj, hyp, hhp]
            exact hrel

/-- C2: after `layout(root)` returns, the root's `y` is `0` and every
non-root node's `y` equals `parent.y + parent.h + V_SPACING`, for every
store whose reachable structure is a tree (consistent parent links,
`Nodup` ids) with a parentless root. -/
theorem C2_row_spacing (fuel : Nat) (st : Store) (root : Nat) (st' : Store)
    (hrep : repB fuel st root = true) (hnd : (idsF fuel st root).Nodup)
    (hroot : (st root).parent = none) (h : layout fuel st root = .ok st') :
    (st' root).y = 0 ∧
    ∀ j ∈ idsF fuel st root, j ≠ root → ∀ p, (st' j).parent = some p →
      (st' j).y = (st' p).y + (st' p).h + V_SPACING := by
  unfold layout at h
  obtain ⟨stm, h1, h2⟩ := bindOk h
  have hY := firstwalk_y_main fuel st root stm hrep hnd h1
  have hkeep := secondwalk_keeps_y fuel stm root 0 st' h2
  have hsh2 := secondwalk_shape fuel stm root 0 st' h2
  constructor
  · rw [(hkeep root).1]
    have := hY.1
    rw [hroot] at this
    exact this
  · intro j hj hjr p hp
    have hpm : (stm j).parent = some p := by
      rw [(hsh2 j).2.1] at hp
      exact hp
    have hrel := hY.2.2 j hj hjr p hpm
    rw [(hkeep j).1, (hkeep p).1, (hsh2 p).2.2.2]
    exact hrel

/-- C1 is refuted on the code: on the five-node tree `exStore` (a valid
input: consistent tree with `Nodup` ids, parentless root, all working
fields neutral, non-negative sizes), `layout` succeeds yet node 3 (child
of node 2) and node 4 (last child of the root) end with boxes
`[x, x+w] × [y, y+h]` that overlap in both axes — node 3 at
`x = 295/4, y = 50` with `w = 200, h = 5`, node 4 at `x = 245, y = 25`
with `w = 5, h = 50` — so two nodes sharing a y-range overlap
horizontally, and the sibling subtrees rooted at children 2 and 4 are
not separated at their shared rows. -/
theorem C1_no_overlap_refuted :
    (repB 20 exStore 0 = true ∧ (idsF 20 exStore 0).Nodup ∧
      (exStore 0).parent = none) ∧
    layout 20 exStore 0 = .ok exFinal ∧
    ((exFinal 3).x = 295 / 4 ∧ (exFinal 3).y = 50 ∧
      (exFinal 3).w = 200 ∧ (exFinal 3).h = 5 ∧
      (exFinal 4).x = 245 ∧ (exFinal 4).y = 25 ∧
      (exFinal 4).w = 5 ∧ (exFinal 4).h = 50) ∧
    ((exFinal 3).y < (exFinal 4).y + (exFinal 4).h ∧
      (exFinal 4).y < (exFinal 3).y + (exFinal 3).h ∧
      (exFinal 3).x < (exFinal 4).x + (exFinal 4).w ∧
      (exFinal 4).x < (exFinal 3).x + (exFinal 3).w) :=
  ⟨⟨by decide, by decide, rfl⟩, rfl,
    ⟨by decide, by decide, by decide, by decide,
      by decide, by decide, by decide, by decide⟩,
    ⟨by decide, by decide, by decide, by decide⟩⟩

/-! ### Frame and write count for `x` in `secondwalk` -/

theorem swChildren_x_frame (fuel : Nat)
    (hsw : ∀ st c m st', secondwalk fuel st c m = .ok st' →
      ∀ j, j ∉ idsF fuel st c →
        (st' j).x = (st j).x ∧ (st' j).xWrites = (st j).xWrites) :
    ∀ cs st m st', swChildren (secondwalk fuel) st cs m = .ok st' →
    ∀ j, j ∉ idsList (idsF fuel st) cs →
      (st' j).x = (st j).x ∧ (st' j).xWrites = (st j).xWrites := by
  intro cs
  induction cs with
  | nil =>
    intro st m st' h j _
    cases h
    exact ⟨rfl, rfl⟩
  | cons c rest ih =>
    intro st m st' h j hj
    simp only [swChildren] at h
    obtain ⟨st1, h1, h⟩ := bindOk h
    have hjc : j ∉ idsF fuel st c :=
      fun hm => hj (by simp only [idsList, List.mem_append]; exact Or.inl hm)
    have hjrest : j ∉ idsList (idsF fuel st) rest :=
      fun hm => hj (by simp only [idsList, List.mem_append]; exact Or.inr hm)
    have e1 := hsw st c m st1 h1 j hjc
    have hjrest1 : j ∉ idsList (idsF fuel st1) rest := by
      rw [idsList_congr
        (fun d => idsF_shape fuel st st1 d (secondwalk_shape fuel st c m st1 h1))]
      exact hjrest
    have e2 := ih st1 m st' h j hjrest1
    exact ⟨e2.1.trans e1.1, e2.2.trans e1.2⟩

theorem secondwalk_x_frame (fuel : Nat) :
    ∀ st t m st', secondwalk fuel st t m = .ok st' →
    ∀ j, j ∉ idsF fuel st t →
      (st' j).x = (st j).x ∧ (st' j).xWrites = (st j).xWrites := by
  induction fuel with
  | zero =>
    intro st t m st' h
    exact absurd h (by simp [secondwalk])
  | succ fuel ih =>
    intro st t m st' h j hj
    have hjt : j ≠ t := fun hh => hj (hh ▸ self_mem_idsF fuel st t)
    have hjl : j ∉ idsList (idsF fuel st) (st t).children :=
      fun hm => hj (by simp only [idsF, List.mem_cons]; exact Or.inr hm)
    simp only [secondwalk] at h
    set stX := setX st t ((st t).prelim + (m + (st t).mod)) with hstXdef
    set stA := add_child_spacing stX t with hstAdef
    have hinA : WalkInert stX stA := by
      rw [hstAdef]
      exact acsLoop_inert _ _ _ _
    have hshXA : ShapeEq st stA := by
      rw [hstAdef, hstXdef]
      exact shapeEq_trans (setX_shape st t _) (acsLoop_shape _ _ _ _)
    have hxX : (stX j).x = (st j).x ∧ (stX j).xWrites = (st j).xWrites := by
      rw [hstXdef]
      simp [setX, setNode, hjt]
    have hjA : j ∉ idsList (idsF fuel stA) ((stA t).children) := by
      rw [(hshXA t).1, idsList_congr (fun d => idsF_shape fuel st stA d hshXA)]
      exact hjl
    have e := swChildren_x_frame fuel ih _ stA _ st' h j hjA
    exact ⟨e.1.trans ((hinA j).2.2.1.trans hxX.1),
      e.2.trans ((hinA j).2.2.2.trans hxX.2)⟩

theorem swChildren_x_main (fuel : Nat)
    (hsw : ∀ st c m st', (idsF fuel st c).Nodup →
      secondwalk fuel st c m = .ok st' →
      ∀ j ∈ idsF fuel st c, (st' j).xWrites = (st j).xWrites + 1) :
    ∀ cs st m st', (idsList (idsF fuel st) cs).Nodup →
    swChildren (secondwalk fuel) st cs m = .ok st' →
    ∀ j ∈ idsList (idsF fuel st) cs, (st' j).xWrites = (st j).xWrites + 1 := by
  intro cs
  induction cs with
  | nil =>
    intro st m st' _ h j hj
    simp [idsList] at hj
  | cons c rest ih =>
    intro st m st' hnd h j hj
    simp only [swChildren] at h
    obtain ⟨st1, h1, h⟩ := bindOk h
    simp only [idsList] at hnd hj
    rw [List.nodup_append] at hnd
    obtain ⟨hndc, hndrest, hdisj⟩ := hnd
    have hsh1 : ShapeEq st st1 := secondwalk_shape fuel st c m st1 h1
    rw [List.mem_append] at hj
    rcases hj with hj | hj
    · have e1 := hsw st c m st1 hndc h1 j hj
      have hjr1 : j ∉ idsList (idsF fuel st1) rest := by
        rw [idsList_congr (fun d => idsF_shape fuel st st1 d hsh1)]
        exact fun hm => hdisj hj hm
      have e2 := swChildren_x_frame fuel (secondwalk_x_frame fuel)
        rest st1 m st' h j hjr1
      rw [e2.2, e1]
    · have e1 := secondwalk_x_frame fuel st c m st1 h1 j
        (fun hm => hdisj hm hj)
      have e2 := ih st1 m st'
        (by rw [idsList_congr (fun d => idsF_shape fuel st st1 d hsh1)]
            exact hndrest)
        h j
        (by rw [idsList_congr (fun d => idsF_shape fuel st st1 d hsh1)]
            exact hj)
      rw [e2, e1.2]

theorem secondwalk_x_main (fuel : Nat) :
    ∀ st t m st', (idsF fuel st t).Nodup → secondwalk fuel st t m = .ok st' →
    ∀ j ∈ idsF fuel st t, (st' j).xWrites = (st j).xWrites + 1 := by
  induction fuel with
  | zero =>
    intro st t m st' _ h
    exact absurd h (by simp [secondwalk])
  | succ fuel ih =>
    intro st t m st' hnd h j hj
    simp only [idsF, List.nodup_cons] at hnd
    obtain ⟨htn, hndl⟩ := hnd
    simp only [idsF, List.mem_cons] at hj
    simp only [secondwalk] at h
    set stX := setX st t ((st t).prelim + (m + (st t).mod)) with hstXdef
    set stA := add_child_spacing stX t with hstAdef
    have hinA : WalkInert stX stA := by
      rw [hstAdef]
      exact acsLoop_inert _ _ _ _
    have hshXA : ShapeEq st stA := by
      rw [hstAdef, hstXdef]
      exact shapeEq_trans (setX_shape st t _) (acsLoop_shape _ _ _ _)
    rcases hj with rfl | hj
    · have hxX : (stX j).xWrites = (st j).xWrites + 1 := by
        rw [hstXdef]
        simp [setX, setNode]
      have hjA : j ∉ idsList (idsF fuel stA) ((stA j).children) := by
        rw [(hshXA j).1, idsList_congr (fun d => idsF_shape fuel st stA d hshXA)]
        exact htn
      have e := swChildren_x_frame fuel (secondwalk_x_frame fuel)
        _ stA _ st' h j hjA
      rw [e.2, (hinA j).2.2.2, hxX]
    · have hjt : j ≠ t := fun hh => htn (hh ▸ hj)
      have hxX : (stX j).xWrites = (st j).xWrites := by
        rw [hstXdef]
        simp [setX, setNode, hjt]
      have e := swChildren_x_main fuel ih _ stA _ st'
        (by rw [(hshXA t).1, idsList_congr (fun d => idsF_shape fuel st stA d hshXA)]
            exact hndl)
        h j
        (by rw [(hshXA t).1, idsList_congr (fun d => idsF_shape fuel st stA d hshXA)]
            exact hj)
      rw [e, (hinA j).2.2.2, hxX]

/-- C7: `layout` never modifies any node's `w`, `h`, `children` or
`parent`; on its run the bottom-up pass (`firstwalk`) writes each
reachable node's `y` exactly once and no `x`, and the top-down pass
(`secondwalk`) writes each reachable node's `x` exactly once and no `y`. -/
theorem C7_frame (fuel : Nat) (st : Store) (root : Nat) (st' : Store)
    (hrep : repB fuel st root = true) (hnd : (idsF fuel st root).Nodup)
    (h : layout fuel st root = .ok st') :
    (∀ j, (st' j).children = (st j).children ∧ (st' j).parent = (st j).parent ∧
      (st' j).w = (st j).w ∧ (st' j).h = (st j).h) ∧
    ∃ stm, firstwalk fuel st root = .ok stm ∧
      secondwalk fuel stm root 0 = .ok st' ∧
      ∀ j ∈ idsF fuel st root,
        (stm j).yWrites = (st j).yWrites + 1 ∧
        (stm j).xWrites = (st j).xWrites ∧
        (st' j).yWrites = (stm j).yWrites ∧
        (st' j).xWrites = (stm j).xWrites + 1 := by
  have hshape := layout_shape fuel st root st' h
  unfold layout at h
  obtain ⟨stm, h1, h2⟩ := bindOk h
  refine ⟨fun j => hshape j, stm, h1, h2, ?_⟩
  intro j hj
  have hY := firstwalk_y_main fuel st root stm hrep hnd h1
  have hX1 := firstwalk_keeps_x fuel st root stm h1
  have hY2 := secondwalk_keeps_y fuel stm root 0 st' h2
  have hsh1 := firstwalk_shape fuel st root stm h1
  have hX2 := secondwalk_x_main fuel stm root 0 st'
    (by rw [idsF_shape fuel st stm root hsh1]; exact hnd) h2
    j (by rw [idsF_shape fuel st stm root hsh1]; exact hj)
  exact ⟨hY.2.1 j hj, (hX1 j).2, (hY2 j).2, hX2⟩

/-- C7 witness: on the three-node `twoStore`, node 1 has its `y` written
once by the bottom-up pass and its `x` written once by the top-down pass,
and its shape fields are untouched. -/
theorem C7_frame_witness :
    repB 20 twoStore 0 = true ∧ layout 20 twoStore 0 = .ok twoFinal ∧
    (twoFinal 1).w = (twoStore 1).w ∧ (twoFinal 1).h = (twoStore 1).h ∧
    (twoFinal 1).children = (twoStore 1).children ∧
    (twoFinal 1).parent = (twoStore 1).parent ∧
    (twoFinal 1).yWrites = 1 ∧ (twoFinal 1).xWrites = 1 := by
  have hc := C7_frame 20 twoStore 0 twoFinal (by decide) (by decide) rfl
  obtain ⟨hsh, stm, h1, h2, hcount⟩ := hc
  have h1c := hcount 1 (by decide)
  refine ⟨by decide, rfl, (hsh 1).2.2.1, (hsh 1).2.2.2, (hsh 1).1, (hsh 1).2.1,
    ?_, ?_⟩
  · rw [h1c.2.2.1, h1c.1]
    decide
  · rw [h1c.2.2.2, h1c.2.1]
    decide

/-! ### C8 groundwork: the `EqW` pairing of two runs -/

theorem eqW_refl (a : NodeData) : EqW a a :=
  ⟨rfl, rfl, rfl, rfl, rfl, rfl, rfl, rfl, rfl, rfl, rfl, rfl, rfl, rfl⟩

theorem eqWS_setNode {st st₂ : Store} (hEq : EqWS st st₂) (c : Nat)
    {nd nd₂ : NodeData} (hnd : EqW nd nd₂) :
    EqWS (setNode st c nd) (setNode st₂ c nd₂) := by
  intro j
  by_cases hj : j = c <;> simp only [setNode, hj, if_pos, if_neg, if_true]
  · simpa using hnd
  · simpa [hj] using hEq j

theorem childAt_pair {st st₂ : Store} (hEq : EqWS st st₂) (t i : Nat) :
    childAt st₂ t i = childAt st t i := by
  unfold childAt
  rw [(hEq t).1]

theorem bottom_pair {st st₂ : Store} (hEq : EqWS st st₂) {j : Nat}
    (hy : (st j).y = (st₂ j).y) : bottom st₂ j = bottom st j := by
  unfold bottom
  rw [hy, (hEq j).2.2.2.1]

theorem next_left_contour_pair {st st₂ : Store} (hEq : EqWS st st₂)
    (j : Nat) : next_left_contour st₂ j = next_left_contour st j := by
  unfold next_left_contour
  rw [(hEq j).1, (hEq j).2.2.2.2.2.2.2.2.1]

theorem next_right_contour_pair {st st₂ : Store} (hEq : EqWS st st₂)
    (j : Nat) : next_right_contour st₂ j = next_right_contour st j := by
  unfold next_right_contour
  rw [(hEq j).1, (hEq j).2.2.2.2.2.2.2.2.2.1]

theorem advanceCursor_pair {st st₂ : Store} (hEq : EqWS st st₂) {sr : Nat}
    (hy : (st sr).y = (st₂ sr).y) (l : IYL) :
    advanceCursor st₂ sr l = advanceCursor st sr l := by
  induction l with
  | nil => rfl
  | cons e rest ih =>
    obtain ⟨lq, idx⟩ := e
    simp only [advanceCursor, bottom_pair hEq hy, ih]

theorem stepAdvance_pair {st st₂ : Store} (hEq : EqWS st st₂)
    {srv clv : Nat} (hys : (st srv).y = (st₂ srv).y)
    (hyc : (st clv).y = (st₂ clv).y) (mssr mscl : ℚ) :
    stepAdvance st₂ srv clv mssr mscl = stepAdvance st srv clv mssr mscl := by
  unfold stepAdvance
  rw [bottom_pair hEq hys, bottom_pair hEq hyc,
    next_right_contour_pair hEq, next_left_contour_pair hEq]
  rcases next_right_contour st srv with _ | n <;>
    rcases next_left_contour st clv with _ | n' <;>
      simp only [(hEq _).2.2.2.2.2.1]

theorem next_left_contour_mem {P : List Nat} {st : Store} {j n : Nat}
    (hcl : ClosedL P st) (hj : j ∈ P)
    (h : next_left_contour st j = some n) : n ∈ P := by
  unfold next_left_contour at h
  rcases hh : (st j).children.head? with _ | c
  · rw [hh] at h
    exact ((hcl j hj).2.2.2.1) n h
  · rw [hh] at h
    injection h with h
    subst h
    exact (hcl j hj).1 _ (List.mem_of_mem_head? hh)

theorem next_right_contour_mem {P : List Nat} {st : Store} {j n : Nat}
    (hcl : ClosedL P st) (hj : j ∈ P)
    (h : next_right_contour st j = some n) : n ∈ P := by
  unfold next_right_contour at h
  rcases hh : (st j).children.getLast? with _ | c
  · rw [hh] at h
    exact ((hcl j hj).2.2.2.2) n h
  · rw [hh] at h
    injection h with h
    subst h
    exact (hcl j hj).1 _ (List.mem_of_mem_getLast? hh)

theorem closedL_congr {P : List Nat} {st st' : Store}
    (hfr : ∀ j ∈ P, st' j = st j) (hcl : ClosedL P st) : ClosedL P st' := by
  intro j hj
  rw [hfr j hj]
  exact hcl j hj

theorem closedL_cInert {P : List Nat} {st st' : Store} (hsh : ShapeEq st st')
    (hci : CInert st st') (hcl : ClosedL P st) : ClosedL P st' := by
  intro j hj
  rw [(hsh j).1, (hci j).1, (hci j).2.1, (hci j).2.2.1, (hci j).2.2.2]
  exact hcl j hj

theorem closedL_append {P Q : List Nat} {st : Store} (hP : ClosedL P st)
    (hQ : ClosedL Q st) : ClosedL (P ++ Q) st := by
  intro j hj
  rw [List.mem_append] at hj
  rcases hj with hj | hj
  · obtain ⟨h1, h2, h3, h4, h5⟩ := hP j hj
    exact ⟨fun c hc => List.mem_append.mpr (Or.inl (h1 c hc)),
      List.mem_append.mpr (Or.inl h2), List.mem_append.mpr (Or.inl h3),
      fun u hu => List.mem_append.mpr (Or.inl (h4 u hu)),
      fun u hu => List.mem_append.mpr (Or.inl (h5 u hu))⟩
  · obtain ⟨h1, h2, h3, h4, h5⟩ := hQ j hj
    exact ⟨fun c hc => List.mem_append.mpr (Or.inr (h1 c hc)),
      List.mem_append.mpr (Or.inr h2), List.mem_append.mpr (Or.inr h3),
      fun u hu => List.mem_append.mpr (Or.inr (h4 u hu)),
      fun u hu => List.mem_append.mpr (Or.inr (h5 u hu))⟩

theorem closedL_mono {P Q : List Nat} {st : Store} (hPQ : ∀ j ∈ P, j ∈ Q)
    (hP : ClosedL P st) : ∀ j ∈ P, (∀ c ∈ (st j).children, c ∈ Q) ∧
      (st j).el ∈ Q ∧ (st j).er ∈ Q ∧
      (∀ u, (st j).tl = some u → u ∈ Q) ∧
      (∀ u, (st j).tr = some u → u ∈ Q) := by
  intro j hj
  obtain ⟨h1, h2, h3, h4, h5⟩ := hP j hj
  exact ⟨fun c hc => hPQ c (h1 c hc), hPQ _ h2, hPQ _ h3,
    fun u hu => hPQ u (h4 u hu), fun u hu => hPQ u (h5 u hu)⟩

theorem wIn_refl (P : List Nat) (st : Store) : WIn P st st := fun _ _ => rfl

theorem wIn_trans {P : List Nat} {st1 st2 st3 : Store}
    (h1 : WIn P st1 st2) (h2 : WIn P st2 st3) : WIn P st1 st3 :=
  fun j hj => (h2 j hj).trans (h1 j hj)

theorem wIn_mono {P Q : List Nat} {st st' : Store} (hPQ : ∀ j ∈ P, j ∈ Q)
    (h : WIn P st st') : WIn Q st st' :=
  fun j hj => h j (fun hm => hj (hPQ j hm))

theorem wIn_setNode {P : List Nat} {st : Store} {c : Nat} (hc : c ∈ P)
    (nd : NodeData) : WIn P st (setNode st c nd) := by
  intro j hj
  have hjc : j ≠ c := fun hh => hj (hh ▸ hc)
  simp [setNode, hjc]

theorem cInert_refl (st : Store) : CInert st st :=
  fun _ => ⟨rfl, rfl, rfl, rfl⟩

theorem cInert_trans {st1 st2 st3 : Store} (h1 : CInert st1 st2)
    (h2 : CInert st2 st3) : CInert st1 st3 :=
  fun j => ⟨(h2 j).1.trans (h1 j).1, (h2 j).2.1.trans (h1 j).2.1,
    (h2 j).2.2.1.trans (h1 j).2.2.1, (h2 j).2.2.2.trans (h1 j).2.2.2⟩

theorem cInert_setNode' {st st' : Store} (h : CInert st st') (c : Nat)
    (nd : NodeData) (hel : nd.el = (st' c).el) (her : nd.er = (st' c).er)
    (htl : nd.tl = (st' c).tl) (htr : nd.tr = (st' c).tr) :
    CInert st (setNode st' c nd) := by
  intro j
  by_cases hj : j = c
  · subst hj
    simp only [setNode, if_pos]
    exact ⟨hel.trans (h j).1, her.trans (h j).2.1,
      htl.trans (h j).2.2.1, htr.trans (h j).2.2.2⟩
  · simp only [setNode, if_neg hj]
    exact h j

theorem distribute_extra_cInert (st : Store) (t i si : Nat) (dist : ℚ)
    (st' : Store) (h : distribute_extra st t i si dist = .ok st') :
    CInert st st' := by
  unfold distribute_extra at h
  split at h
  · obtain ⟨cs1, hcs1, h⟩ := bindOk h
    obtain ⟨ci, hci, h⟩ := bindOk h
    cases h
    refine cInert_setNode' ?_ _ _ rfl rfl rfl rfl
    exact cInert_setNode' (cInert_refl st) _ _ rfl rfl rfl rfl
  · cases h
    exact cInert_refl st

theorem move_subtree_cInert (st : Store) (t i si : Nat) (dist : ℚ)
    (st' : Store) (h : move_subtree st t i si dist = .ok st') :
    CInert st st' := by
  unfold move_subtree at h
  obtain ⟨ci, hci, h⟩ := bindOk h
  refine cInert_trans ?_ (distribute_extra_cInert _ _ _ _ _ _ h)
  exact cInert_setNode' (cInert_refl st) _ _ rfl rfl rfl rfl

theorem sepLoop_cInert (fuel : Nat) :
    ∀ st t i sr cl mssr mscl cursor calls s',
    sepLoop fuel st t i sr cl mssr mscl cursor calls = .ok s' →
    CInert st s'.st := by
  induction fuel with
  | zero =>
    intro st t i sr cl mssr mscl cursor calls s' h
    exact absurd h (by simp [sepLoop])
  | succ fuel ih =>
    intro st t i sr cl mssr mscl cursor calls s' h
    simp only [sepLoop] at h
    match sr, cl with
    | none, _ =>
      cases h
      exact cInert_refl st
    | some srv, none =>
      cases h
      exact cInert_refl st
    | some srv, some clv =>
      simp only at h
      split at h
      · obtain ⟨ci, hci, h⟩ := bindOk h
        obtain ⟨st2, hmv, h⟩ := bindOk h
        rcases hsa : stepAdvance st2 srv clv mssr _ with ⟨⟨sr2, mssr2⟩, cl2, mscl2⟩
        rw [hsa] at h
        exact cInert_trans (move_subtree_cInert _ _ _ _ _ _ hmv)
          (ih _ _ _ _ _ _ _ _ _ _ h)
      · rcases hsa : stepAdvance st srv clv mssr mscl with ⟨⟨sr2, mssr2⟩, cl2, mscl2⟩
        rw [hsa] at h
        exact ih _ _ _ _ _ _ _ _ _ _ h

theorem children_setNode_keep {st : Store} {c : Nat} {nd : NodeData}
    (hnd : nd.children = (st c).children) (t : Nat) :
    ((setNode st c nd) t).children = (st t).children := by
  by_cases ht : t = c
  · subst ht
    simp [setNode, hnd]
  · simp [setNode, ht]

theorem distribute_extra_wIn {P : List Nat} {st : Store} {t i si : Nat}
    {dist : ℚ} {st' : Store}
    (hch : ∀ k c, k ≤ i → (st t).children[k]? = some c → c ∈ P)
    (hsi : si < i ∨ si = i - 1)
    (h : distribute_extra st t i si dist = .ok st') : WIn P st st' := by
  unfold distribute_extra at h
  split at h
  · rename_i hne
    obtain ⟨cs1, hcs1, h⟩ := bindOk h
    obtain ⟨ci, hci, h⟩ := bindOk h
    cases h
    have hsilt : si < i := by
      rcases hsi with hlt | heq
      · exact hlt
      · exact absurd heq hne
    have hcs1P : cs1 ∈ P :=
      hch (si + 1) cs1 hsilt (get_of_childAt hcs1)
    have hciP : ci ∈ P := by
      refine hch i ci (Nat.le_refl i) ?_
      have hg := get_of_childAt hci
      by_cases ht : t = cs1
      · subst ht
        simpa [setNode] using hg
      · simpa [setNode, ht] using hg
    exact wIn_trans (wIn_setNode hcs1P _) (wIn_setNode hciP _)
  · cases h
    exact wIn_refl P st

theorem move_subtree_wIn {P : List Nat} {st : Store} {t i si : Nat}
    {dist : ℚ} {st' : Store}
    (hch : ∀ k c, k ≤ i → (st t).children[k]? = some c → c ∈ P)
    (hsi : si < i ∨ si = i - 1)
    (h : move_subtree st t i si dist = .ok st') : WIn P st st' := by
  unfold move_subtree at h
  obtain ⟨ci, hci, h⟩ := bindOk h
  have hciP : ci ∈ P := hch i ci (Nat.le_refl i) (get_of_childAt hci)
  refine wIn_trans (wIn_setNode hciP _) (distribute_extra_wIn ?_ hsi h)
  intro k c hk hkc
  refine hch k c hk ?_
  by_cases ht : t = ci
  · subst ht
    simpa [setNode] using hkc
  · simpa [setNode, ht] using hkc

theorem distribute_extra_sim {st st₂ : Store} (hEq : EqWS st st₂)
    (t i si : Nat) (dist : ℚ) {st' : Store}
    (h : distribute_extra st t i si dist = .ok st') :
    ∃ st₂', distribute_extra st₂ t i si dist = .ok st₂' ∧ EqWS st' st₂' := by
  unfold distribute_extra at h ⊢
  split at h
  · rename_i hne
    rw [if_pos hne]
    obtain ⟨cs1, hcs1, h⟩ := bindOk h
    obtain ⟨ci, hci, h⟩ := bindOk h
    cases h
    rw [childAt_pair hEq, hcs1]
    simp only [ok_bind]
    have hnd1 : EqW
        { st cs1 with shift := (st cs1).shift + dist / ((i : ℚ) - (si : ℚ)) }
        { st₂ cs1 with shift := (st₂ cs1).shift + dist / ((i : ℚ) - (si : ℚ)) } := by
      obtain ⟨e1, e2, e3, e4, e5, e6, e7, e8, e9, e10, e11, e12, e13, e14⟩ :=
        hEq cs1
      exact ⟨e1, e2, e3, e4, e5, e6, by rw [e7], e8, e9, e10, e11, e12, e13, e14⟩
    have hEq1 := eqWS_setNode hEq cs1 hnd1
    rw [childAt_pair hEq1, hci]
    simp only [ok_bind]
    refine ⟨_, rfl, ?_⟩
    refine eqWS_setNode hEq1 ci ?_
    obtain ⟨e1, e2, e3, e4, e5, e6, e7, e8, e9, e10, e11, e12, e13, e14⟩ :=
      hEq1 ci
    exact ⟨e1, e2, e3, e4, e5, e6, by rw [e7], by rw [e8], e9, e10, e11, e12,
      e13, e14⟩
  · rename_i hne
    rw [if_neg hne]
    cases h
    exact ⟨st₂, rfl, hEq⟩

theorem move_subtree_sim {st st₂ : Store} (hEq : EqWS st st₂)
    (t i si : Nat) (dist : ℚ) {st' : Store}
    (h : move_subtree st t i si dist = .ok st') :
    ∃ st₂', move_subtree st₂ t i si dist = .ok st₂' ∧ EqWS st' st₂' := by
  unfold move_subtree at h ⊢
  obtain ⟨ci, hci, h⟩ := bindOk h
  rw [childAt_pair hEq, hci, ok_bind]
  have hnd : EqW
      { st ci with
        mod := (st ci).mod + dist, msel := (st ci).msel + dist,
        mser := (st ci).mser + dist }
      { st₂ ci with
        mod := (st₂ ci).mod + dist, msel := (st₂ ci).msel + dist,
        mser := (st₂ ci).mser + dist } := by
    obtain ⟨e1, e2, e3, e4, e5, e6, e7, e8, e9, e10, e11, e12, e13, e14⟩ :=
      hEq ci
    exact ⟨e1, e2, e3, e4, e5, by rw [e6], e7, e8, e9, e10, e11, e12,
      by rw [e13], by rw [e14]⟩
  exact distribute_extra_sim (eqWS_setNode hEq ci hnd) t i si dist h

theorem stepAdvance_mem {P : List Nat} {st : Store} {srv clv : Nat}
    (hcl : ClosedL P st) (hsrv : srv ∈ P) (hclv : clv ∈ P)
    (mssr mscl : ℚ) :
    (∀ u, (stepAdvance st srv clv mssr mscl).1.1 = some u → u ∈ P) ∧
    (∀ u, (stepAdvance st srv clv mssr mscl).2.1 = some u → u ∈ P) := by
  unfold stepAdvance
  constructor
  · intro u hu
    simp only at hu
    split at hu
    · split at hu
      · rename_i n hn
        injection hu with hu
        subst hu
        exact next_right_contour_mem hcl hsrv hn
      · exact absurd hu (by simp)
    · injection hu with hu
      subst hu
      exact hsrv
  · intro u hu
    simp only at hu
    split at hu
    · split at hu
      · rename_i n hn
        injection hu with hu
        subst hu
        exact next_left_contour_mem hcl hclv hn
      · exact absurd hu (by simp)
    · injection hu with hu
      subst hu
      exact hclv

theorem sepLoop_sim (fuel : Nat) :
    ∀ P st st₂ t i sr cl mssr mscl cursor calls s,
    EqWS st st₂ →
    (∀ j ∈ P, (st j).y = (st₂ j).y) →
    ClosedL P st →
    (∀ u, sr = some u → u ∈ P) →
    (∀ u, cl = some u → u ∈ P) →
    (∀ e ∈ cursor, e.2 < i) →
    (∀ k c, k ≤ i → (st t).children[k]? = some c → c ∈ P) →
    sepLoop fuel st t i sr cl mssr mscl cursor calls = .ok s →
    ∃ st₂f, sepLoop fuel st₂ t i sr cl mssr mscl cursor calls =
        .ok ⟨st₂f, s.sr, s.cl, s.mssr, s.mscl, s.cursor, s.calls⟩ ∧
      EqWS s.st st₂f ∧ WIn P st s.st ∧ WIn P st₂ st₂f ∧
      (∀ u, s.sr = some u → u ∈ P) ∧ (∀ u, s.cl = some u → u ∈ P) := by
  induction fuel with
  | zero =>
    intro P st st₂ t i sr cl mssr mscl cursor calls s _ _ _ _ _ _ _ h
    exact absurd h (by simp [sepLoop])
  | succ fuel ih =>
    intro P st st₂ t i sr cl mssr mscl cursor calls s hEq hy hclP hsr hcl hcur hch h
    match sr, cl with
    | none, _ =>
      simp only [sepLoop] at h ⊢
      cases h
      exact ⟨st₂, rfl, hEq, wIn_refl P st, wIn_refl P st₂, hsr, hcl⟩
    | some srv, none =>
      simp only [sepLoop] at h ⊢
      cases h
      exact ⟨st₂, rfl, hEq, wIn_refl P st, wIn_refl P st₂, hsr, hcl⟩
    | some srv, some clv =>
      simp only [sepLoop] at h ⊢
      have hsrvP : srv ∈ P := hsr srv rfl
      have hclvP : clv ∈ P := hcl clv rfl
      have hysrv := hy srv hsrvP
      have hyclv := hy clv hclvP
      rw [advanceCursor_pair hEq hysrv, ← (hEq srv).2.2.2.2.1,
        ← (hEq srv).2.2.1, ← (hEq clv).2.2.2.2.1]
      have hcur' : ∀ e ∈ advanceCursor st srv cursor, e.2 < i :=
        fun e he => hcur e (advanceCursor_subset st srv cursor e he)
      have hsi : (match advanceCursor st srv cursor with
          | (_, idx) :: _ => idx
          | [] => i - 1) < i ∨
          (match advanceCursor st srv cursor with
          | (_, idx) :: _ => idx
          | [] => i - 1) = i - 1 := by
        cases hac : advanceCursor st srv cursor with
        | nil => exact Or.inr rfl
        | cons e rest =>
          obtain ⟨lq, idx⟩ := e
          exact Or.inl (hcur' (lq, idx) (by rw [hac]; exact List.mem_cons_self _ _))
      by_cases hd : (0 : ℚ) <
          (mssr + (st srv).prelim + (st srv).w + H_SPACING)
            - (mscl + (st clv).prelim)
      · rw [if_pos hd] at h ⊢
        obtain ⟨ci, hci, h⟩ := bindOk h
        obtain ⟨stM, hmv, h⟩ := bindOk h
        rcases hsa : stepAdvance stM srv clv mssr _ with ⟨⟨sr2, mssr2⟩, cl2, mscl2⟩
        rw [hsa] at h
        obtain ⟨stM₂, hmv₂, hEqM⟩ := move_subtree_sim hEq t i _ _ hmv
        rw [childAt_pair hEq, hci]
        simp only [ok_bind]
        rw [hmv₂]
        simp only [ok_bind]
        rw [← (hEq ci).2.2.2.2.2.1, ← (hEq ci).2.2.2.2.2.2.2.2.2.2.2.2.1,
          ← (hEq ci).2.2.2.2.2.2.2.2.2.2.2.2.2, ← (hEqM ci).2.2.2.2.2.1,
          ← (hEqM ci).2.2.2.2.2.2.2.2.2.2.2.2.1,
          ← (hEqM ci).2.2.2.2.2.2.2.2.2.2.2.2.2]
        have hysM : (stM srv).y = (stM₂ srv).y := by
          rw [(walkInert_y (move_subtree_inert _ _ _ _ _ _ hmv) srv).1,
            (walkInert_y (move_subtree_inert _ _ _ _ _ _ hmv₂) srv).1, hysrv]
        have hycM : (stM clv).y = (stM₂ clv).y := by
          rw [(walkInert_y (move_subtree_inert _ _ _ _ _ _ hmv) clv).1,
            (walkInert_y (move_subtree_inert _ _ _ _ _ _ hmv₂) clv).1, hyclv]
        rw [stepAdvance_pair hEqM hysM hycM, hsa]
        have hshM := move_subtree_shape _ _ _ _ _ _ hmv
        have hWa : WIn P st stM := move_subtree_wIn hch hsi hmv
        have hWb : WIn P st₂ stM₂ := by
          refine move_subtree_wIn ?_ hsi hmv₂
          intro k c hk hkc
          refine hch k c hk ?_
          rw [(hEq t).1]
          exact hkc
        have hclM : ClosedL P stM :=
          closedL_cInert hshM (move_subtree_cInert _ _ _ _ _ _ hmv) hclP
        have hyMP : ∀ j ∈ P, (stM j).y = (stM₂ j).y := by
          intro j hj
          rw [(walkInert_y (move_subtree_inert _ _ _ _ _ _ hmv) j).1,
            (walkInert_y (move_subtree_inert _ _ _ _ _ _ hmv₂) j).1]
          exact hy j hj
        have hmem := stepAdvance_mem hclM hsrvP hclvP mssr
          (mscl + ((mssr + (st srv).prelim + (st srv).w + H_SPACING)
            - (mscl + (st clv).prelim)))
        obtain ⟨st₂f, hrec, hEqF, hWc, hWd, hsrF, hclF⟩ :=
          ih P stM stM₂ t i sr2 cl2 mssr2 mscl2 _ _ s hEqM hyMP hclM
            (fun u hu => hmem.1 u (by rw [hsa]; exact hu))
            (fun u hu => hmem.2 u (by rw [hsa]; exact hu))
            hcur'
            (fun k c hk hkc => hch k c hk (by rw [← (hshM t).1]; exact hkc))
            h
        exact ⟨st₂f, hrec, hEqF, wIn_trans hWa hWc, wIn_trans hWb hWd,
          hsrF, hclF⟩
      · rw [if_neg hd] at h ⊢
        rcases hsa : stepAdvance st srv clv mssr mscl with ⟨⟨sr2, mssr2⟩, cl2, mscl2⟩
        rw [hsa] at h
        rw [stepAdvance_pair hEq hysrv hyclv, hsa]
        have hmem := stepAdvance_mem hclP hsrvP hclvP mssr mscl
        exact ih P st st₂ t i sr2 cl2 mssr2 mscl2 _ _ s hEq hy hclP
          (fun u hu => hmem.1 u (by rw [hsa]; exact hu))
          (fun u hu => hmem.2 u (by rw [hsa]; exact hu))
          hcur' hch h

theorem closedL_upd {P : List Nat} {st : Store} {c : Nat} {nd : NodeData}
    (hcl : ClosedL P st) (hch : nd.children = (st c).children)
    (hel : c ∈ P → nd.el ∈ P) (her : c ∈ P → nd.er ∈ P)
    (htl : c ∈ P → ∀ u, nd.tl = some u → u ∈ P)
    (htr : c ∈ P → ∀ u, nd.tr = some u → u ∈ P) :
    ClosedL P (setNode st c nd) := by
  intro j hj
  by_cases hjc : j = c
  · subst hjc
    simp only [setNode, if_pos]
    obtain ⟨h1, h2, h3, h4, h5⟩ := hcl j hj
    exact ⟨fun d hd => h1 d (by rw [← hch]; exact hd),
      hel hj, her hj, htl hj, htr hj⟩
  · simp only [setNode, if_neg hjc]
    exact hcl j hj

theorem set_left_thread_sim {P : List Nat} {st st₂ : Store} {t i clv : Nat}
    {ms : ℚ} {st' : Store}
    (hEq : EqWS st st₂) (hclP : ClosedL P st)
    (hch : ∀ k c, k ≤ i → (st t).children[k]? = some c → c ∈ P)
    (hclv : clv ∈ P)
    (h : set_left_thread st t i clv ms = .ok st') :
    ∃ st₂', set_left_thread st₂ t i clv ms = .ok st₂' ∧ EqWS st' st₂' ∧
      WIn P st st' ∧ WIn P st₂ st₂' ∧ ClosedL P st' := by
  unfold set_left_thread at h ⊢
  obtain ⟨c0, hc0, h⟩ := bindOk h
  obtain ⟨ci, hci, h⟩ := bindOk h
  cases h
  have hc0P : c0 ∈ P := hch 0 c0 (Nat.zero_le i) (get_of_childAt hc0)
  have hliP : (st c0).el ∈ P := (hclP c0 hc0P).2.1
  rw [childAt_pair hEq, hc0]
  simp only [ok_bind]
  rw [← (hEq c0).2.2.2.2.2.2.2.2.2.2.1]
  set st1 := setNode st ((st c0).el)
    { st ((st c0).el) with tl := some clv } with hst1
  set st₂1 := setNode st₂ ((st c0).el)
    { st₂ ((st c0).el) with tl := some clv } with hst₂1
  have hEq1 : EqWS st1 st₂1 := by
    rw [hst1, hst₂1]
    refine eqWS_setNode hEq ((st c0).el) ?_
    obtain ⟨e1, e2, e3, e4, e5, e6, e7, e8, e9, e10, e11, e12, e13, e14⟩ :=
      hEq ((st c0).el)
    exact ⟨e1, e2, e3, e4, e5, e6, e7, e8, rfl, e10, e11, e12, e13, e14⟩
  set st2 := setNode st1 ((st c0).el)
    { st1 ((st c0).el) with
      mod := (st1 ((st c0).el)).mod + ((ms - (st1 clv).mod) - (st1 c0).msel),
      prelim :=
        (st1 ((st c0).el)).prelim - ((ms - (st1 clv).mod) - (st1 c0).msel) }
    with hst2
  set st₂2 := setNode st₂1 ((st c0).el)
    { st₂1 ((st c0).el) with
      mod :=
        (st₂1 ((st c0).el)).mod + ((ms - (st₂1 clv).mod) - (st₂1 c0).msel),
      prelim :=
        (st₂1 ((st c0).el)).prelim -
          ((ms - (st₂1 clv).mod) - (st₂1 c0).msel) }
    with hst₂2
  have hEq2 : EqWS st2 st₂2 := by
    rw [hst2, hst₂2]
    refine eqWS_setNode hEq1 ((st c0).el) ?_
    obtain ⟨e1, e2, e3, e4, e5, e6, e7, e8, e9, e10, e11, e12, e13, e14⟩ :=
      hEq1 ((st c0).el)
    refine ⟨e1, e2, e3, e4, ?_, ?_, e7, e8, e9, e10, e11, e12, e13, e14⟩
    · rw [e5, (hEq1 clv).2.2.2.2.2.1, (hEq1 c0).2.2.2.2.2.2.2.2.2.2.2.2.1]
    · rw [e6, (hEq1 clv).2.2.2.2.2.1, (hEq1 c0).2.2.2.2.2.2.2.2.2.2.2.2.1]
  rw [childAt_pair hEq2, hci]
  simp only [ok_bind]
  have hciP : ci ∈ P := by
    refine hch i ci (Nat.le_refl i) ?_
    have hg := get_of_childAt hci
    rw [hst2, hst1] at hg
    by_cases ht1 : t = (st c0).el
    · subst ht1
      simpa [setNode] using hg
    · simpa [setNode, ht1] using hg
  refine ⟨_, rfl, ?_, ?_, ?_, ?_⟩
  · refine eqWS_setNode hEq2 c0 ?_
    obtain ⟨e1, e2, e3, e4, e5, e6, e7, e8, e9, e10, e11, e12, e13, e14⟩ :=
      hEq2 c0
    exact ⟨e1, e2, e3, e4, e5, e6, e7, e8, e9, e10,
      (hEq2 ci).2.2.2.2.2.2.2.2.2.2.1, e12,
      (hEq2 ci).2.2.2.2.2.2.2.2.2.2.2.2.1, e14⟩
  · rw [hst2, hst1]
    exact wIn_trans (wIn_setNode hliP _)
      (wIn_trans (wIn_setNode hliP _) (wIn_setNode hc0P _))
  · rw [hst₂2, hst₂1]
    exact wIn_trans (wIn_setNode hliP _)
      (wIn_trans (wIn_setNode hliP _) (wIn_setNode hc0P _))
  · have hcl1 : ClosedL P st1 := by
      rw [hst1]
      refine closedL_upd hclP rfl ?_ ?_ ?_ ?_
      · intro hm
        exact (hclP _ hm).2.1
      · intro hm
        exact (hclP _ hm).2.2.1
      · intro _ u hu
        injection hu with hu
        subst hu
        exact hclv
      · intro hm u hu
        exact (hclP _ hm).2.2.2.2 u hu
    have hcl2 : ClosedL P st2 := by
      rw [hst2]
      refine closedL_upd hcl1 rfl ?_ ?_ ?_ ?_
      · intro hm
        exact (hcl1 _ hm).2.1
      · intro hm
        exact (hcl1 _ hm).2.2.1
      · intro hm u hu
        exact (hcl1 _ hm).2.2.2.1 u hu
      · intro hm u hu
        exact (hcl1 _ hm).2.2.2.2 u hu
    refine closedL_upd hcl2 rfl ?_ ?_ ?_ ?_
    · intro _
      exact (hcl2 _ hciP).2.1
    · intro hm
      exact (hcl2 _ hm).2.2.1
    · intro hm u hu
      exact (hcl2 _ hm).2.2.2.1 u hu
    · intro hm u hu
      exact (hcl2 _ hm).2.2.2.2 u hu

theorem set_right_thread_sim {P : List Nat} {st st₂ : Store} {t i srv : Nat}
    {ms : ℚ} {st' : Store}
    (hEq : EqWS st st₂) (hclP : ClosedL P st)
    (hch : ∀ k c, k ≤ i → (st t).children[k]? = some c → c ∈ P)
    (hsrv : srv ∈ P)
    (h : set_right_thread st t i srv ms = .ok st') :
    ∃ st₂', set_right_thread st₂ t i srv ms = .ok st₂' ∧ EqWS st' st₂' ∧
      WIn P st st' ∧ WIn P st₂ st₂' ∧ ClosedL P st' := by
  unfold set_right_thread at h ⊢
  obtain ⟨ci, hci, h⟩ := bindOk h
  obtain ⟨cp, hcp, h⟩ := bindOk h
  cases h
  have hciP : ci ∈ P := hch i ci (Nat.le_refl i) (get_of_childAt hci)
  have hriP : (st ci).er ∈ P := (hclP ci hciP).2.2.1
  rw [childAt_pair hEq, hci]
  simp only [ok_bind]
  rw [← (hEq ci).2.2.2.2.2.2.2.2.2.2.2.1]
  set st1 := setNode st ((st ci).er)
    { st ((st ci).er) with tr := some srv } with hst1
  set st₂1 := setNode st₂ ((st ci).er)
    { st₂ ((st ci).er) with tr := some srv } with hst₂1
  have hEq1 : EqWS st1 st₂1 := by
    rw [hst1, hst₂1]
    refine eqWS_setNode hEq ((st ci).er) ?_
    obtain ⟨e1, e2, e3, e4, e5, e6, e7, e8, e9, e10, e11, e12, e13, e14⟩ :=
      hEq ((st ci).er)
    exact ⟨e1, e2, e3, e4, e5, e6, e7, e8, e9, rfl, e11, e12, e13, e14⟩
  set st2 := setNode st1 ((st ci).er)
    { st1 ((st ci).er) with
      mod := (st1 ((st ci).er)).mod + ((ms - (st1 srv).mod) - (st1 ci).mser),
      prelim :=
        (st1 ((st ci).er)).prelim - ((ms - (st1 srv).mod) - (st1 ci).mser) }
    with hst2
  set st₂2 := setNode st₂1 ((st ci).er)
    { st₂1 ((st ci).er) with
      mod :=
        (st₂1 ((st ci).er)).mod + ((ms - (st₂1 srv).mod) - (st₂1 ci).mser),
      prelim :=
        (st₂1 ((st ci).er)).prelim -
          ((ms - (st₂1 srv).mod) - (st₂1 ci).mser) }
    with hst₂2
  have hEq2 : EqWS st2 st₂2 := by
    rw [hst2, hst₂2]
    refine eqWS_setNode hEq1 ((st ci).er) ?_
    obtain ⟨e1, e2, e3, e4, e5, e6, e7, e8, e9, e10, e11, e12, e13, e14⟩ :=
      hEq1 ((st ci).er)
    refine ⟨e1, e2, e3, e4, ?_, ?_, e7, e8, e9, e10, e11, e12, e13, e14⟩
    · rw [e5, (hEq1 srv).2.2.2.2.2.1, (hEq1 ci).2.2.2.2.2.2.2.2.2.2.2.2.2]
    · rw [e6, (hEq1 srv).2.2.2.2.2.1, (hEq1 ci).2.2.2.2.2.2.2.2.2.2.2.2.2]
  rw [childAt_pair hEq2, hcp]
  simp only [ok_bind]
  have hcpP : cp ∈ P := by
    refine hch (i - 1) cp (Nat.sub_le i 1) ?_
    have hg := get_of_childAt hcp
    rw [hst2, hst1] at hg
    by_cases ht1 : t = (st ci).er
    · subst ht1
      simpa [setNode] using hg
    · simpa [setNode, ht1] using hg
  refine ⟨_, rfl, ?_, ?_, ?_, ?_⟩
  · refine eqWS_setNode hEq2 ci ?_
    obtain ⟨e1, e2, e3, e4, e5, e6, e7, e8, e9, e10, e11, e12, e13, e14⟩ :=
      hEq2 ci
    exact ⟨e1, e2, e3, e4, e5, e6, e7, e8, e9, e10, e11,
      (hEq2 cp).2.2.2.2.2.2.2.2.2.2.2.1, e13,
      (hEq2 cp).2.2.2.2.2.2.2.2.2.2.2.2.2⟩
  · rw [hst2, hst1]
    exact wIn_trans (wIn_setNode hriP _)
      (wIn_trans (wIn_setNode hriP _) (wIn_setNode hciP _))
  · rw [hst₂2, hst₂1]
    exact wIn_trans (wIn_setNode hriP _)
      (wIn_trans (wIn_setNode hriP _) (wIn_setNode hciP _))
  · have hcl1 : ClosedL P st1 := by
      rw [hst1]
      refine closedL_upd hclP rfl ?_ ?_ ?_ ?_
      · intro hm
        exact (hclP _ hm).2.1
      · intro hm
        exact (hclP _ hm).2.2.1
      · intro hm u hu
        exact (hclP _ hm).2.2.2.1 u hu
      · intro _ u hu
        injection hu with hu
        subst hu
        exact hsrv
    have hcl2 : ClosedL P st2 := by
      rw [hst2]
      refine closedL_upd hcl1 rfl ?_ ?_ ?_ ?_
      · intro hm
        exact (hcl1 _ hm).2.1
      · intro hm
        exact (hcl1 _ hm).2.2.1
      · intro hm u hu
        exact (hcl1 _ hm).2.2.2.1 u hu
      · intro hm u hu
        exact (hcl1 _ hm).2.2.2.2 u hu
    refine closedL_upd hcl2 rfl ?_ ?_ ?_ ?_
    · intro hm
      exact (hcl2 _ hm).2.1
    · intro _
      exact (hcl2 _ hcpP).2.2.1
    · intro hm u hu
      exact (hcl2 _ hm).2.2.2.1 u hu
    · intro hm u hu
      exact (hcl2 _ hm).2.2.2.2 u hu

theorem separate_sim (fuel : Nat) {P : List Nat} {st st₂ : Store} {t i : Nat}
    {ihl : IYL} {st' : Store} {calls : List MoveCall}
    (hEq : EqWS st st₂) (hy : ∀ j ∈ P, (st j).y = (st₂ j).y)
    (hclP : ClosedL P st)
    (hcur : ∀ e ∈ ihl, e.2 < i)
    (hch : ∀ k c, k ≤ i → (st t).children[k]? = some c → c ∈ P)
    (h : separate fuel st t i ihl = .ok (st', calls)) :
    ∃ st₂', separate fuel st₂ t i ihl = .ok (st₂', calls) ∧
      EqWS st' st₂' ∧ WIn P st st' ∧ WIn P st₂ st₂' ∧ ClosedL P st' := by
  unfold separate at h ⊢
  obtain ⟨sr0, hsr0, h⟩ := bindOk h
  obtain ⟨cl0, hcl0, h⟩ := bindOk h
  obtain ⟨s, hs, h⟩ := bindOk h
  rw [childAt_pair hEq, hsr0]
  simp only [ok_bind]
  rw [childAt_pair hEq, hcl0]
  simp only [ok_bind]
  rw [← (hEq sr0).2.2.2.2.2.1, ← (hEq cl0).2.2.2.2.2.1]
  have hsr0P : sr0 ∈ P :=
    hch (i - 1) sr0 (Nat.sub_le i 1) (get_of_childAt hsr0)
  have hcl0P : cl0 ∈ P := hch i cl0 (Nat.le_refl i) (get_of_childAt hcl0)
  obtain ⟨st₂f, hloop, hEqL, hWa, hWb, hsrF, hclF⟩ :=
    sepLoop_sim fuel P st st₂ t i (some sr0) (some cl0) _ _ ihl [] s hEq hy
      hclP
      (fun u hu => by injection hu with hu; subst hu; exact hsr0P)
      (fun u hu => by injection hu with hu; subst hu; exact hcl0P)
      hcur hch hs
  rw [hloop]
  simp only [ok_bind]
  have hclL : ClosedL P s.st := closedL_cInert
    (sepLoop_shape fuel _ _ _ _ _ _ _ _ _ _ hs)
    (sepLoop_cInert fuel _ _ _ _ _ _ _ _ _ _ hs) hclP
  have hchL : ∀ k c, k ≤ i → (s.st t).children[k]? = some c → c ∈ P := by
    intro k c hk hkc
    refine hch k c hk ?_
    rw [← ((sepLoop_shape fuel _ _ _ _ _ _ _ _ _ _ hs) t).1]
    exact hkc
  rcases hssr : s.sr with _ | srv <;> rcases hscl : s.cl with _ | clv <;>
    rw [hssr, hscl] at h
  · cases h
    exact ⟨st₂f, rfl, hEqL, hWa, hWb, hclL⟩
  · obtain ⟨stT, hT, h⟩ := bindOk h
    cases h
    obtain ⟨stT₂, hT₂, hEqT, hWc, hWd, hclT⟩ :=
      set_left_thread_sim hEqL hclL hchL (hclF clv hscl) hT
    refine ⟨stT₂, ?_, hEqT, wIn_trans hWa hWc, wIn_trans hWb hWd, hclT⟩
    show set_left_thread st₂f t i clv s.mscl >>=
      (fun x => (Except.ok (x, s.calls) : M (Store × List MoveCall))) =
      Except.ok (stT₂, s.calls)
    rw [hT₂, ok_bind]
  · obtain ⟨stT, hT, h⟩ := bindOk h
    cases h
    obtain ⟨stT₂, hT₂, hEqT, hWc, hWd, hclT⟩ :=
      set_right_thread_sim hEqL hclL hchL (hsrF srv hssr) hT
    refine ⟨stT₂, ?_, hEqT, wIn_trans hWa hWc, wIn_trans hWb hWd, hclT⟩
    show set_right_thread st₂f t i srv s.mssr >>=
      (fun x => (Except.ok (x, s.calls) : M (Store × List MoveCall))) =
      Except.ok (stT₂, s.calls)
    rw [hT₂, ok_bind]
  · cases h
    exact ⟨st₂f, rfl, hEqL, hWa, hWb, hclL⟩

theorem eqWS_setY {st st₂ : Store} (hEq : EqWS st st₂) (t : Nat)
    (v v₂ : ℚ) : EqWS (setY st t v) (setY st₂ t v₂) := by
  refine eqWS_setNode hEq t ?_
  obtain ⟨e1, e2, e3, e4, e5, e6, e7, e8, e9, e10, e11, e12, e13, e14⟩ :=
    hEq t
  exact ⟨e1, e2, e3, e4, e5, e6, e7, e8, e9, e10, e11, e12, e13, e14⟩

theorem eqWS_setX {st st₂ : Store} (hEq : EqWS st st₂) (t : Nat)
    (v v₂ : ℚ) : EqWS (setX st t v) (setX st₂ t v₂) := by
  refine eqWS_setNode hEq t ?_
  obtain ⟨e1, e2, e3, e4, e5, e6, e7, e8, e9, e10, e11, e12, e13, e14⟩ :=
    hEq t
  exact ⟨e1, e2, e3, e4, e5, e6, e7, e8, e9, e10, e11, e12, e13, e14⟩

theorem position_root_cInert (st : Store) (t : Nat) (st' : Store)
    (h : position_root st t = .ok st') : CInert st st' := by
  unfold position_root at h
  obtain ⟨c0, hc0, h⟩ := bindOk h
  obtain ⟨cn, hcn, h⟩ := bindOk h
  cases h
  exact cInert_setNode' (cInert_refl st) _ _ rfl rfl rfl rfl

theorem set_extremes_tlr (st : Store) (t : Nat) (st' : Store)
    (h : set_extremes st t = .ok st') :
    ∀ j, (st' j).tl = (st j).tl ∧ (st' j).tr = (st j).tr := by
  unfold set_extremes at h
  split at h
  · cases h
    intro j
    by_cases hj : j = t
    · subst hj
      simp [setNode]
    · simp [setNode, hj]
  · obtain ⟨c0, hc0, h⟩ := bindOk h
    obtain ⟨cn, hcn, h⟩ := bindOk h
    cases h
    intro j
    by_cases hj : j = t
    · subst hj
      simp [setNode]
    · simp [setNode, hj]

theorem set_extremes_cases (st : Store) (t : Nat) (st' : Store)
    (h : set_extremes st t = .ok st') :
    ((st t).children.length = 0 ∧ (st' t).el = t ∧ (st' t).er = t) ∨
    (∃ c0 cn, (st t).children[0]? = some c0 ∧
      (st t).children[(st t).children.length - 1]? = some cn ∧
      (st' t).el = (st c0).el ∧ (st' t).er = (st cn).er) := by
  unfold set_extremes at h
  split at h
  · rename_i hlen
    cases h
    exact Or.inl ⟨hlen, by simp [setNode], by simp [setNode]⟩
  · obtain ⟨c0, hc0, h⟩ := bindOk h
    obtain ⟨cn, hcn, h⟩ := bindOk h
    cases h
    exact Or.inr ⟨c0, cn, get_of_childAt hc0, get_of_childAt hcn,
      by simp [setNode], by simp [setNode]⟩

theorem position_root_sim {st st₂ : Store} (hEq : EqWS st st₂) (t : Nat)
    {st' : Store} (h : position_root st t = .ok st') :
    ∃ st₂', position_root st₂ t = .ok st₂' ∧ EqWS st' st₂' ∧
      WIn [t] st st' ∧ WIn [t] st₂ st₂' := by
  unfold position_root at h ⊢
  obtain ⟨c0, hc0, h⟩ := bindOk h
  obtain ⟨cn, hcn, h⟩ := bindOk h
  cases h
  rw [childAt_pair hEq, hc0]
  simp only [ok_bind]
  rw [← (hEq t).1, childAt_pair hEq, hcn]
  simp only [ok_bind]
  refine ⟨_, rfl, ?_, wIn_setNode (List.mem_singleton.mpr rfl) _,
    wIn_setNode (List.mem_singleton.mpr rfl) _⟩
  refine eqWS_setNode hEq t ?_
  obtain ⟨e1, e2, e3, e4, e5, e6, e7, e8, e9, e10, e11, e12, e13, e14⟩ :=
    hEq t
  refine ⟨rfl, e2, e3, e4, ?_, e6, e7, e8, e9, e10, e11, e12, e13, e14⟩
  rw [(hEq c0).2.2.2.2.1, (hEq c0).2.2.2.2.2.1, (hEq cn).2.2.2.2.2.1,
    (hEq cn).2.2.2.2.1, (hEq cn).2.2.1, e3]

theorem set_extremes_sim {st st₂ : Store} (hEq : EqWS st st₂) (t : Nat)
    {st' : Store} (h : set_extremes st t = .ok st') :
    ∃ st₂', set_extremes st₂ t = .ok st₂' ∧ EqWS st' st₂' ∧
      WIn [t] st st' ∧ WIn [t] st₂ st₂' := by
  unfold set_extremes at h ⊢
  rw [← (hEq t).1]
  split at h
  · rename_i hlen
    rw [if_pos hlen]
    cases h
    refine ⟨_, rfl, ?_, wIn_setNode (List.mem_singleton.mpr rfl) _,
      wIn_setNode (List.mem_singleton.mpr rfl) _⟩
    refine eqWS_setNode hEq t ?_
    obtain ⟨e1, e2, e3, e4, e5, e6, e7, e8, e9, e10, e11, e12, e13, e14⟩ :=
      hEq t
    exact ⟨e1, e2, e3, e4, e5, e6, e7, e8, e9, e10, rfl, rfl, rfl, rfl⟩
  · rename_i hlen
    rw [if_neg hlen]
    obtain ⟨c0, hc0, h⟩ := bindOk h
    obtain ⟨cn, hcn, h⟩ := bindOk h
    cases h
    rw [childAt_pair hEq, hc0]
    simp only [ok_bind]
    rw [childAt_pair hEq, hcn]
    simp only [ok_bind]
    refine ⟨_, rfl, ?_, wIn_setNode (List.mem_singleton.mpr rfl) _,
      wIn_setNode (List.mem_singleton.mpr rfl) _⟩
    refine eqWS_setNode hEq t ?_
    obtain ⟨e1, e2, e3, e4, e5, e6, e7, e8, e9, e10, e11, e12, e13, e14⟩ :=
      hEq t
    exact ⟨e1, e2, e3, e4, e5, e6, e7, e8, e9, e10,
      (hEq c0).2.2.2.2.2.2.2.2.2.2.1, (hEq cn).2.2.2.2.2.2.2.2.2.2.2.1,
      (hEq c0).2.2.2.2.2.2.2.2.2.2.2.2.1, (hEq cn).2.2.2.2.2.2.2.2.2.2.2.2.2⟩

theorem getElem?_of_drop_cons {l : List Nat} {i : Nat} {c : Nat}
    {rest : List Nat} (h : l.drop i = c :: rest) : l[i]? = some c := by
  induction i generalizing l with
  | zero =>
    rw [List.drop_zero] at h
    subst h
    simp
  | succ i ih =>
    cases l with
    | nil => simp at h
    | cons a l =>
      simp only [List.drop_succ_cons] at h
      simpa using ih h

theorem fwChildren_sim (fuel : Nat)
    (hfw : ∀ st st₂ c st', repB fuel st c = true → (idsF fuel st c).Nodup →
      EqWS st st₂ →
      (match (st c).parent with
        | some p => (st p).y = (st₂ p).y
        | none => True) →
      (∀ j ∈ idsF fuel st c, (st j).tl = none ∧ (st j).tr = none) →
      firstwalk fuel st c = .ok st' →
      ∃ st₂', firstwalk fuel st₂ c = .ok st₂' ∧ EqWS st' st₂' ∧
        (∀ j ∈ idsF fuel st c, (st' j).y = (st₂' j).y) ∧
        ClosedL (idsF fuel st c) st' ∧
        WIn (idsF fuel st c) st st' ∧ WIn (idsF fuel st c) st₂ st₂') :
    ∀ cs P st st₂ t i ihl st',
    EqWS st st₂ →
    (∀ j ∈ P, (st j).y = (st₂ j).y) →
    (st t).y = (st₂ t).y →
    ClosedL P st →
    (∀ c ∈ cs, (st c).parent = some t ∧ repB fuel st c = true) →
    (t :: (P ++ idsList (idsF fuel st) cs)).Nodup →
    (∀ j ∈ idsList (idsF fuel st) cs, (st j).tl = none ∧ (st j).tr = none) →
    (∀ k c, k < i → (st t).children[k]? = some c → c ∈ P) →
    ((st t).children.drop i = cs) →
    (∀ e ∈ ihl, e.2 < i) →
    fwChildren (firstwalk fuel) (separate fuel) st t i cs ihl = .ok st' →
    ∃ st₂', fwChildren (firstwalk fuel) (separate fuel) st₂ t i cs ihl =
        .ok st₂' ∧
      EqWS st' st₂' ∧
      (∀ j ∈ P ++ idsList (idsF fuel st) cs, (st' j).y = (st₂' j).y) ∧
      (st' t).y = (st₂' t).y ∧
      ClosedL (P ++ idsList (idsF fuel st) cs) st' ∧
      WIn (P ++ idsList (idsF fuel st) cs) st st' ∧
      WIn (P ++ idsList (idsF fuel st) cs) st₂ st₂' := by
  intro cs
  induction cs with
  | nil =>
    intro P st st₂ t i ihl st' hEq hy hyT hclP _ _ _ _ _ _ h
    cases h
    refine ⟨st₂, rfl, hEq, ?_, hyT, ?_, ?_, ?_⟩
    · intro j hj
      simp only [idsList, List.append_nil] at hj
      exact hy j hj
    · intro j hj
      simp only [idsList, List.append_nil] at hj
      obtain ⟨h1, h2, h3, h4, h5⟩ := hclP j hj
      refine ⟨fun d hd => ?_, ?_, ?_, fun u hu => ?_, fun u hu => ?_⟩ <;>
        simp only [idsList, List.append_nil]
      · exact h1 d hd
      · exact h2
      · exact h3
      · exact h4 u hu
      · exact h5 u hu
    · intro j hj
      refine wIn_refl P st j (fun hm => hj ?_)
      simpa [idsList] using hm
    · intro j hj
      refine wIn_refl P st₂ j (fun hm => hj ?_)
      simpa [idsList] using hm
  | cons c rest ih =>
    intro P st st₂ t i ihl st' hEq hy hyT hclP hcs hnd hthr hch hdrop hcur h
    have hnd0 := hnd
    simp only [fwChildren] at h
    obtain ⟨st1, h1, h⟩ := bindOk h
    obtain ⟨⟨st2, calls2⟩, h2, h⟩ := bindOk h
    obtain ⟨hcp, hcrep⟩ := hcs c (List.mem_cons_self _ _)
    -- Nodup decomposition
    simp only [idsList] at hnd
    rw [List.nodup_cons] at hnd
    obtain ⟨htn, hndl⟩ := hnd
    rw [List.nodup_append] at hndl
    obtain ⟨hndP, hndcr, hdisjP⟩ := hndl
    rw [List.nodup_append] at hndcr
    obtain ⟨hndc, hndrest, hdisjcr⟩ := hndcr
    have htP : t ∉ P := fun hm => htn (List.mem_append.mpr (Or.inl hm))
    have htc : t ∉ idsF fuel st c := fun hm =>
      htn (List.mem_append.mpr (Or.inr (List.mem_append.mpr (Or.inl hm))))
    have htrest : t ∉ idsList (idsF fuel st) rest := fun hm =>
      htn (List.mem_append.mpr (Or.inr (List.mem_append.mpr (Or.inr hm))))
    -- the child subtree walk
    obtain ⟨st₂1, h1₂, hEq1, hy1, hcl1, hW1a, hW1b⟩ :=
      hfw st st₂ c st1 hcrep hndc hEq
        (by rw [hcp]; exact hyT)
        (fun j hj => hthr j (by
          simp only [idsList, List.mem_append]
          exact Or.inl hj))
        h1
    have hPdisj : ∀ j ∈ P, j ∉ idsF fuel st c := fun j hj hm =>
      hdisjP hj (List.mem_append.mpr (Or.inl hm))
    have hrestdisjc : ∀ j ∈ idsList (idsF fuel st) rest,
        j ∉ idsF fuel st c := fun j hj hm => hdisjcr hm hj
    have hrestdisjP : ∀ j ∈ idsList (idsF fuel st) rest, j ∉ P :=
      fun j hj hm => hdisjP hm (List.mem_append.mpr (Or.inr hj))
    have hrec1t : st1 t = st t := hW1a t htc
    have hrec1t₂ : st₂1 t = st₂ t := hW1b t htc
    -- facts over the grown processed set
    have hyP₁ : ∀ j ∈ P ++ idsF fuel st c, (st1 j).y = (st₂1 j).y := by
      intro j hj
      rw [List.mem_append] at hj
      rcases hj with hj | hj
      · rw [hW1a j (hPdisj j hj), hW1b j (hPdisj j hj)]
        exact hy j hj
      · exact hy1 j hj
    have hclP₁ : ClosedL (P ++ idsF fuel st c) st1 :=
      closedL_append
        (closedL_congr (fun j hj => hW1a j (hPdisj j hj)) hclP) hcl1
    have hchP₁ : ∀ k c', k ≤ i → (st1 t).children[k]? = some c' →
        c' ∈ P ++ idsF fuel st c := by
      intro k c' hk hkc
      rw [hrec1t] at hkc
      rcases Nat.lt_or_ge k i with hki | hki
      · exact List.mem_append.mpr (Or.inl (hch k c' hki hkc))
      · have hkeq : k = i := Nat.le_antisymm hk hki
        subst hkeq
        have hcc : (st t).children[k]? = some c := getElem?_of_drop_cons hdrop
        rw [hcc] at hkc
        injection hkc with hkc
        subst hkc
        exact List.mem_append.mpr (Or.inr (self_mem_idsF_of_rep hcrep))
    -- the separate call
    obtain ⟨st₂2, h2₂, hEq2, hW2a, hW2b, hcl2⟩ :=
      separate_sim fuel hEq1 hyP₁ hclP₁ hcur hchP₁ h2
    have hin2 := walkInert_y (separate_inert fuel st1 t i ihl _ h2)
    have hin2₂ := walkInert_y (separate_inert fuel st₂1 t i ihl _ h2₂)
    have hshA : ShapeEq st st2 :=
      shapeEq_trans (firstwalk_shape fuel st c st1 h1)
        (separate_shape fuel st1 t i ihl _ h2)
    have hyP₁2 : ∀ j ∈ P ++ idsF fuel st c, (st2 j).y = (st₂2 j).y := by
      intro j hj
      rw [(hin2 j).1, (hin2₂ j).1]
      exact hyP₁ j hj
    have hrec2t : st2 t = st t := by
      rw [hW2a t (fun hm => ?_), hrec1t]
      rw [List.mem_append] at hm
      rcases hm with hm | hm
      · exact htP hm
      · exact htc hm
    have hrec2t₂ : st₂2 t = st₂ t := by
      rw [hW2b t (fun hm => ?_), hrec1t₂]
      rw [List.mem_append] at hm
      rcases hm with hm | hm
      · exact htP hm
      · exact htc hm
    have hidseq : idsList (idsF fuel st2) rest = idsList (idsF fuel st) rest :=
      idsList_congr (fun d => idsF_shape fuel st st2 d hshA) rest
    -- apply the induction hypothesis on the remaining siblings
    obtain ⟨st₂', hrec₂, hEqF, hyF, hyTF, hclF, hWFa, hWFb⟩ :=
      ih (P ++ idsF fuel st c) st2 st₂2 t (i + 1)
        (updateIYL (bottom st1 c) i ihl) st'
        hEq2 hyP₁2
        (by rw [show (st2 t).y = (st t).y from congrArg NodeData.y hrec2t,
          show (st₂2 t).y = (st₂ t).y from congrArg NodeData.y hrec2t₂]
            exact hyT)
        hcl2
        (by
          intro c' hc'
          obtain ⟨hdp, hdrep⟩ := hcs c' (List.mem_cons_of_mem _ hc')
          exact ⟨(hshA c').2.1.trans hdp,
            (repB_shape fuel st st2 c' hshA).trans hdrep⟩)
        (by
          rw [hidseq, List.append_assoc]
          simpa only [idsList] using hnd0)
        (by
          intro j hj
          rw [hidseq] at hj
          have hj1 : st1 j = st j := hW1a j (hrestdisjc j hj)
          have hj2 : st2 j = st1 j := hW2a j (fun hm => ?_)
          · rw [hj2, hj1]
            exact hthr j (by
              simp only [idsList, List.mem_append]
              exact Or.inr hj)
          · rw [List.mem_append] at hm
            rcases hm with hm | hm
            · exact hrestdisjP j hj hm
            · exact hrestdisjc j hj hm)
        (by
          intro k c' hk hkc
          rw [hrec2t] at hkc
          rcases Nat.lt_or_ge k i with hki | hki
          · exact List.mem_append.mpr (Or.inl (hch k c' hki hkc))
          · have hkeq : k = i := Nat.le_antisymm (Nat.lt_succ_iff.mp hk) hki
            subst hkeq
            have hcc : (st t).children[k]? = some c := getElem?_of_drop_cons hdrop
            rw [hcc] at hkc
            injection hkc with hkc
            subst hkc
            exact List.mem_append.mpr (Or.inr (self_mem_idsF_of_rep hcrep)))
        (by
          rw [hrec2t]
          have hdd : (st t).children.drop (i + 1) =
              ((st t).children.drop i).drop 1 := by
            rw [List.drop_drop]
          rw [hdd, hdrop]
          rfl)
        (by
          intro e he
          simp only [updateIYL, List.mem_cons] at he
          rcases he with rfl | he
          · exact Nat.lt_succ_self i
          · exact Nat.lt_succ_of_lt
              (hcur e (dropEvicted_subset _ ihl e he)))
        h
    -- the target set of the conclusion
    have hsetEq : (P ++ idsF fuel st c) ++ idsList (idsF fuel st2) rest =
        P ++ idsList (idsF fuel st) (c :: rest) := by
      rw [hidseq, List.append_assoc]
      rfl
    rw [hsetEq] at hyF hclF hWFa hWFb
    refine ⟨st₂', ?_, hEqF, hyF, hyTF, hclF, ?_, ?_⟩
    · simp only [fwChildren]
      rw [h1₂]
      simp only [ok_bind]
      rw [bottom_pair hEq1 (hy1 c (self_mem_idsF_of_rep hcrep)), h2₂]
      exact hrec₂
    · refine wIn_trans (wIn_mono ?_ hW1a) (wIn_trans (wIn_mono ?_ hW2a) hWFa)
      · intro j hj
        simp only [idsList, List.mem_append]
        exact Or.inr (Or.inl hj)
      · intro j hj
        rw [List.mem_append] at hj
        simp only [idsList, List.mem_append]
        rcases hj with hj | hj
        · exact Or.inl hj
        · exact Or.inr (Or.inl hj)
    · refine wIn_trans (wIn_mono ?_ hW1b) (wIn_trans (wIn_mono ?_ hW2b) hWFb)
      · intro j hj
        simp only [idsList, List.mem_append]
        exact Or.inr (Or.inl hj)
      · intro j hj
        rw [List.mem_append] at hj
        simp only [idsList, List.mem_append]
        rcases hj with hj | hj
        · exact Or.inl hj
        · exact Or.inr (Or.inl hj)

theorem firstwalk_sim (fuel : Nat) :
    ∀ st st₂ t st', repB fuel st t = true → (idsF fuel st t).Nodup →
    EqWS st st₂ →
    (match (st t).parent with
      | some p => (st p).y = (st₂ p).y
      | none => True) →
    (∀ j ∈ idsF fuel st t, (st j).tl = none ∧ (st j).tr = none) →
    firstwalk fuel st t = .ok st' →
    ∃ st₂', firstwalk fuel st₂ t = .ok st₂' ∧ EqWS st' st₂' ∧
      (∀ j ∈ idsF fuel st t, (st' j).y = (st₂' j).y) ∧
      ClosedL (idsF fuel st t) st' ∧
      WIn (idsF fuel st t) st st' ∧ WIn (idsF fuel st t) st₂ st₂' := by
  induction fuel with
  | zero =>
    intro st st₂ t st' hrep
    simp [repB] at hrep
  | succ fuel ih =>
    intro st st₂ t st' hrep hnd hEq hyPre hthr h
    simp only [firstwalk] at h ⊢
    obtain ⟨v, hv, hv₂⟩ : ∃ v,
        (match (st t).parent with
          | some p => setY st t ((st p).y + (st p).h + V_SPACING)
          | none => setY st t 0) = setY st t v ∧
        (match (st₂ t).parent with
          | some p => setY st₂ t ((st₂ p).y + (st₂ p).h + V_SPACING)
          | none => setY st₂ t 0) = setY st₂ t v := by
      rcases hpar : (st t).parent with _ | p
      · refine ⟨0, rfl, ?_⟩
        rw [show (st₂ t).parent = none from ((hEq t).2.1).symm.trans hpar]
      · have hyp : (st p).y = (st₂ p).y := by
          rw [hpar] at hyPre
          exact hyPre
        refine ⟨(st p).y + (st p).h + V_SPACING, rfl, ?_⟩
        rw [show (st₂ t).parent = some p from ((hEq t).2.1).symm.trans hpar]
        show setY st₂ t ((st₂ p).y + (st₂ p).h + V_SPACING) =
          setY st₂ t ((st p).y + (st p).h + V_SPACING)
        rw [← hyp, ← (hEq p).2.2.2.1]
    rw [hv] at h
    rw [hv₂]
    set stY := setY st t v with hstY
    set stY₂ := setY st₂ t v with hstY₂
    have hshY : ShapeEq st stY := by
      rw [hstY]
      exact setY_shape st t v
    have hshY₂ : ShapeEq st₂ stY₂ := by
      rw [hstY₂]
      exact setY_shape st₂ t v
    have hEqY : EqWS stY stY₂ := by
      rw [hstY, hstY₂]
      exact eqWS_setY hEq t v v
    have hyTY : (stY t).y = (stY₂ t).y := by
      rw [hstY, hstY₂]
      simp [setY, setNode]
    have hthrY : ∀ j, (stY j).tl = (st j).tl ∧ (stY j).tr = (st j).tr := by
      intro j
      rw [hstY]
      by_cases hj : j = t
      · subst hj
        simp [setY, setNode]
      · simp [setY, setNode, hj]
    have hchY : (stY t).children = (st t).children := (hshY t).1
    rw [show (stY₂ t).children = (stY t).children from ((hEqY t).1).symm]
    have htmem : t ∈ idsF (fuel + 1) st t := self_mem_idsF fuel st t
    split at h
    · -- leaf node
      rename_i hemp
      rw [if_pos hemp]
      obtain ⟨st₂', h₂, hEqS, hWa, hWb⟩ := set_extremes_sim hEqY t h
      have hche : (st t).children = [] := by
        rw [← hchY]
        exact List.isEmpty_iff.mp hemp
      have hidseq : idsF (fuel + 1) st t = [t] := by
        simp [idsF, hche, idsList]
      have hinS := walkInert_y (set_extremes_inert _ _ _ h)
      have hinS₂ := walkInert_y (set_extremes_inert _ _ _ h₂)
      refine ⟨st₂', h₂, hEqS, ?_, ?_, ?_, ?_⟩
      · intro j hj
        rw [hidseq, List.mem_singleton] at hj
        subst hj
        rw [(hinS j).1, (hinS₂ j).1]
        exact hyTY
      · intro j hj
        rw [hidseq, List.mem_singleton] at hj
        subst hj
        rcases set_extremes_cases _ _ _ h with ⟨_, hel, her⟩ |
          ⟨c0, cn, hc0, _, _, _⟩
        · have hchS : (st' j).children = [] := by
            rw [(set_extremes_shape _ _ _ h j).1, hchY, hche]
          have hjm : j ∈ idsF (fuel + 1) st j := by
            rw [hidseq]
            exact List.mem_singleton.mpr rfl
          have htlS : (st' j).tl = none := by
            rw [(set_extremes_tlr _ _ _ h j).1, (hthrY j).1]
            exact (hthr j hjm).1
          have htrS : (st' j).tr = none := by
            rw [(set_extremes_tlr _ _ _ h j).2, (hthrY j).2]
            exact (hthr j hjm).2
          refine ⟨?_, ?_, ?_, ?_, ?_⟩
          · intro d hd
            rw [hchS] at hd
            simp at hd
          · rw [hel]
            exact hjm
          · rw [her]
            exact hjm
          · intro u hu
            rw [htlS] at hu
            exact absurd hu (by simp)
          · intro u hu
            rw [htrS] at hu
            exact absurd hu (by simp)
        · rw [hchY, hche] at hc0
          simp at hc0
      · rw [hidseq]
        refine wIn_trans ?_ (wIn_mono ?_ hWa)
        · rw [hstY]
          exact wIn_setNode (List.mem_singleton.mpr rfl) _
        · intro d hd
          exact hd
      · rw [hidseq]
        refine wIn_trans ?_ (wIn_mono ?_ hWb)
        · rw [hstY₂]
          exact wIn_setNode (List.mem_singleton.mpr rfl) _
        · intro d hd
          exact hd
    · -- internal node
      rename_i hemp
      rw [if_neg hemp]
      obtain ⟨c0, hc0, h⟩ := bindOk h
      obtain ⟨st1, h1, h⟩ := bindOk h
      obtain ⟨st2, h2, h⟩ := bindOk h
      obtain ⟨st3, h3, h⟩ := bindOk h
      have hc0get : (st t).children[0]? = some c0 := by
        have hg := get_of_childAt hc0
        rw [hchY] at hg
        exact hg
      rcases hch : (st t).children with _ | ⟨c0', crest⟩
      · rw [hch] at hc0get
        simp at hc0get
      · have hc00 : c0 = c0' := by
          rw [hch] at hc0get
          simp at hc0get
          exact hc0get.symm
        subst hc00
        have hrepelim := repB_succ_elim hrep
        obtain ⟨hc0p, hc0rep⟩ :=
          hrepelim c0 (by rw [hch]; exact List.mem_cons_self _ _)
        have hnd0 := hnd
        simp only [idsF, hch, idsList] at hnd0
        rw [List.nodup_cons] at hnd0
        obtain ⟨htn, hndl⟩ := hnd0
        rw [List.nodup_append] at hndl
        obtain ⟨hndc0, hndrest, hdisj⟩ := hndl
        have htc0 : t ∉ idsF fuel st c0 :=
          fun hm => htn (List.mem_append.mpr (Or.inl hm))
        have htrest : t ∉ idsList (idsF fuel st) crest :=
          fun hm => htn (List.mem_append.mpr (Or.inr hm))
        have hidsY : idsF fuel stY c0 = idsF fuel st c0 :=
          idsF_shape fuel st stY c0 hshY
        have hmemc0 : ∀ j ∈ idsF fuel st c0, j ∈ idsF (fuel + 1) st t := by
          intro j hj
          simp only [idsF, hch, idsList, List.mem_cons, List.mem_append]
          exact Or.inr (Or.inl hj)
        have hmemrest : ∀ j ∈ idsList (idsF fuel st) crest,
            j ∈ idsF (fuel + 1) st t := by
          intro j hj
          simp only [idsF, hch, idsList, List.mem_cons, List.mem_append]
          exact Or.inr (Or.inr hj)
        have hmemPU : ∀ j ∈ idsF fuel st c0 ++ idsList (idsF fuel st) crest,
            j ∈ idsF (fuel + 1) st t := by
          intro j hj
          rw [List.mem_append] at hj
          rcases hj with hj | hj
          · exact hmemc0 j hj
          · exact hmemrest j hj
        obtain ⟨st₂1, h1₂, hEq1, hy1, hcl1, hW1a, hW1b⟩ :=
          ih stY stY₂ c0 st1
            ((repB_shape fuel st stY c0 hshY).trans hc0rep)
            (by rw [hidsY]; exact hndc0)
            hEqY
            (by rw [(hshY c0).2.1, hc0p]; exact hyTY)
            (by
              intro j hj
              rw [hidsY] at hj
              exact ⟨(hthrY j).1.trans (hthr j (hmemc0 j hj)).1,
                (hthrY j).2.trans (hthr j (hmemc0 j hj)).2⟩)
            h1
        rw [hidsY] at hy1 hcl1 hW1a hW1b
        have hsh1 : ShapeEq st st1 :=
          shapeEq_trans hshY (firstwalk_shape fuel stY c0 st1 h1)
        have hrec1t : st1 t = stY t := hW1a t htc0
        have hrec1t₂ : st₂1 t = stY₂ t := hW1b t htc0
        have hch1 : (st1 t).children = (st t).children := by
          rw [hrec1t]
          exact hchY
        have hcrest : (st1 t).children.drop 1 = crest := by
          rw [hch1, hch]
          rfl
        have hids1 : idsList (idsF fuel st1) crest =
            idsList (idsF fuel st) crest :=
          idsList_congr (fun d => idsF_shape fuel st st1 d hsh1) crest
        obtain ⟨st₂2, h2₂, hEq2, hy2, hyT2, hcl2, hW2a, hW2b⟩ :=
          fwChildren_sim fuel ih ((st1 t).children.drop 1) (idsF fuel st c0)
            st1 st₂1 t 1 (updateIYL (bottom st1 c0) 0 []) st2
            hEq1 hy1
            (by
              rw [show (st1 t).y = (stY t).y from congrArg NodeData.y hrec1t,
                show (st₂1 t).y = (stY₂ t).y from congrArg NodeData.y hrec1t₂]
              exact hyTY)
            hcl1
            (by
              rw [hcrest]
              intro c' hc'
              obtain ⟨hdp, hdrep⟩ :=
                hrepelim c' (by rw [hch]; exact List.mem_cons_of_mem _ hc')
              exact ⟨(hsh1 c').2.1.trans hdp,
                (repB_shape fuel st st1 c' hsh1).trans hdrep⟩)
            (by
              rw [hcrest, hids1, List.nodup_cons]
              exact ⟨htn,
                List.nodup_append.mpr ⟨hndc0, hndrest, hdisj⟩⟩)
            (by
              intro j hj
              rw [hcrest, hids1] at hj
              have hj1 : st1 j = stY j := hW1a j (fun hm => hdisj hm hj)
              rw [hj1]
              exact ⟨(hthrY j).1.trans (hthr j (hmemrest j hj)).1,
                (hthrY j).2.trans (hthr j (hmemrest j hj)).2⟩)
            (by
              intro k c' hk hkc
              have hk0 : k = 0 := Nat.lt_one_iff.mp hk
              subst hk0
              rw [hch1, hch] at hkc
              simp at hkc
              subst hkc
              exact self_mem_idsF_of_rep hc0rep)
            rfl
            (by
              intro e he
              simp only [updateIYL, dropEvicted, List.mem_cons,
                List.not_mem_nil, or_false] at he
              subst he
              exact Nat.lt_one_iff.mpr rfl)
            h2
        have hPU : idsF fuel st c0 ++
            idsList (idsF fuel st1) ((st1 t).children.drop 1) =
            idsF fuel st c0 ++ idsList (idsF fuel st) crest := by
          rw [hcrest, hids1]
        rw [hPU] at hy2 hcl2 hW2a hW2b
        have hsh2 : ShapeEq st st2 :=
          shapeEq_trans hsh1
            (fwChildren_shape (firstwalk fuel) (separate fuel)
              (fun sa ca sa' hh => firstwalk_shape fuel sa ca sa' hh)
              (fun sa ta ia la ra hh => separate_shape fuel sa ta ia la ra hh)
              _ _ _ _ _ _ h2)
        have htPU : t ∉ idsF fuel st c0 ++ idsList (idsF fuel st) crest := by
          intro hm
          rw [List.mem_append] at hm
          rcases hm with hm | hm
          · exact htc0 hm
          · exact htrest hm
        have hrec2t : st2 t = stY t := by
          rw [hW2a t htPU, hrec1t]
        have hrec2t₂ : st₂2 t = stY₂ t := by
          rw [hW2b t htPU, hrec1t₂]
        obtain ⟨st₂3, h3₂, hEq3, hW3a, hW3b⟩ := position_root_sim hEq2 t h3
        obtain ⟨st₂', h₂, hEqS, hW4a, hW4b⟩ := set_extremes_sim hEq3 t h
        have hinP := walkInert_y (position_root_inert _ _ _ h3)
        have hinP₂ := walkInert_y (position_root_inert _ _ _ h3₂)
        have hinS := walkInert_y (set_extremes_inert _ _ _ h)
        have hinS₂ := walkInert_y (set_extremes_inert _ _ _ h₂)
        have hsh3 : ShapeEq st st3 :=
          shapeEq_trans hsh2 (position_root_shape _ _ _ h3)
        have hshF : ShapeEq st st' :=
          shapeEq_trans hsh3 (set_extremes_shape _ _ _ h)
        have hmemtl : ∀ d ∈ ([t] : List Nat), d ∈ idsF (fuel + 1) st t := by
          intro d hd
          rw [List.mem_singleton] at hd
          subst hd
          exact htmem
        have hcin3 := position_root_cInert _ _ _ h3
        have htlr4 := set_extremes_tlr _ _ _ h
        refine ⟨st₂', ?_, hEqS, ?_, ?_, ?_, ?_⟩
        · rw [childAt_pair hEqY, hc0]
          simp only [ok_bind]
          rw [h1₂]
          simp only [ok_bind]
          rw [show (st₂1 t).children = (st1 t).children from
              ((hEq1 t).1).symm,
            bottom_pair hEq1 (hy1 c0 (self_mem_idsF_of_rep hc0rep)), h2₂]
          simp only [ok_bind]
          rw [h3₂]
          simp only [ok_bind]
          exact h₂
        · intro j hj
          simp only [idsF, hch, idsList, List.mem_cons, List.mem_append] at hj
          rcases hj with hjt | hj | hj
          · rw [hjt, (hinS t).1, (hinP t).1, (hinS₂ t).1, (hinP₂ t).1,
              congrArg NodeData.y hrec2t, congrArg NodeData.y hrec2t₂]
            exact hyTY
          · rw [(hinS j).1, (hinP j).1, (hinS₂ j).1, (hinP₂ j).1]
            exact hy2 j (List.mem_append.mpr (Or.inl hj))
          · rw [(hinS j).1, (hinP j).1, (hinS₂ j).1, (hinP₂ j).1]
            exact hy2 j (List.mem_append.mpr (Or.inr hj))
        · intro j hj
          simp only [idsF, hch, idsList, List.mem_cons, List.mem_append] at hj
          rcases hj with hjt | hj | hj
          · rw [hjt]
            refine ⟨?_, ?_, ?_, ?_, ?_⟩
            · intro d hd
              rw [(hshF t).1, hch] at hd
              rcases List.mem_cons.mp hd with rfl | hd
              · exact hmemc0 d (self_mem_idsF_of_rep hc0rep)
              · obtain ⟨_, hdrep⟩ :=
                  hrepelim d (by rw [hch]; exact List.mem_cons_of_mem _ hd)
                exact hmemrest d (mem_idsList.mpr
                  ⟨d, hd, self_mem_idsF_of_rep hdrep⟩)
            · rcases set_extremes_cases _ _ _ h with ⟨hlen0, _, _⟩ |
                ⟨d0, dn, hd0, hdn, hel, her⟩
              · rw [(hsh3 t).1, hch] at hlen0
                simp at hlen0
              · rw [(hsh3 t).1, hch] at hd0
                simp at hd0
                subst hd0
                rw [hel, (hcin3 c0).1]
                have hc0PU : c0 ∈ idsF fuel st c0 ++
                    idsList (idsF fuel st) crest :=
                  List.mem_append.mpr (Or.inl (self_mem_idsF_of_rep hc0rep))
                exact hmemPU _ ((hcl2 c0 hc0PU).2.1)
            · rcases set_extremes_cases _ _ _ h with ⟨hlen0, _, _⟩ |
                ⟨d0, dn, hd0, hdn, hel, her⟩
              · rw [(hsh3 t).1, hch] at hlen0
                simp at hlen0
              · have hdnPU : dn ∈ idsF fuel st c0 ++
                    idsList (idsF fuel st) crest := by
                  rw [(hsh3 t).1] at hdn
                  have hdnm : dn ∈ (st t).children := List.getElem?_mem hdn
                  rw [hch] at hdnm
                  rcases List.mem_cons.mp hdnm with rfl | hdnm
                  · exact List.mem_append.mpr
                      (Or.inl (self_mem_idsF_of_rep hc0rep))
                  · obtain ⟨_, hdrep⟩ := hrepelim dn
                      (by rw [hch]; exact List.mem_cons_of_mem _ hdnm)
                    exact List.mem_append.mpr (Or.inr (mem_idsList.mpr
                      ⟨dn, hdnm, self_mem_idsF_of_rep hdrep⟩))
                rw [her, (hcin3 dn).2.1]
                exact hmemPU _ ((hcl2 dn hdnPU).2.2.1)
            · intro u hu
              rw [(htlr4 t).1, (hcin3 t).2.2.1,
                congrArg NodeData.tl hrec2t, (hthrY t).1,
                (hthr t htmem).1] at hu
              exact absurd hu (by simp)
            · intro u hu
              rw [(htlr4 t).2, (hcin3 t).2.2.2,
                congrArg NodeData.tr hrec2t, (hthrY t).2,
                (hthr t htmem).2] at hu
              exact absurd hu (by simp)
          · have hjt : j ≠ t := fun hh => htc0 (hh ▸ hj)
            have hrecj : st' j = st2 j := by
              rw [hW4a j (fun hm => hjt (List.mem_singleton.mp hm)),
                hW3a j (fun hm => hjt (List.mem_singleton.mp hm))]
            rw [hrecj]
            obtain ⟨p1, p2, p3, p4, p5⟩ :=
              hcl2 j (List.mem_append.mpr (Or.inl hj))
            exact ⟨fun d hd => hmemPU d (p1 d hd), hmemPU _ p2, hmemPU _ p3,
              fun u hu => hmemPU u (p4 u hu), fun u hu => hmemPU u (p5 u hu)⟩
          · have hjt : j ≠ t := fun hh => htrest (hh ▸ hj)
            have hrecj : st' j = st2 j := by
              rw [hW4a j (fun hm => hjt (List.mem_singleton.mp hm)),
                hW3a j (fun hm => hjt (List.mem_singleton.mp hm))]
            rw [hrecj]
            obtain ⟨p1, p2, p3, p4, p5⟩ :=
              hcl2 j (List.mem_append.mpr (Or.inr hj))
            exact ⟨fun d hd => hmemPU d (p1 d hd), hmemPU _ p2, hmemPU _ p3,
              fun u hu => hmemPU u (p4 u hu), fun u hu => hmemPU u (p5 u hu)⟩
        · refine wIn_trans ?_ (wIn_trans (wIn_mono hmemc0 hW1a)
            (wIn_trans (wIn_mono hmemPU hW2a)
              (wIn_trans (wIn_mono hmemtl hW3a) (wIn_mono hmemtl hW4a))))
          rw [hstY]
          exact wIn_setNode htmem _
        · refine wIn_trans ?_ (wIn_trans (wIn_mono hmemc0 hW1b)
            (wIn_trans (wIn_mono hmemPU hW2b)
              (wIn_trans (wIn_mono hmemtl hW3b) (wIn_mono hmemtl hW4b))))
          rw [hstY₂]
          exact wIn_setNode htmem _

theorem acsLoop_sim : ∀ (cs : List Nat) {st st₂ : Store}, EqWS st st₂ →
    ∀ d m, EqWS (acsLoop st cs d m) (acsLoop st₂ cs d m) := by
  intro cs
  induction cs with
  | nil =>
    intro st st₂ hEq d m
    exact hEq
  | cons c rest ih =>
    intro st st₂ hEq d m
    simp only [acsLoop]
    rw [show (st₂ c).shift = (st c).shift from
        ((hEq c).2.2.2.2.2.2.1).symm,
      show (st₂ c).change = (st c).change from
        ((hEq c).2.2.2.2.2.2.2.1).symm]
    refine ih ?_ _ _
    refine eqWS_setNode hEq c ?_
    obtain ⟨e1, e2, e3, e4, e5, e6, e7, e8, e9, e10, e11, e12, e13, e14⟩ :=
      hEq c
    exact ⟨e1, e2, e3, e4, e5, by rw [e6], rfl, rfl, e9, e10, e11, e12, e13, e14⟩

theorem swChildren_sim (fuel : Nat)
    (hsw : ∀ st st₂ t m st', EqWS st st₂ →
      secondwalk fuel st t m = .ok st' →
      ∃ st₂', secondwalk fuel st₂ t m = .ok st₂' ∧ EqWS st' st₂' ∧
        ∀ j, (st' j).x = (st₂' j).x ∨
          ((st' j).x = (st j).x ∧ (st' j).xWrites = (st j).xWrites ∧
            (st₂' j).x = (st₂ j).x)) :
    ∀ cs st st₂ m st', EqWS st st₂ →
    swChildren (secondwalk fuel) st cs m = .ok st' →
    ∃ st₂', swChildren (secondwalk fuel) st₂ cs m = .ok st₂' ∧
      EqWS st' st₂' ∧
      ∀ j, (st' j).x = (st₂' j).x ∨
        ((st' j).x = (st j).x ∧ (st' j).xWrites = (st j).xWrites ∧
          (st₂' j).x = (st₂ j).x) := by
  intro cs
  induction cs with
  | nil =>
    intro st st₂ m st' hEq h
    cases h
    exact ⟨st₂, rfl, hEq, fun j => Or.inr ⟨rfl, rfl, rfl⟩⟩
  | cons c rest ih =>
    intro st st₂ m st' hEq h
    simp only [swChildren] at h
    obtain ⟨st1, h1, h⟩ := bindOk h
    obtain ⟨st₂1, h1₂, hEq1, hx1⟩ := hsw st st₂ c m st1 hEq h1
    obtain ⟨st₂', hrec, hEqF, hxF⟩ := ih st1 st₂1 m st' hEq1 h
    refine ⟨st₂', ?_, hEqF, ?_⟩
    · simp only [swChildren]
      rw [h1₂]
      simp only [ok_bind]
      exact hrec
    · intro j
      rcases hxF j with hx | ⟨ha, hb, hc⟩
      · exact Or.inl hx
      · rcases hx1 j with hx | ⟨ha', hb', hc'⟩
        · exact Or.inl (ha.trans (hx.trans hc.symm))
        · exact Or.inr ⟨ha.trans ha', hb.trans hb', hc.trans hc'⟩

theorem secondwalk_sim (fuel : Nat) :
    ∀ st st₂ t m st', EqWS st st₂ →
    secondwalk fuel st t m = .ok st' →
    ∃ st₂', secondwalk fuel st₂ t m = .ok st₂' ∧ EqWS st' st₂' ∧
      ∀ j, (st' j).x = (st₂' j).x ∨
        ((st' j).x = (st j).x ∧ (st' j).xWrites = (st j).xWrites ∧
          (st₂' j).x = (st₂ j).x) := by
  induction fuel with
  | zero =>
    intro st st₂ t m st' _ h
    exact absurd h (by simp [secondwalk])
  | succ fuel ih =>
    intro st st₂ t m st' hEq h
    simp only [secondwalk] at h ⊢
    rw [show (st₂ t).mod = (st t).mod from ((hEq t).2.2.2.2.2.1).symm,
      show (st₂ t).prelim = (st t).prelim from ((hEq t).2.2.2.2.1).symm]
    set stX := setX st t ((st t).prelim + (m + (st t).mod)) with hstX
    set stX₂ := setX st₂ t ((st t).prelim + (m + (st t).mod)) with hstX₂
    have hEqX : EqWS stX stX₂ := by
      rw [hstX, hstX₂]
      exact eqWS_setX hEq t _ _
    have hEqA : EqWS (add_child_spacing stX t) (add_child_spacing stX₂ t) := by
      unfold add_child_spacing
      rw [show (stX₂ t).children = (stX t).children from ((hEqX t).1).symm]
      exact acsLoop_sim (stX t).children hEqX 0 0
    rw [show (add_child_spacing stX₂ t t).children =
        (add_child_spacing stX t t).children from ((hEqA t).1).symm]
    obtain ⟨st₂', hrec, hEqF, hxF⟩ :=
      swChildren_sim fuel ih (add_child_spacing stX t t).children
        (add_child_spacing stX t) (add_child_spacing stX₂ t) (m + (st t).mod)
        st' hEqA h
    refine ⟨st₂', hrec, hEqF, ?_⟩
    intro j
    have hA : XInert stX (add_child_spacing stX t) :=
      walkInert_x (acsLoop_inert ((stX t).children) stX 0 0)
    have hA₂ : XInert stX₂ (add_child_spacing stX₂ t) :=
      walkInert_x (acsLoop_inert ((stX₂ t).children) stX₂ 0 0)
    rcases hxF j with hx | ⟨ha, hb, hc⟩
    · exact Or.inl hx
    · by_cases hjt : j = t
      · subst hjt
        have hv1 : (stX j).x = (st j).prelim + (m + (st j).mod) := by
          rw [hstX]
          simp [setX, setNode]
        have hv2 : (stX₂ j).x = (st j).prelim + (m + (st j).mod) := by
          rw [hstX₂]
          simp [setX, setNode]
        exact Or.inl (by rw [ha, (hA j).1, hv1, hc, (hA₂ j).1, hv2])
      · have hu1 : (stX j).x = (st j).x ∧ (stX j).xWrites = (st j).xWrites := by
          rw [hstX]
          simp [setX, setNode, hjt]
        have hu2 : (stX₂ j).x = (st₂ j).x := by
          rw [hstX₂]
          simp [setX, setNode, hjt]
        exact Or.inr ⟨ha.trans ((hA j).1.trans hu1.1),
          hb.trans ((hA j).2.trans hu1.2),
          hc.trans ((hA₂ j).1.trans hu2)⟩

/-- C8: idempotence of `layout`.  If `layout` succeeds on a neutral tree
store, then resetting every node's working fields to neutral while keeping
the structure, the sizes and the computed coordinates, and running
`layout` again, succeeds and reproduces exactly the same `x` and `y` on
every reachable node. -/
theorem C8_idempotent (fuel : Nat) (st : Store) (root : Nat) (stA : Store)
    (hrep : repB fuel st root = true) (hnd : (idsF fuel st root).Nodup)
    (hneut : NeutralW st) (hroot : (st root).parent = none)
    (h1 : layout fuel st root = .ok stA) :
    ∃ stB, layout fuel (resetW stA) root = .ok stB ∧
      ∀ j ∈ idsF fuel st root,
        (stB j).x = (stA j).x ∧ (stB j).y = (stA j).y := by
  unfold layout at h1 ⊢
  obtain ⟨stM, hM, hS⟩ := bindOk h1
  have hshM : ShapeEq st stM := firstwalk_shape fuel st root stM hM
  have hsh : ShapeEq st stA :=
    shapeEq_trans hshM (secondwalk_shape fuel stM root 0 stA hS)
  have hEq0 : EqWS st (resetW stA) := by
    intro j
    obtain ⟨n1, n2, n3, n4, n5, n6, n7, n8, n9, n10⟩ := hneut j
    exact ⟨(hsh j).1.symm, (hsh j).2.1.symm, (hsh j).2.2.1.symm,
      (hsh j).2.2.2.symm, n1, n2, n3, n4, n5, n6, n7, n8, n9, n10⟩
  have hy0 : (match (st root).parent with
      | some p => (st p).y = (resetW stA p).y
      | none => True) := by
    rw [hroot]
    trivial
  obtain ⟨stM₂, hM₂, hEqM, hyM, _, _, _⟩ :=
    firstwalk_sim fuel st (resetW stA) root stM hrep hnd hEq0 hy0
      (fun j _ => ⟨(hneut j).2.2.2.2.1, (hneut j).2.2.2.2.2.1⟩) hM
  obtain ⟨stB, hS₂, hEqB, hxB⟩ :=
    secondwalk_sim fuel stM stM₂ root 0 stA hEqM hS
  refine ⟨stB, ?_, ?_⟩
  · rw [hM₂]
    simp only [ok_bind]
    exact hS₂
  · intro j hj
    constructor
    · rcases hxB j with hx | ⟨ha, hb, hc⟩
      · exact hx.symm
      · exfalso
        have hidsM : idsF fuel stM root = idsF fuel st root :=
          idsF_shape fuel st stM root hshM
        have hbump := secondwalk_x_main fuel stM root 0 stA
          (by rw [hidsM]; exact hnd) hS j (by rw [hidsM]; exact hj)
        rw [hb] at hbump
        omega
    · have hk1 := secondwalk_keeps_y fuel stM root 0 stA hS
      have hk2 := secondwalk_keeps_y fuel stM₂ root 0 stB hS₂
      rw [(hk2 j).1, (hk1 j).1]
      exact (hyM j hj).symm

theorem twoStore_neutral : NeutralW twoStore := by
  intro j
  by_cases h0 : j = 0
  · subst h0
    decide
  · by_cases h1 : j = 1
    · subst h1
      decide
    · by_cases h2 : j = 2
      · subst h2
        decide
      · simp [twoStore, blank, h0, h1, h2]

/-- C8 witness: on the three-node `twoStore`, the second run after the
reset succeeds and reproduces the first run's coordinates. -/
theorem C8_idempotent_witness :
    repB 20 twoStore 0 = true ∧ (idsF 20 twoStore 0).Nodup ∧
    NeutralW twoStore ∧ (twoStore 0).parent = none ∧
    layout 20 twoStore 0 = .ok twoFinal ∧
    ∃ stB, layout 20 (resetW twoFinal) 0 = .ok stB ∧
      ∀ j ∈ idsF 20 twoStore 0,
        (stB j).x = (twoFinal j).x ∧ (stB j).y = (twoFinal j).y :=
  ⟨by decide, by decide, twoStore_neutral, rfl, rfl,
    C8_idempotent 20 twoStore 0 twoFinal (by decide) (by decide)
      twoStore_neutral rfl rfl⟩

/-- C2 witness: the three-node `twoStore` satisfies the hypotheses, and the
theorem yields `y = 0` at the root and the spacing relation at child 1. -/
theorem C2_row_spacing_witness :
    repB 20 twoStore 0 = true ∧ (twoStore 0).parent = none ∧
    layout 20 twoStore 0 = .ok twoFinal ∧
    (twoFinal 0).y = 0 ∧
    (twoFinal 1).y = (twoFinal 0).y + (twoFinal 0).h + V_SPACING :=
  ⟨by decide, rfl, rfl,
    (C2_row_spacing 20 twoStore 0 twoFinal (by decide) (by decide) rfl rfl).1,
    (C2_row_spacing 20 twoStore 0 twoFinal (by decide) (by decide) rfl rfl).2
      1 (by decide) (by decide) 0 rfl⟩

end TidyTree
